import Mathlib

/-!
# The `drops` contract (src/contract/drops.cpp): model and verification

A shallow embedding of the contract's actions as functions on an explicit
storage state.

Modelling conventions
* every `multi_index` table is a list of rows kept in primary-key order;
  `find` returns the first matching row of the index, `modify` and `erase`
  act on the row an iterator points to (the first match), `emplace` refuses
  an existing primary key (the host aborts the transaction on a duplicate
  key) and `available_primary_key` is one more than the largest key;
* a failed `check`, a dereferenced or modified `end()` iterator and a failed
  host call all abort the action: the action returns `Except.error` and the
  storage stays as it was (see `commit_or_rollback`);
* `uint64_t` arithmetic is arithmetic modulo `2^64`;
* `std::string` values are Lean strings (text), compared character by
  character; `name` values and the composite 128-bit index keys
  `(name << 64) + epoch` are identified with the pair of their components;
* `require_auth` is not modelled: every action is taken to be authorised;
* the header `drops.hpp`, the RAM market (`ram.hpp`), `sha256` and the clock
  are not part of the sources; they enter through `Host` (fixed data) and
  `Ctx` (data that may change from call to call).
-/

namespace drops

/-! ## Basic types -/

/-- An account name (`eosio::name`), given by its 64-bit value. -/
abbrev name := Nat

/-- A 256-bit digest, read as a big-endian number. -/
abbrev checksum256 := Nat

/-- Microseconds since the Unix epoch (`eosio::time_point`). -/
abbrev time_point := Int

/-- The name `"eosio"_n`. -/
def eosio : name := 6138663577826885632

/-- The name `"eosio.ram"_n`. -/
def eosio_ram : name := 6138663590285017088

/-- The name `"eosio.token"_n`. -/
def eosio_token : name := 6138663591592764928

/-- An `eosio::asset`: an amount of a token with a given symbol. -/
structure asset where
  amount : Int
  symbol : Nat
deriving DecidableEq, Repr

/-- Addition of two `uint64_t` values. -/
def add64 (a b : Nat) : Nat := (a + b) % 2 ^ 64

/-- Subtraction of two `uint64_t` values (wraps below zero). -/
def sub64 (a b : Nat) : Nat := (a % 2 ^ 64 + 2 ^ 64 - b % 2 ^ 64) % 2 ^ 64

/-- The duration `eosio::seconds(n)` in microseconds. -/
def seconds (n : Nat) : Int := (n : Int) * 1000000

/-! ## Rows of the tables -/

/-- Row of the `epochs` table (primary key `epoch`). -/
structure epoch_row where
  epoch : Nat
  start : time_point
  end_ : time_point
  oracles : List name
  completed : Nat
deriving DecidableEq, Repr

/-- Row of the `commits` table (primary key `id`, index `epochoracle`). -/
structure commit_row where
  id : Nat
  epoch : Nat
  oracle : name
  commit : checksum256
deriving DecidableEq, Repr

/-- Row of the `reveals` table (primary key `id`, indices `epoch` and
`epochoracle`). -/
structure reveal_row where
  id : Nat
  epoch : Nat
  oracle : name
  reveal : String
deriving DecidableEq, Repr

/-- Row of the `epochdrop` table (primary key `epoch`): the entropy of a
completed epoch. -/
structure epochdrop_row where
  epoch : Nat
  drops : checksum256
deriving DecidableEq, Repr

/-- Row of the `drop` table (primary key `drops`, the 64-bit id). -/
structure drop_row where
  drops : Nat
  owner : name
  epoch : Nat
deriving DecidableEq, Repr

/-- Row of the `accounts` table (primary key `account`). -/
structure account_row where
  account : name
  drops : Nat
deriving DecidableEq, Repr

/-- Row of the `stats` table (primary key `id`, index `accountepoch`). -/
structure stat_row where
  id : Nat
  account : name
  epoch : Nat
  drops : Nat
deriving DecidableEq, Repr

/-- The single row (id 1) of the `state` table. -/
structure state_row where
  epoch : Nat
  enabled : Bool
deriving DecidableEq, Repr

/-- The contract's storage: one field per table. `state` is `none` until
`init` has stored the state row. -/
structure State where
  state : Option state_row
  epochs : List epoch_row
  oracles : List name
  subscribers : List name
  commits : List commit_row
  reveals : List reveal_row
  epochdrops : List epochdrop_row
  drops : List drop_row
  accounts : List account_row
  stats : List stat_row
deriving DecidableEq, Repr

/-- The storage before any action has run. -/
def State.empty : State :=
  { state := none, epochs := [], oracles := [], subscribers := [], commits := [],
    reveals := [], epochdrops := [], drops := [], accounts := [], stats := [] }

/-- What an action sends out: notifications and inline actions. -/
inductive effect where
  | require_recipient (account : name)
  | buyrambytes (payer receiver : name) (bytes : Nat)
  | sellram (account : name) (bytes : Nat)
  | token_transfer (from_ to_ : name) (quantity : asset) (memo : String)
deriving DecidableEq, Repr

/-- Fixed data the contract is compiled against: its own account, the
constants of `drops.hpp` and the `sha256` intrinsic. -/
structure Host where
  self : name
  EOS : Nat
  sha256 : String → checksum256
  epochphasetimer : Nat
  record_size : Nat
  purchase_buffer : Nat
  accounts_row : Nat
  stats_row : Nat

/-- Data read from the chain during one call: the clock, the account
registry and the RAM market prices (`ramcostwithfee`,
`ramproceedstminusfee`, given by the amount they return). -/
structure Ctx where
  now : time_point
  is_account : name → Bool
  ramcostwithfee : Nat → Int
  ramproceedstminusfee : Nat → Int

/-! ## Table primitives -/

/-- The effect of `modify` through an iterator: the first row matching `p`
is replaced by its image under `f`. -/
def modify {α : Type} (p : α → Bool) (f : α → α) : List α → List α
  | [] => []
  | r :: t => if p r then f r :: t else r :: modify p f t

/-- Insertion of a row at its place in primary-key order. -/
def insert_row {α : Type} (key : α → Nat) (r : α) : List α → List α
  | [] => [r]
  | x :: t => if key r < key x then r :: x :: t else x :: insert_row key r t

/-- The effect of `emplace`: `none` when the primary key is already in the
table. -/
def emplace {α : Type} (key : α → Nat) (r : α) (t : List α) : Option (List α) :=
  if t.any (fun x => key x == key r) then none else some (insert_row key r t)

/-- The next free primary key: `0` for an empty table, otherwise the
largest key plus one. -/
def available_primary_key {α : Type} (key : α → Nat) (t : List α) : Nat :=
  t.foldr (fun x m => max (key x + 1) m) 0

/-- Storage after an action: its result when it succeeded, the storage it
started from when it aborted. -/
def commit_or_rollback {ε : Type} (s : State) : Except ε State → State
  | .ok s' => s'
  | .error _ => s

/-! ## Strings -/

/-- The order of `std::string::operator<` used by `std::sort`: lexicographic
on the characters. -/
def string_le (a b : String) : Prop := a.toList ≤ b.toList

instance : DecidableRel string_le :=
  fun a b => inferInstanceAs (Decidable (a.toList ≤ b.toList))

/-- Position of the first character satisfying `p`, counting from `i`. -/
def find_from (p : Char → Bool) : List Char → Nat → Option Nat
  | [], _ => none
  | c :: cs, i => if p c then some i else find_from p cs (i + 1)

/-- The call `str.find_first_not_of(delim, pos)`; `none` is `npos`. -/
def find_first_not_of (str : List Char) (delim : Char) (pos : Nat) : Option Nat :=
  find_from (fun c => c != delim) (str.drop pos) pos

/-- The call `str.find(delim, pos)`; `none` is `npos`. -/
def find_char (str : List Char) (delim : Char) (pos : Nat) : Option Nat :=
  find_from (fun c => c == delim) (str.drop pos) pos

/-- The call `str.substr(start, end - start)` where `end` may be `npos`. -/
def substr (str : List Char) (start : Nat) (end_ : Option Nat) : String :=
  match end_ with
  | none => String.mk (str.drop start)
  | some e => String.mk ((str.drop start).take (e - start))

/-- The loop of `split`: `end_` is the loop variable `end` (`none` for
`npos`), `strings` the accumulator. Every round moves `end` forward, so
`str.length + 1` rounds are enough. -/
def split_loop (str : List Char) (delim : Char) : Nat → Option Nat → List String → List String
  | 0, _, strings => strings
  | fuel + 1, end_, strings =>
    match end_ with
    | none => strings
    | some e =>
      match find_first_not_of str delim e with
      | none => strings
      | some start =>
        let end1 := find_char str delim start
        split_loop str delim fuel end1 (strings ++ [substr str start end1])

/-- The function `drops::split`. -/
def split (str : String) (delim : Char) : List String :=
  split_loop str.toList delim (str.toList.length + 1) (some 0) []

/-- The C function `isspace` (C locale). -/
def isspace (c : Char) : Bool :=
  c == ' ' || (9 ≤ c.toNat && c.toNat ≤ 13)

/-- The characters `std::stoi` reads its digits from: the string without
leading white space and without one leading sign. -/
def stoi_body (str : String) : List Char :=
  let s1 := str.toList.dropWhile isspace
  if s1.head? == some '-' || s1.head? == some '+' then s1.drop 1 else s1

/-- The number `std::stoi` reads: the leading decimal digits of `stoi_body`,
negated after a minus sign. -/
def stoi_value (str : String) : Int :=
  let v : Nat :=
    ((stoi_body str).takeWhile Char.isDigit).foldl (fun acc d => 10 * acc + (d.toNat - 48)) 0
  if (str.toList.dropWhile isspace).head? == some '-' then -(v : Int) else (v : Int)

/-- The function `std::stoi`: optional white space, an optional sign, then
decimal digits; `none` when there is no digit (`std::invalid_argument`) or
the value does not fit an `int` (`std::out_of_range`). -/
def stoi (str : String) : Option Int :=
  if (stoi_body str).takeWhile Char.isDigit = [] then none
  else if stoi_value str < -2147483648 ∨ 2147483647 < stoi_value str then none
  else some (stoi_value str)

/-- The 32 bytes of a digest, most significant first
(`extract_as_byte_array`). -/
def extract_as_byte_array (c : checksum256) : List Nat :=
  (List.range 32).map (fun k => c / 256 ^ (31 - k) % 256)

/-- The value `memcpy` puts into a `uint64_t` from the first eight bytes of
a byte array (little-endian). -/
def memcpy_uint64 (bytes : List Nat) : Nat :=
  (bytes.take 8).foldr (fun b acc => b + 256 * acc) 0

/-! ## Randomness aggregation -/

/-- The function `drops::compute_epoch_value`: the digest of the epoch number
in decimal followed by the sorted reveal values of the epoch. -/
def compute_epoch_value (h : Host) (s : State) (epoch : Nat) : Except String checksum256 :=
  match s.epochs.find? (fun r => r.epoch == epoch) with
  | none => .error "Epoch does not exist"
  | some _ =>
    match s.reveals.find? (fun r => r.epoch == epoch) with
    | none => .error "Epoch has no reveal values?"
    | some _ =>
      let reveals := (s.reveals.filter (fun r => r.epoch == epoch)).map (fun r => r.reveal)
      let sorted := reveals.insertionSort string_le
      let result := sorted.foldl (fun acc reveal => acc ++ reveal) (Nat.repr epoch)
      .ok (h.sha256 result)

/-! ## Epoch scheduling -/

/-- The function `drops::advance_epoch`: one step of the epoch pointer. It
returns the new storage, the notifications and the new epoch record. -/
def advance_epoch (h : Host) (c : Ctx) (s : State) :
    Except String (State × List effect × epoch_row) :=
  match s.state with
  | none => .error "state row not found"
  | some st =>
    if st.enabled = false then .error "Contract is currently disabled."
    else
      match s.epochs.find? (fun r => r.epoch == st.epoch) with
      | none => .error "Epoch from state does not exist."
      | some cur =>
        if c.now < cur.end_ then .error "Current epoch has not ended."
        else
          let new_epoch := add64 st.epoch 1
          let new_epoch_start := cur.end_
          let new_epoch_end := cur.end_ + seconds h.epochphasetimer
          if s.oracles = [] then .error "No oracles registered, cannot init."
          else
            let row : epoch_row :=
              { epoch := new_epoch, start := new_epoch_start, end_ := new_epoch_end,
                oracles := s.oracles, completed := 0 }
            match emplace (fun r => r.epoch) row s.epochs with
            | none => .error "primary key already in use"
            | some epochs1 =>
              .ok ({ s with state := some { st with epoch := new_epoch }, epochs := epochs1 },
                   s.subscribers.map effect.require_recipient, row)

/-- The loop of `drops::advance`: advance again while the clock has reached
the end of the epoch returned last. A round that cannot be run for lack of
fuel stands for a loop that does not terminate. -/
def advance_loop (h : Host) (c : Ctx) :
    Nat → State → List effect → epoch_row → Except String (State × List effect × epoch_row)
  | 0, s, out, new_epoch =>
    if c.now < new_epoch.end_ then .ok (s, out, new_epoch)
    else .error "transaction deadline exceeded"
  | fuel + 1, s, out, new_epoch =>
    if c.now < new_epoch.end_ then .ok (s, out, new_epoch)
    else
      match advance_epoch h c s with
      | .error e => .error e
      | .ok (s1, out1, next) => advance_loop h c fuel s1 (out ++ out1) next

/-- The action `drops::advance`. Every round moves the end of the epoch
forward by the phase duration, so the loop is given one round per phase
duration between the first new end and the clock. -/
def advance (h : Host) (c : Ctx) (s : State) :
    Except String (State × List effect × epoch_row) :=
  match advance_epoch h c s with
  | .error e => .error e
  | .ok (s1, out1, new_epoch) =>
    advance_loop h c (((c.now - new_epoch.end_) / seconds h.epochphasetimer).toNat + 1)
      s1 out1 new_epoch

/-! ## Issuance -/

/-- Result of `generate`. -/
structure generate_return_value where
  drops : Nat
  epoch : Nat
  cost : asset
  refund : asset
  total_drops : Nat
  epoch_drops : Nat
deriving DecidableEq, Repr

/-- The id of the drop number `i` minted from the seed `data`: the first
eight bytes of `sha256(to_string(i) + data)`. -/
def drop_id (h : Host) (i : Nat) (data : String) : Nat :=
  memcpy_uint64 (extract_as_byte_array (h.sha256 (Nat.repr i ++ data)))

/-- The minting loop of `generate`: rows number `i`, `i + 1`, ... for `n`
more rounds. -/
def generate_drops (h : Host) (from_ : name) (epoch : Nat) (data : String) :
    Nat → Nat → List drop_row → Option (List drop_row)
  | _, 0, drops => some drops
  | i, n + 1, drops =>
    match emplace (fun r => r.drops)
        { drops := drop_id h i data, owner := from_, epoch := epoch } drops with
    | none => none
    | some drops1 => generate_drops h from_ epoch data (i + 1) n drops1

/-- The checks of `generate` on the payment, the contract state and the
memo (lines 155 to 181): the current epoch, the number of drops and the
seed. -/
def generate_parse (h : Host) (s : State) (quantity : asset) (memo : String) :
    Except String (Nat × Nat × String) :=
  if quantity.amount ≤ 0 then .error "The transaction amount must be a positive value."
  else if quantity.symbol ≠ h.EOS then .error "Only the system token is accepted for transfers."
  else if memo.isEmpty then .error "A memo is required to send tokens to this contract"
  else
    match s.state with
    | none => .error "state row not found"
    | some st =>
      if st.enabled = false then .error "Contract is currently disabled."
      else
        match s.epochs.find? (fun r => r.epoch == st.epoch) with
        | none => .error "Epoch does not exist."
        | some _ =>
          match split memo ',' with
          | [p0, data] =>
            match stoi p0 with
            | none => .error "stoi"
            | some amount =>
              if amount ≤ 0 then
                .error "The amount of drops to generate must be a positive value."
              else if data.utf8ByteSize ≤ 32 then
                .error "Drop data must be at least 32 characters in length."
              else .ok (st.epoch, amount.toNat, data)
          | _ => .error "Memo data must contain 2 values, seperated by a comma: amount,drops_data."

/-- The number of bytes `generate` buys (lines 186 to 214): the drops, plus
an account row and a stat row when the payer has none. -/
def ram_purchase_amount (h : Host) (s : State) (from_ : name) (epoch amount : Nat) : Nat :=
  let ram0 := amount * (h.record_size + h.purchase_buffer) % 2 ^ 64
  let ram1 :=
    if (s.accounts.find? (fun r => r.account == from_)).isNone then add64 ram0 h.accounts_row
    else ram0
  if (s.stats.find? (fun r => r.account == from_ && r.epoch == epoch)).isNone then
    add64 ram1 h.stats_row
  else ram1

/-- The new total of the payer (lines 237 to 239). -/
def new_drops_total (accounts : List account_row) (from_ : name) (amount : Nat) : Nat :=
  match accounts.find? (fun r => r.account == from_) with
  | some a => add64 amount a.drops
  | none => amount

/-- The update of the account row of the payer (lines 238 to 246). -/
def credit_account (accounts : List account_row) (from_ : name) (amount : Nat) :
    Option (List account_row) :=
  match accounts.find? (fun r => r.account == from_) with
  | some _ =>
    some (modify (fun r => r.account == from_)
      (fun r => { r with drops := new_drops_total accounts from_ amount }) accounts)
  | none =>
    emplace (fun r => r.account)
      { account := from_, drops := new_drops_total accounts from_ amount } accounts

/-- The new count of the payer in the epoch (lines 249 to 251). -/
def new_drops_epoch (stats : List stat_row) (from_ : name) (epoch amount : Nat) : Nat :=
  match stats.find? (fun r => r.account == from_ && r.epoch == epoch) with
  | some x => add64 amount x.drops
  | none => amount

/-- The update of the stat row of the payer for the epoch (lines 250 to
260). -/
def credit_stat (stats : List stat_row) (from_ : name) (epoch amount : Nat) :
    Option (List stat_row) :=
  match stats.find? (fun r => r.account == from_ && r.epoch == epoch) with
  | some _ =>
    some (modify (fun r => r.account == from_ && r.epoch == epoch)
      (fun r => { r with drops := new_drops_epoch stats from_ epoch amount }) stats)
  | none =>
    emplace (fun r => r.id)
      { id := available_primary_key (fun r => r.id) stats,
        account := from_, drops := new_drops_epoch stats from_ epoch amount, epoch := epoch }
      stats

/-- The part of `generate` after the checks (lines 183 to 284): buy the RAM,
mint the drops, update the balances, compare the payment with the cost and
refund the rest. -/
def generate_mint (h : Host) (c : Ctx) (s : State) (from_ : name) (quantity : asset)
    (epoch amount : Nat) (data : String) :
    Except String (State × List effect × generate_return_value) :=
  match generate_drops h from_ epoch data 0 amount s.drops,
        credit_account s.accounts from_ amount,
        credit_stat s.stats from_ epoch amount with
  | some drops1, some accounts1, some stats1 =>
    if quantity.amount < c.ramcostwithfee (ram_purchase_amount h s from_ epoch amount) then
      .error "The amount sent does not cover the RAM purchase cost"
    else
      .ok ({ s with drops := drops1, accounts := accounts1, stats := stats1 },
           effect.buyrambytes h.self h.self (ram_purchase_amount h s from_ epoch amount) ::
             (if quantity.amount - c.ramcostwithfee (ram_purchase_amount h s from_ epoch amount) > 0
              then [effect.token_transfer h.self from_
                ⟨quantity.amount - c.ramcostwithfee (ram_purchase_amount h s from_ epoch amount),
                  h.EOS⟩ ""]
              else []),
           { drops := amount % 2 ^ 32, epoch := epoch,
             cost := ⟨c.ramcostwithfee (ram_purchase_amount h s from_ epoch amount), h.EOS⟩,
             refund := ⟨quantity.amount
               - c.ramcostwithfee (ram_purchase_amount h s from_ epoch amount), h.EOS⟩,
             total_drops := new_drops_total s.accounts from_ amount,
             epoch_drops := new_drops_epoch s.stats from_ epoch amount })
  | _, _, _ => .error "primary key already in use"

/-- The notification handler `drops::generate` (issue): nothing happens for
a transfer that is not a payment to the contract or carries the memo
`bypass`; otherwise the checks, then the minting. -/
def generate (h : Host) (c : Ctx) (s : State) (from_ to_ : name) (quantity : asset)
    (memo : String) : Except String (State × List effect × generate_return_value) :=
  if from_ = eosio_ram ∨ to_ ≠ h.self ∨ from_ = h.self ∨ memo = "bypass" then
    .ok (s, [], { drops := 0, epoch := 0, cost := ⟨0, h.EOS⟩, refund := ⟨0, h.EOS⟩,
                  total_drops := 0, epoch_drops := 0 })
  else
    match generate_parse h s quantity memo with
    | .error e => .error e
    | .ok (epoch, amount, data) => generate_mint h c s from_ quantity epoch amount data

/-! ## Transfer and destruction -/

/-- The statement `m[epoch] += 1` (or `m[epoch] = 1` for a new key) on a
`std::map<uint64_t, uint64_t>`, kept as a list of pairs in key order. -/
def map_incr (epoch : Nat) : List (Nat × Nat) → List (Nat × Nat)
  | [] => [(epoch, 1)]
  | (k, v) :: m =>
    if epoch < k then (epoch, 1) :: (k, v) :: m
    else if epoch = k then (k, add64 v 1) :: m
    else (k, v) :: map_incr epoch m

/-- The first loop of `transfer`: check every id, count it under its epoch
and hand the drop over. -/
def transfer_drops (from_ to_ : name) :
    List Nat → List drop_row → List (Nat × Nat) → Except String (List drop_row × List (Nat × Nat))
  | [], drops, m => .ok (drops, m)
  | id :: ids, drops, m =>
    match drops.find? (fun r => r.drops == id) with
    | none => .error "Drop not found"
    | some d =>
      if d.owner ≠ from_ then .error "Account does not own this drops"
      else
        transfer_drops from_ to_ ids
          (modify (fun r => r.drops == id) (fun r => { r with owner := to_ }) drops)
          (map_incr d.epoch m)

/-- The loop that takes the counted drops off the stat rows of `account`
(used by `transfer` for `from` and by `destroy` for `owner`). -/
def decrement_stats (account : name) :
    List (Nat × Nat) → List stat_row → Except String (List stat_row)
  | [], stats => .ok stats
  | (epoch, n) :: m, stats =>
    match stats.find? (fun r => r.account == account && r.epoch == epoch) with
    | none => .error "cannot pass end iterator to modify"
    | some _ =>
      decrement_stats account m
        (modify (fun r => r.account == account && r.epoch == epoch)
          (fun r => { r with drops := sub64 r.drops n }) stats)

/-- The last loop of `transfer`: add the counted drops to the stat rows of
`to`, creating the rows that are missing. -/
def increment_stats (to_ : name) :
    List (Nat × Nat) → List stat_row → Except String (List stat_row)
  | [], stats => .ok stats
  | (epoch, n) :: m, stats =>
    match stats.find? (fun r => r.account == to_ && r.epoch == epoch) with
    | some _ =>
      increment_stats to_ m
        (modify (fun r => r.account == to_ && r.epoch == epoch)
          (fun r => { r with drops := add64 r.drops n }) stats)
    | none =>
      match emplace (fun r => r.id)
          { id := available_primary_key (fun r => r.id) stats,
            account := to_, drops := n, epoch := epoch } stats with
      | none => .error "primary key already in use"
      | some stats1 => increment_stats to_ m stats1

/-- The update of the account row of `owner` in `transfer` (line 325) and
`destroy` (line 407): `n` drops less. -/
def debit_account (accounts : List account_row) (owner : name) (n : Nat) : List account_row :=
  modify (fun r => r.account == owner) (fun r => { r with drops := sub64 r.drops n }) accounts

/-- The update of the two account rows in `transfer` (lines 322 to 335). -/
def move_balance (accounts : List account_row) (from_ to_ : name) (n : Nat) :
    Except String (List account_row) :=
  match accounts.find? (fun r => r.account == from_) with
  | none => .error "From account not found"
  | some _ =>
    match (debit_account accounts from_ n).find? (fun r => r.account == to_) with
    | some _ =>
      .ok (modify (fun r => r.account == to_) (fun r => { r with drops := add64 r.drops n })
        (debit_account accounts from_ n))
    | none =>
      match emplace (fun r => r.account) { account := to_, drops := n % 2 ^ 64 }
          (debit_account accounts from_ n) with
      | none => .error "primary key already in use"
      | some accounts1 => .ok accounts1

/-- The action `drops::transfer` (the memo is not used). -/
def transfer (c : Ctx) (s : State) (from_ to_ : name) (drops_ids : List Nat) :
    Except String (State × List effect) :=
  if c.is_account to_ = false then .error "Account does not exist."
  else
    match s.state with
    | none => .error "state row not found"
    | some st =>
      if st.enabled = false then .error "Contract is currently disabled."
      else if drops_ids.length = 0 then .error "No drops were provided to transfer."
      else
        match transfer_drops from_ to_ drops_ids s.drops [] with
        | .error e => .error e
        | .ok (drops1, epochs_transferred_in) =>
          match move_balance s.accounts from_ to_ drops_ids.length with
          | .error e => .error e
          | .ok accounts1 =>
            match decrement_stats from_ epochs_transferred_in s.stats with
            | .error e => .error e
            | .ok stats1 =>
              match increment_stats to_ epochs_transferred_in stats1 with
              | .error e => .error e
              | .ok stats2 =>
                .ok ({ s with drops := drops1, accounts := accounts1, stats := stats2 },
                     [effect.require_recipient from_, effect.require_recipient to_])

/-- Result of `destroy`. -/
structure destroy_return_value where
  ram_sold : Nat
  redeemed : asset
deriving DecidableEq, Repr

/-- The first loop of `destroy`: check every id, count it under its epoch
and erase the drop. -/
def destroy_drops (owner : name) :
    List Nat → List drop_row → List (Nat × Nat) → Except String (List drop_row × List (Nat × Nat))
  | [], drops, m => .ok (drops, m)
  | id :: ids, drops, m =>
    match drops.find? (fun r => r.drops == id) with
    | none => .error "Drop not found"
    | some d =>
      if d.owner ≠ owner then .error "Account does not own this drops"
      else
        destroy_drops owner ids (drops.eraseP (fun r => r.drops == id)) (map_incr d.epoch m)

/-- The action `drops::destroy` (the memo is not used). -/
def destroy (h : Host) (c : Ctx) (s : State) (owner : name) (drops_ids : List Nat) :
    Except String (State × List effect × destroy_return_value) :=
  match s.state with
  | none => .error "state row not found"
  | some st =>
    if st.enabled = false then .error "Contract is currently disabled."
    else if drops_ids.length = 0 then .error "No drops were provided to destroy."
    else
      match destroy_drops owner drops_ids s.drops [] with
      | .error e => .error e
      | .ok (drops1, epochs_destroyed_in) =>
        match decrement_stats owner epochs_destroyed_in s.stats with
        | .error e => .error e
        | .ok stats1 =>
          match s.accounts.find? (fun r => r.account == owner) with
          | none => .error "cannot pass end iterator to modify"
          | some _ =>
            .ok ({ s with drops := drops1,
                          accounts := debit_account s.accounts owner drops_ids.length,
                          stats := stats1 },
                 [effect.sellram h.self (drops_ids.length * h.record_size % 2 ^ 64),
                  effect.token_transfer h.self owner
                    ⟨c.ramproceedstminusfee (drops_ids.length * h.record_size % 2 ^ 64), h.EOS⟩
                    ("Reclaimed RAM value of " ++ Nat.repr drops_ids.length ++ " drops(s)")],
                 { ram_sold := drops_ids.length * h.record_size % 2 ^ 64,
                   redeemed :=
                     ⟨c.ramproceedstminusfee (drops_ids.length * h.record_size % 2 ^ 64),
                       h.EOS⟩ })

/-- The counting step of `destroyall` on its `std::map<name, uint64_t>`. -/
def destroyall_count (drops : List drop_row) : List (Nat × Nat) :=
  drops.foldl (fun m d => map_incr d.owner m) []

/-- The number of drops `destroyall` counts while erasing them. -/
def drops_destroyed (drops : List drop_row) : Nat :=
  drops.foldl (fun n _ => add64 n 1) 0

/-- The action `drops::destroyall`. -/
def destroyall (h : Host) (c : Ctx) (s : State) : Except String (State × List effect) :=
  .ok ({ s with drops := [], accounts := [], stats := [] },
       effect.sellram h.self (drops_destroyed s.drops * h.record_size % 2 ^ 64) ::
         (destroyall_count s.drops).map (fun it =>
           effect.token_transfer h.self it.1
             ⟨c.ramproceedstminusfee (it.2 * h.record_size % 2 ^ 64), h.EOS⟩
             ("Testnet Reset - Reclaimed RAM value of " ++ Nat.repr it.2 ++ " drops(s)")))

/-- The first step of `enroll` (lines 478 to 488): the account row is
created when it is missing. -/
def enroll_account (accounts : List account_row) (account : name) : Option (List account_row) :=
  match accounts.find? (fun r => r.account == account) with
  | some _ => some accounts
  | none => emplace (fun r => r.account) { account := account, drops := 0 } accounts

/-- The action `drops::enroll`. -/
def enroll (s : State) (account : name) (epoch : Nat) : Except String State :=
  match enroll_account s.accounts account with
  | none => .error "primary key already in use"
  | some accounts1 =>
    match s.stats.find? (fun r => r.account == account && r.epoch == epoch) with
    | none => .error "This account is already registered for this epoch."
    | some _ =>
      match emplace (fun r => r.id)
          { id := available_primary_key (fun r => r.id) s.stats,
            account := account, drops := 0, epoch := epoch } s.stats with
      | none => .error "primary key already in use"
      | some stats1 => .ok { s with accounts := accounts1, stats := stats1 }

/-! ## Commit and reveal -/

/-- The action `drops::commit`. -/
def commit (c : Ctx) (s : State) (oracle : name) (epoch : Nat) (commit : checksum256) :
    Except String State :=
  match s.state with
  | none => .error "state row not found"
  | some st =>
    if st.enabled = false then .error "Contract is currently disabled."
    else
      match s.epochs.find? (fun r => r.epoch == epoch) with
      | none => .error "Epoch does not exist"
      | some e =>
        if oracle ∉ e.oracles then .error "Oracle is not in the list of oracles for this epoch"
        else if c.now ≤ e.start then .error "Epoch not started"
        else if e.end_ ≤ c.now then .error "Epoch no longer accepting commits"
        else
          match s.commits.find? (fun r => r.oracle == oracle && r.epoch == epoch) with
          | some _ => .error "Oracle has already committed"
          | none =>
            match emplace (fun r => r.id)
                { id := available_primary_key (fun r => r.id) s.commits,
                  epoch := epoch, oracle := oracle, commit := commit } s.commits with
            | none => .error "primary key already in use"
            | some commits1 => .ok { s with commits := commits1 }

/-- The completion check shared by `reveal` and `finishreveal`: the oracles
of the snapshot that have a reveal row for the epoch. -/
def has_revealed (reveals : List reveal_row) (oracles : List name) (epoch : Nat) : List name :=
  oracles.filter (fun oracle =>
    (reveals.find? (fun r => r.oracle == oracle && r.epoch == epoch)).isSome)

/-- The finalisation step shared by `reveal` and `finishreveal`: when every
oracle of the snapshot has revealed, mark the epoch completed and store its
value. -/
def complete_if_revealed (h : Host) (s : State) (e : epoch_row) (epoch : Nat) :
    Except String State :=
  if (has_revealed s.reveals e.oracles epoch).length = e.oracles.length then
    let s1 : State :=
      { s with epochs := modify (fun r => r.epoch == epoch)
                 (fun r => { r with completed := 1 }) s.epochs }
    match compute_epoch_value h s1 epoch with
    | .error msg => .error msg
    | .ok value =>
      match emplace (fun r => r.epoch) { epoch := epoch, drops := value } s1.epochdrops with
      | none => .error "primary key already in use"
      | some epochdrops1 => .ok { s1 with epochdrops := epochdrops1 }
  else .ok s

/-- The action `drops::reveal`. -/
def reveal (h : Host) (c : Ctx) (s : State) (oracle : name) (epoch : Nat) (reveal : String) :
    Except String State :=
  match s.state with
  | none => .error "state row not found"
  | some st =>
    if st.enabled = false then .error "Contract is currently disabled."
    else
      match s.epochs.find? (fun r => r.epoch == epoch) with
      | none => .error "Epoch does not exist"
      | some e =>
        if e.completed ≠ 0 then .error "Epoch has already completed"
        else if c.now ≤ e.end_ then .error "Epoch has not concluded"
        else
          match s.reveals.find? (fun r => r.oracle == oracle && r.epoch == epoch) with
          | some _ => .error "Oracle has already revealed"
          | none =>
            match s.commits.find? (fun r => r.oracle == oracle && r.epoch == epoch) with
            | none => .error "Oracle never committed"
            | some cm =>
              if h.sha256 reveal ≠ cm.commit then
                .error "Reveal value hashes to a value which does not match commit value."
              else
                match emplace (fun r => r.id)
                    { id := available_primary_key (fun r => r.id) s.reveals,
                      epoch := epoch, oracle := oracle, reveal := reveal } s.reveals with
                | none => .error "primary key already in use"
                | some reveals1 => complete_if_revealed h { s with reveals := reveals1 } e epoch

/-- The action `drops::finishreveal`. -/
def finishreveal (h : Host) (s : State) (epoch : Nat) : Except String State :=
  match s.epochs.find? (fun r => r.epoch == epoch) with
  | none => .error "Epoch does not exist"
  | some e =>
    if e.completed ≠ 0 then .error "Epoch has already completed"
    else complete_if_revealed h s e epoch

/-! ## Administration -/

/-- The action `drops::addoracle`. -/
def addoracle (c : Ctx) (s : State) (oracle : name) : Except String State :=
  if c.is_account oracle = false then .error "Account does not exist."
  else
    match emplace (fun r => r) oracle s.oracles with
    | none => .error "primary key already in use"
    | some oracles1 => .ok { s with oracles := oracles1 }

/-- The action `drops::removeoracle`. -/
def removeoracle (s : State) (oracle : name) : Except String State :=
  match s.oracles.find? (fun r => r == oracle) with
  | none => .error "Oracle not found"
  | some _ => .ok { s with oracles := s.oracles.eraseP (fun r => r == oracle) }

/-- The action `drops::subscribe`. -/
def subscribe (s : State) (subscriber : name) : Except String State :=
  match s.subscribers.find? (fun r => r == subscriber) with
  | some _ => .error "Already subscribed to notifictions."
  | none =>
    match emplace (fun r => r) subscriber s.subscribers with
    | none => .error "primary key already in use"
    | some subscribers1 => .ok { s with subscribers := subscribers1 }

/-- The action `drops::unsubscribe`. -/
def unsubscribe (s : State) (subscriber : name) : Except String State :=
  match s.subscribers.find? (fun r => r == subscriber) with
  | none => .error "Not currently subscribed."
  | some _ => .ok { s with subscribers := s.subscribers.eraseP (fun r => r == subscriber) }

/-- The action `drops::enable`. -/
def enable (s : State) (enabled : Bool) : Except String State :=
  match s.state with
  | none => .error "cannot pass end iterator to modify"
  | some st => .ok { s with state := some { st with enabled := enabled } }

/-- The row of the first epoch written by `init`: it starts at the clock
rounded down to a multiple of the phase duration (in seconds, as a
`uint32_t`) and lasts one phase duration. -/
def first_epoch (h : Host) (c : Ctx) (s : State) : epoch_row :=
  { epoch := 1
    start := seconds ((Int.tdiv c.now 1000000 % 2 ^ 32).toNat / h.epochphasetimer
      * h.epochphasetimer % 2 ^ 32)
    end_ := seconds ((Int.tdiv c.now 1000000 % 2 ^ 32).toNat / h.epochphasetimer
      * h.epochphasetimer % 2 ^ 32) + seconds h.epochphasetimer
    oracles := s.oracles
    completed := 0 }

/-- The action `drops::init`. -/
def init (h : Host) (c : Ctx) (s : State) : Except String State :=
  match emplace (fun r => r.account) { account := eosio, drops := 1 } s.accounts with
  | none => .error "primary key already in use"
  | some accounts1 =>
    if s.oracles = [] then .error "No oracles registered, cannot init."
    else if h.epochphasetimer = 0 then .error "division by zero"
    else
      match emplace (fun r => r.epoch) (first_epoch h c s) s.epochs with
      | none => .error "primary key already in use"
      | some epochs1 =>
        match emplace (fun r => r.drops) { drops := 0, owner := eosio, epoch := 1 } s.drops with
        | none => .error "primary key already in use"
        | some drops1 =>
          match s.state with
          | some _ => .error "primary key already in use"
          | none =>
            match emplace (fun r => r.id)
                { id := 1, account := eosio, epoch := 1, drops := 1 } s.stats with
            | none => .error "primary key already in use"
            | some stats1 =>
              .ok { s with state := some { epoch := 1, enabled := false },
                           epochs := epochs1, drops := drops1,
                           accounts := accounts1, stats := stats1 }

/-! ## The contract as a transition system -/

/-- A call of one of the contract's actions, with its arguments. The bulk
erasers `wipe` and `wipesome` are left out. -/
inductive call where
  | init
  | enable (enabled : Bool)
  | addoracle (oracle : name)
  | removeoracle (oracle : name)
  | subscribe (subscriber : name)
  | unsubscribe (subscriber : name)
  | advance
  | generate (from_ to_ : name) (quantity : asset) (memo : String)
  | transfer (from_ to_ : name) (drops_ids : List Nat)
  | destroy (owner : name) (drops_ids : List Nat)
  | destroyall
  | enroll (account : name) (epoch : Nat)
  | commit (oracle : name) (epoch : Nat) (commit : checksum256)
  | reveal (oracle : name) (epoch : Nat) (reveal : String)
  | finishreveal (epoch : Nat)

/-- The storage a call leaves behind when it succeeds. -/
def exec (h : Host) (c : Ctx) (s : State) : call → Except String State
  | .init => init h c s
  | .enable enabled => enable s enabled
  | .addoracle oracle => addoracle c s oracle
  | .removeoracle oracle => removeoracle s oracle
  | .subscribe subscriber => subscribe s subscriber
  | .unsubscribe subscriber => unsubscribe s subscriber
  | .advance => (advance h c s).map (fun r => r.1)
  | .generate from_ to_ quantity memo => (generate h c s from_ to_ quantity memo).map (fun r => r.1)
  | .transfer from_ to_ drops_ids => (transfer c s from_ to_ drops_ids).map (fun r => r.1)
  | .destroy owner drops_ids => (destroy h c s owner drops_ids).map (fun r => r.1)
  | .destroyall => (destroyall h c s).map (fun r => r.1)
  | .enroll account epoch => enroll s account epoch
  | .commit oracle epoch cm => commit c s oracle epoch cm
  | .reveal oracle epoch rv => reveal h c s oracle epoch rv
  | .finishreveal epoch => finishreveal h s epoch

/-- The storages the contract can be in: the empty storage and whatever a
successful call makes of a reachable storage, under any clock and market. -/
inductive Reachable (h : Host) : State → Prop
  | empty : Reachable h State.empty
  | step {s s1 : State} (c : Ctx) (a : call) :
      Reachable h s → exec h c s a = .ok s1 → Reachable h s1

/-- The storage `s1` is what finitely many successful calls make of the
storage `s`. -/
inductive Later (h : Host) (s : State) : State → Prop
  | refl : Later h s s
  | step {s1 s2 : State} (c : Ctx) (a : call) :
      Later h s s1 → exec h c s1 a = .ok s2 → Later h s s2

/-! ## Invariants -/

/-- What holds of the commit and reveal tables in every reachable storage:
no epoch number has two epoch rows; an entropy row exists exactly for the
completed epochs, at most one per epoch; every reveal row has a commit row
of the same oracle and epoch whose digest is the digest of the revealed
value; no oracle has two commit rows or two reveal rows for one epoch. -/
structure oracle_inv (h : Host) (s : State) : Prop where
  epoch_unique : s.epochs.Pairwise (fun a b => a.epoch ≠ b.epoch)
  entropy_iff : ∀ epoch, (∃ d ∈ s.epochdrops, d.epoch = epoch) ↔
    ∃ e ∈ s.epochs, e.epoch = epoch ∧ e.completed ≠ 0
  entropy_unique : s.epochdrops.Pairwise (fun a b => a.epoch ≠ b.epoch)
  reveal_committed : ∀ r ∈ s.reveals, ∃ cm ∈ s.commits,
    cm.oracle = r.oracle ∧ cm.epoch = r.epoch ∧ cm.commit = h.sha256 r.reveal
  commit_unique : s.commits.Pairwise (fun a b => ¬ (a.oracle = b.oracle ∧ a.epoch = b.epoch))
  reveal_unique : s.reveals.Pairwise (fun a b => ¬ (a.oracle = b.oracle ∧ a.epoch = b.epoch))

/-- The number of drop rows owned by `account`. -/
def tokens_of (drops : List drop_row) (account : name) : Nat :=
  drops.countP (fun d => d.owner == account)

/-- The number of drop rows owned by `account` that were created in
`epoch`. -/
def tokens_in (drops : List drop_row) (account : name) (epoch : Nat) : Nat :=
  drops.countP (fun d => d.owner == account && d.epoch == epoch)

/-- The counts of the stat rows of `account` for `epoch`, in index order. -/
def stat_counts (stats : List stat_row) (account : name) (epoch : Nat) : List Nat :=
  (stats.filter (fun r => r.account == account && r.epoch == epoch)).map (fun r => r.drops)

/-- The sum of the values stored under the key `epoch` in a counting map. -/
def map_sum (m : List (Nat × Nat)) (epoch : Nat) : Nat :=
  ((m.filter (fun p => p.1 == epoch)).map (fun p => p.2)).sum

/-- The counts of one account in one epoch agree with the number `t` (taken
modulo `2^64`): there is no row and `t` is zero, or the first row holds `t`
as a `uint64_t` and the other rows hold zero. -/
def stat_shape (counts : List Nat) (t : ZMod (2 ^ 64)) : Prop :=
  (counts = [] ∧ t = 0) ∨
  ∃ x k, counts = x :: List.replicate k 0 ∧ x < 2 ^ 64 ∧ (x : ZMod (2 ^ 64)) = t

/-- The account table agrees with the numbers `T` (taken modulo `2^64`): an
account without a row has the number zero, and the row of an account holds
its number as a `uint64_t`. -/
def account_ok (accounts : List account_row) (T : name → ZMod (2 ^ 64)) : Prop :=
  ∀ A, match accounts.find? (fun r => r.account == A) with
    | none => T A = 0
    | some a => a.drops < 2 ^ 64 ∧ (a.drops : ZMod (2 ^ 64)) = T A

/-- The stat table agrees with the numbers `T` (taken modulo `2^64`). -/
def stats_ok (stats : List stat_row) (T : name → Nat → ZMod (2 ^ 64)) : Prop :=
  ∀ A e, stat_shape (stat_counts stats A e) (T A e)

/-- What holds of the ledger tables in every reachable storage: before
`init` they are empty; no account has two account rows; the total of every
account is the number of drops it owns and its stat rows of an epoch count
the drops it owns that were created in that epoch, both as `uint64_t`
values. -/
structure ledger_inv (s : State) : Prop where
  fresh : s.state = none → s.drops = [] ∧ s.accounts = [] ∧ s.stats = []
  account_unique : s.accounts.Pairwise (fun a b => a.account ≠ b.account)
  accounts : account_ok s.accounts (fun A => (tokens_of s.drops A : ZMod (2 ^ 64)))
  stats : stats_ok s.stats (fun A e => (tokens_in s.drops A e : ZMod (2 ^ 64)))

/-! ## Worked examples

A host and a few storages on which the actions can be evaluated. The
constants of the header and the digest are stand-ins: the header is not
part of the sources and `sha256` cannot be evaluated here. -/

/-- A host for the worked examples, with a toy digest in place of
`sha256`. -/
def example_host : Host :=
  { self := 7
    EOS := 1
    sha256 := fun str => str.toList.foldl (fun acc ch => (acc * 257 + ch.toNat + 1) % 2 ^ 256) 7
    epochphasetimer := 60
    record_size := 277
    purchase_buffer := 1
    accounts_row := 124
    stats_row := 412 }

/-- A call context with the clock at `now`; every account exists and the RAM
market charges and pays one unit per byte. -/
def example_ctx (now : Int) : Ctx :=
  { now := now
    is_account := fun _ => true
    ramcostwithfee := fun bytes => bytes
    ramproceedstminusfee := fun bytes => bytes }

/-- The name `"a"_n`. -/
def oracle_a : name := 3458764513820540928

/-- The name `"b"_n`. -/
def oracle_b : name := 4035225266123964416

/-- Epoch 5 runs from second 240 to second 300 with the oracles `a` and `b`,
which have committed to `"foo"` and `"bar"`. -/
def scenario : State :=
  { State.empty with
    state := some { epoch := 5, enabled := true }
    epochs := [{ epoch := 5, start := 240000000, end_ := 300000000,
                 oracles := [oracle_a, oracle_b], completed := 0 }]
    oracles := [oracle_a, oracle_b]
    commits := [{ id := 0, epoch := 5, oracle := oracle_a, commit := example_host.sha256 "foo" },
                { id := 1, epoch := 5, oracle := oracle_b, commit := example_host.sha256 "bar" }] }

/-- The scenario after `a` has revealed `"foo"`. -/
def scenario_a : State :=
  { scenario with
    reveals := [{ id := 0, epoch := 5, oracle := oracle_a, reveal := "foo" }] }

/-- The scenario after `b` has revealed `"bar"` as well: the epoch is
completed and its value stored. -/
def scenario_ab : State :=
  { scenario with
    epochs := [{ epoch := 5, start := 240000000, end_ := 300000000,
                 oracles := [oracle_a, oracle_b], completed := 1 }]
    reveals := [{ id := 0, epoch := 5, oracle := oracle_a, reveal := "foo" },
                { id := 1, epoch := 5, oracle := oracle_b, reveal := "bar" }]
    epochdrops := [{ epoch := 5, drops := example_host.sha256 "5barfoo" }] }

/-- The storage after `addoracle` for `a` and `b`, `init` at second 1000 and
`enable(true)`: epoch 1 runs from second 960 to second 1020. -/
def genesis : State :=
  { State.empty with
    state := some { epoch := 1, enabled := true }
    epochs := [{ epoch := 1, start := 960000000, end_ := 1020000000,
                 oracles := [oracle_a, oracle_b], completed := 0 }]
    oracles := [oracle_a, oracle_b]
    drops := [{ drops := 0, owner := eosio, epoch := 1 }]
    accounts := [{ account := eosio, drops := 1 }]
    stats := [{ id := 1, account := eosio, epoch := 1, drops := 1 }] }

/-- The storage `genesis` after `a` and `b` have committed to `"foo"` and
`"bar"`. -/
def committed : State :=
  { genesis with
    commits := [{ id := 0, epoch := 1, oracle := oracle_a, commit := example_host.sha256 "foo" },
                { id := 1, epoch := 1, oracle := oracle_b, commit := example_host.sha256 "bar" }] }

/-- The storage `committed` after `a` has revealed `"foo"`. -/
def revealed_a : State :=
  { committed with
    reveals := [{ id := 0, epoch := 1, oracle := oracle_a, reveal := "foo" }] }

/-- The storage `revealed_a` after `b` has revealed `"bar"`: epoch 1 is
completed and its value stored. -/
def revealed_ab : State :=
  { committed with
    epochs := [{ epoch := 1, start := 960000000, end_ := 1020000000,
                 oracles := [oracle_a, oracle_b], completed := 1 }]
    reveals := [{ id := 0, epoch := 1, oracle := oracle_a, reveal := "foo" },
                { id := 1, epoch := 1, oracle := oracle_b, reveal := "bar" }]
    epochdrops := [{ epoch := 1, drops := example_host.sha256 "1barfoo" }] }

/-- The name `"alice"_n`. -/
def alice : name := 3773036822876127232

/-- The name `"bob"_n`. -/
def bob : name := 4399453885987553280

/-- The storage `genesis` after `alice` has paid for three drops with a seed
of 33 characters. -/
def minted : State :=
  commit_or_rollback genesis
    (exec example_host (example_ctx 1000000000) genesis
      (.generate alice example_host.self ⟨100000, example_host.EOS⟩
        "3,0123456789abcdef0123456789abcdefg"))

/-- The storage `minted` after `alice` has handed the first of these drops to
`bob`. -/
def traded : State :=
  commit_or_rollback minted
    (exec example_host (example_ctx 1000000000) minted
      (.transfer alice bob [drop_id example_host 0 "0123456789abcdef0123456789abcdefg"]))

/-! ## Derived values -/

/-- What holds of the epoch pointer in every reachable storage: before `init`
there is no epoch row; the pointer is a `uint64_t`; while the pointer has not
wrapped around to zero the epoch rows carry exactly the numbers from 1 to the
pointer; once it has, the rows numbered 1 and `2^64 - 1` are there. -/
structure pointer_inv (s : State) : Prop where
  fresh : s.state = none → s.epochs = []
  bound : ∀ st, s.state = some st → st.epoch < 2 ^ 64
  range : ∀ st, s.state = some st → st.epoch ≠ 0 →
    ∀ n ∈ s.epochs.map (fun r => r.epoch), 1 ≤ n ∧ n ≤ st.epoch
  present : ∀ st, s.state = some st → st.epoch ≠ 0 →
    ∀ n, 1 ≤ n → n ≤ st.epoch → n ∈ s.epochs.map (fun r => r.epoch)
  wrapped : ∀ st, s.state = some st → st.epoch = 0 →
    1 ∈ s.epochs.map (fun r => r.epoch) ∧ 2 ^ 64 - 1 ∈ s.epochs.map (fun r => r.epoch)

/-- The storage `minted` after `a` and `b` have committed and revealed:
epoch 1 is completed and its value stored. -/
def settled : State :=
  { revealed_ab with
    drops := minted.drops
    accounts := minted.accounts
    stats := minted.stats }

/-- The storage `settled` after `alice` has destroyed the first of the three
drops. -/
def burned : State :=
  commit_or_rollback settled
    (exec example_host (example_ctx 1020000002) settled
      (.destroy alice [drop_id example_host 0 "0123456789abcdef0123456789abcdefg"]))

/-- The number of phase durations it takes from the end of the epoch `cur` to
get past the clock. -/
def advance_rounds (h : Host) (c : Ctx) (cur : epoch_row) : Nat :=
  ((c.now - cur.end_) / seconds h.epochphasetimer).toNat + 1

/-- The total in the account row of `account`, zero when it has none. -/
def account_total (accounts : List account_row) (account : name) : Nat :=
  ((accounts.find? (fun r => r.account == account)).map (fun a => a.drops)).getD 0

/-- The count in the stat row found for `account` and `epoch`, zero when
there is none. -/
def stat_total (stats : List stat_row) (account : name) (epoch : Nat) : Nat :=
  ((stats.find? (fun r => r.account == account && r.epoch == epoch)).map
    (fun x => x.drops)).getD 0

/-- The number of the ids in `ids` whose drop was created in `epoch`. -/
def listed_in (drops : List drop_row) (ids : List Nat) (epoch : Nat) : Nat :=
  ids.countP (fun id =>
    (drops.find? (fun r => r.drops == id)).map (fun d => d.epoch) == some epoch)

/-- The storage `minted` after `enable(false)`: the contract is disabled. -/
def paused : State :=
  { minted with state := some { epoch := 1, enabled := false } }

/-- Consecutive epochs follow one another without a gap in time: while the
pointer has not wrapped around to zero, the epoch numbered one more than
another epoch starts where that epoch ends. -/
def epoch_chain (s : State) : Prop :=
  ∀ st, s.state = some st → st.epoch ≠ 0 →
    ∀ a ∈ s.epochs, ∀ b ∈ s.epochs, b.epoch = a.epoch + 1 → b.start = a.end_

/-- The fields of an epoch row that are set when the row is created: its
number, its start, its end and its oracles. -/
def epoch_row.frozen (r : epoch_row) : Nat × Int × Int × List name :=
  (r.epoch, r.start, r.end_, r.oracles)

/-- The runs of `maximal_runs`, read from left to right: `cur` is the run
being read; it is closed at every `delim` and at the end of the text, and
kept when it is not empty. -/
def runs_from (delim : Char) : List Char → List Char → List (List Char)
  | [], cur => if cur = [] then [] else [cur]
  | c :: cs, cur =>
    if c = delim then
      (if cur = [] then runs_from delim cs [] else cur :: runs_from delim cs [])
    else runs_from delim cs (cur ++ [c])

/-- The maximal non-empty runs of characters other than `delim` in a text,
in order. This definition follows the wording of the specification of
`split`, for comparison with the function `split` of the source. -/
def maximal_runs (delim : Char) (str : List Char) : List (List Char) :=
  runs_from delim str []

/-! # Verification -/

/-! ## Lemmas on the table primitives -/

theorem insert_row_perm {α : Type} (key : α → Nat) (r : α) (t : List α) :
    (insert_row key r t).Perm (r :: t) := by
  induction t with
  | nil => simp [insert_row]
  | cons x t ih =>
    simp only [insert_row]
    split
    · exact List.Perm.refl _
    · exact (List.Perm.cons x ih).trans (List.Perm.swap r x t)

theorem mem_insert_row {α : Type} (key : α → Nat) (r x : α) (t : List α) :
    x ∈ insert_row key r t ↔ x = r ∨ x ∈ t := by
  rw [(insert_row_perm key r t).mem_iff, List.mem_cons]

theorem insert_row_eq_append {α : Type} (key : α → Nat) (r : α) (t : List α)
    (hlt : ∀ x ∈ t, key x < key r) : insert_row key r t = t ++ [r] := by
  induction t with
  | nil => rfl
  | cons x t ih =>
    have hx := hlt x (List.mem_cons_self _ _)
    simp only [insert_row, if_neg (Nat.lt_asymm hx), List.cons_append]
    rw [ih (fun y hy => hlt y (List.mem_cons_of_mem _ hy))]

theorem lt_available_primary_key {α : Type} (key : α → Nat) (t : List α) (x : α)
    (hx : x ∈ t) : key x < available_primary_key key t := by
  induction t with
  | nil => cases hx
  | cons y t ih =>
    simp only [available_primary_key, List.foldr_cons]
    rcases List.mem_cons.1 hx with rfl | hm
    · omega
    · have := ih hm
      simp only [available_primary_key] at this
      omega

theorem emplace_eq_some {α : Type} (key : α → Nat) (r : α) (t t1 : List α) :
    emplace key r t = some t1 ↔ (∀ x ∈ t, key x ≠ key r) ∧ t1 = insert_row key r t := by
  unfold emplace
  split
  · rename_i hany
    simp only [List.any_eq_true, beq_iff_eq] at hany
    obtain ⟨x, hx, hk⟩ := hany
    constructor
    · intro h; cases h
    · rintro ⟨hne, -⟩; exact absurd hk (hne x hx)
  · rename_i hany
    simp only [List.any_eq_true, beq_iff_eq, not_exists, not_and] at hany
    constructor
    · intro h; injection h with h; exact ⟨hany, h.symm⟩
    · rintro ⟨-, rfl⟩; rfl

theorem emplace_eq_none {α : Type} (key : α → Nat) (r : α) (t : List α) :
    emplace key r t = none ↔ ∃ x ∈ t, key x = key r := by
  unfold emplace
  split
  · rename_i hany
    simp only [List.any_eq_true, beq_iff_eq] at hany
    simp [hany]
  · rename_i hany
    simp only [List.any_eq_true, beq_iff_eq] at hany
    simp [hany]

theorem emplace_available {α : Type} (key : α → Nat) (r : α) (t : List α)
    (hr : key r = available_primary_key key t) : emplace key r t = some (t ++ [r]) := by
  have hlt : ∀ x ∈ t, key x < key r := fun x hx => hr ▸ lt_available_primary_key key t x hx
  rw [emplace_eq_some]
  exact ⟨fun x hx => Nat.ne_of_lt (hlt x hx), (insert_row_eq_append key r t hlt).symm⟩

theorem find?_insert_row_self {α : Type} (key : α → Nat) (r : α) (t : List α)
    (hfresh : ∀ x ∈ t, key x ≠ key r) :
    (insert_row key r t).find? (fun x => key x == key r) = some r := by
  induction t with
  | nil => simp [insert_row]
  | cons x t ih =>
    have hx := hfresh x (List.mem_cons_self _ _)
    simp only [insert_row]
    split
    · simp
    · rw [List.find?_cons_of_neg _ (by simpa using hx)]
      exact ih (fun y hy => hfresh y (List.mem_cons_of_mem _ hy))

theorem find?_insert_row_of_ne {α : Type} (key : α → Nat) (p : α → Bool) (r : α) (t : List α)
    (hr : p r = false) : (insert_row key r t).find? p = t.find? p := by
  induction t with
  | nil => simp [insert_row, hr]
  | cons x t ih =>
    simp only [insert_row]
    split
    · rw [List.find?_cons_of_neg _ (by simp [hr])]
    · simp only [List.find?_cons]
      split
      · rfl
      · exact ih

theorem mem_modify {α : Type} (p : α → Bool) (f : α → α) (t : List α) (x : α)
    (hx : x ∈ modify p f t) : x ∈ t ∨ ∃ y ∈ t, p y = true ∧ x = f y := by
  induction t with
  | nil => cases hx
  | cons y t ih =>
    simp only [modify] at hx
    split at hx
    · rename_i hp
      rcases List.mem_cons.1 hx with rfl | hm
      · exact Or.inr ⟨y, List.mem_cons_self _ _, hp, rfl⟩
      · exact Or.inl (List.mem_cons_of_mem _ hm)
    · rcases List.mem_cons.1 hx with rfl | hm
      · exact Or.inl (List.mem_cons_self _ _)
      · rcases ih hm with h1 | ⟨z, hz, hpz, rfl⟩
        · exact Or.inl (List.mem_cons_of_mem _ h1)
        · exact Or.inr ⟨z, List.mem_cons_of_mem _ hz, hpz, rfl⟩

theorem mem_modify_of_not {α : Type} (p : α → Bool) (f : α → α) (t : List α) (x : α)
    (hx : x ∈ t) (hp : p x = false) : x ∈ modify p f t := by
  induction t with
  | nil => cases hx
  | cons y t ih =>
    simp only [modify]
    split
    · rename_i hpy
      rcases List.mem_cons.1 hx with rfl | hm
      · rw [hp] at hpy; cases hpy
      · exact List.mem_cons_of_mem _ hm
    · rcases List.mem_cons.1 hx with rfl | hm
      · exact List.mem_cons_self _ _
      · exact List.mem_cons_of_mem _ (ih hm)

theorem mem_modify_of_find {α : Type} (p : α → Bool) (f : α → α) (t : List α) (a : α)
    (ha : t.find? p = some a) : f a ∈ modify p f t := by
  induction t with
  | nil => cases ha
  | cons y t ih =>
    simp only [modify]
    simp only [List.find?_cons] at ha
    split
    · rename_i hpy
      rw [hpy] at ha
      injection ha with ha
      subst ha
      exact List.mem_cons_self _ _
    · rename_i hpy
      have hpy' : p y = false := by simpa using hpy
      rw [hpy'] at ha
      exact List.mem_cons_of_mem _ (ih ha)

theorem find?_modify_same {α : Type} (p : α → Bool) (f : α → α) (t : List α) (a : α)
    (hf : ∀ x, p x = true → p (f x) = true) (ha : t.find? p = some a) :
    (modify p f t).find? p = some (f a) := by
  induction t with
  | nil => cases ha
  | cons y t ih =>
    simp only [modify]
    simp only [List.find?_cons] at ha
    split
    · rename_i hpy
      rw [hpy] at ha
      injection ha with ha
      subst ha
      rw [List.find?_cons_of_pos _ (hf _ hpy)]
    · rename_i hpy
      have hpy' : p y = false := by simpa using hpy
      rw [hpy'] at ha
      rw [List.find?_cons_of_neg _ hpy]
      exact ih ha

theorem find?_modify_of_ne {α : Type} (p q : α → Bool) (f : α → α) (t : List α)
    (hq : ∀ x, p x = true → q x = false ∧ q (f x) = false) :
    (modify p f t).find? q = t.find? q := by
  induction t with
  | nil => rfl
  | cons y t ih =>
    simp only [modify]
    split
    · rename_i hpy
      rw [List.find?_cons_of_neg _ (by simp [(hq y hpy).2]),
        List.find?_cons_of_neg _ (by simp [(hq y hpy).1])]
    · simp only [List.find?_cons]
      split
      · rfl
      · exact ih

theorem find?_isSome_of_mem {α : Type} (p : α → Bool) (t : List α) (x : α) (hx : x ∈ t)
    (hp : p x = true) : ∃ a, t.find? p = some a := by
  cases hf : t.find? p with
  | some a => exact ⟨a, rfl⟩
  | none =>
    rw [List.find?_eq_none] at hf
    exact absurd hp (hf x hx)

theorem string_le_iff (a b : String) : string_le a b ↔ a ≤ b :=
  String.le_iff_toList_le.symm

theorem string_le_total : IsTotal String string_le :=
  ⟨fun a b => by rw [string_le_iff, string_le_iff]; exact le_total a b⟩

theorem string_le_trans : IsTrans String string_le :=
  ⟨fun a b c => by rw [string_le_iff, string_le_iff, string_le_iff]; exact le_trans⟩

theorem string_le_antisymm : IsAntisymm String string_le :=
  ⟨fun a b => by rw [string_le_iff, string_le_iff]; exact le_antisymm⟩

theorem foldl_append_eq (l : List String) (init : String) :
    l.foldl (fun acc x => acc ++ x) init = init ++ String.join l := by
  induction l generalizing init with
  | nil => simp [String.join]
  | cons x t ih =>
    simp only [String.join, List.foldl_cons] at ih ⊢
    rw [ih (init ++ x), ih ("" ++ x), String.empty_append, String.append_assoc]

theorem find?_eq_none_iff_filter {α : Type} (p : α → Bool) (l : List α) :
    l.find? p = none ↔ l.filter p = [] := by
  simp [List.find?_eq_none, List.filter_eq_nil_iff]

theorem compute_epoch_value_ok (h : Host) (s : State) (epoch : Nat) (e : epoch_row)
    (r : reveal_row)
    (he : s.epochs.find? (fun r => r.epoch == epoch) = some e)
    (hr : s.reveals.find? (fun r => r.epoch == epoch) = some r) :
    compute_epoch_value h s epoch = .ok (h.sha256 (Nat.repr epoch ++ String.join
      (((s.reveals.filter (fun r => r.epoch == epoch)).map (fun r => r.reveal)).insertionSort
        string_le))) := by
  simp only [compute_epoch_value, he, hr, foldl_append_eq]

/-- C5: for an existing epoch with at least one reveal, `compute_epoch_value`
is `sha256` of the decimal epoch number followed by the reveal values of the
epoch in ascending lexicographic order; it fails when the epoch row does not
exist or the epoch has no reveal. -/
theorem compute_epoch_value_spec (h : Host) (s : State) (epoch : Nat) :
    ((∃ e ∈ s.epochs, e.epoch = epoch) → (∃ r ∈ s.reveals, r.epoch = epoch) →
      ∃ sorted : List String,
        sorted.Perm ((s.reveals.filter (fun r => r.epoch == epoch)).map (fun r => r.reveal)) ∧
        sorted.Sorted (fun a b => a ≤ b) ∧
        compute_epoch_value h s epoch
          = .ok (h.sha256 (Nat.repr epoch ++ String.join sorted))) ∧
    ((∀ e ∈ s.epochs, e.epoch ≠ epoch) →
      compute_epoch_value h s epoch = .error "Epoch does not exist") ∧
    ((∀ r ∈ s.reveals, r.epoch ≠ epoch) →
      ∃ msg, compute_epoch_value h s epoch = .error msg) := by
  refine ⟨?_, ?_, ?_⟩
  · rintro ⟨e, he, hee⟩ ⟨r, hr, hre⟩
    obtain ⟨e', he'⟩ : ∃ e', s.epochs.find? (fun r => r.epoch == epoch) = some e' := by
      cases hf : s.epochs.find? (fun r => r.epoch == epoch) with
      | some x => exact ⟨x, rfl⟩
      | none =>
        rw [List.find?_eq_none] at hf
        exact absurd (by simpa using hee) (hf e he)
    obtain ⟨r', hr'⟩ : ∃ r', s.reveals.find? (fun r => r.epoch == epoch) = some r' := by
      cases hf : s.reveals.find? (fun r => r.epoch == epoch) with
      | some x => exact ⟨x, rfl⟩
      | none =>
        rw [List.find?_eq_none] at hf
        exact absurd (by simpa using hre) (hf r hr)
    haveI := string_le_total
    haveI := string_le_trans
    refine ⟨_, List.perm_insertionSort string_le _, ?_, compute_epoch_value_ok h s epoch e' r' he' hr'⟩
    exact (List.sorted_insertionSort string_le _).imp (fun hab => (string_le_iff _ _).1 hab)
  · intro hno
    have hf : s.epochs.find? (fun r => r.epoch == epoch) = none := by
      rw [List.find?_eq_none]; intro x hx; simpa using hno x hx
    simp only [compute_epoch_value, hf]
  · intro hno
    have hf : s.reveals.find? (fun r => r.epoch == epoch) = none := by
      rw [List.find?_eq_none]; intro x hx; simpa using hno x hx
    simp only [compute_epoch_value, hf]
    split
    · exact ⟨_, rfl⟩
    · exact ⟨_, rfl⟩

theorem compute_epoch_value_spec_witness :
    (∃ sorted : List String,
      sorted.Perm ((scenario_ab.reveals.filter (fun r => r.epoch == 5)).map (fun r => r.reveal)) ∧
      sorted.Sorted (fun a b => a ≤ b) ∧
      compute_epoch_value example_host scenario_ab 5
        = .ok (example_host.sha256 (Nat.repr 5 ++ String.join sorted))) ∧
    compute_epoch_value example_host scenario_ab 5 = .ok (example_host.sha256 "5barfoo") ∧
    compute_epoch_value example_host scenario_ab 6 = .error "Epoch does not exist" ∧
    (∃ msg, compute_epoch_value example_host scenario 5 = .error msg) :=
  ⟨(compute_epoch_value_spec example_host scenario_ab 5).1
      ⟨_, List.mem_cons_self _ _, rfl⟩ ⟨_, List.mem_cons_self _ _, rfl⟩,
   rfl,
   (compute_epoch_value_spec example_host scenario_ab 6).2.1 (by decide),
   (compute_epoch_value_spec example_host scenario 5).2.2 (by decide)⟩

/-- C4: `compute_epoch_value` does not depend on the order in which the
reveals were stored: two reveal tables whose rows for the epoch carry the
same values, in any order and under any ids and oracles, give the same
result. -/
theorem compute_epoch_value_order_invariant (h : Host) (s : State) (rs1 rs2 : List reveal_row)
    (epoch : Nat)
    (hperm : ((rs1.filter (fun r => r.epoch == epoch)).map (fun r => r.reveal)).Perm
      ((rs2.filter (fun r => r.epoch == epoch)).map (fun r => r.reveal))) :
    compute_epoch_value h { s with reveals := rs1 } epoch
      = compute_epoch_value h { s with reveals := rs2 } epoch := by
  have hsort : (((rs1.filter (fun r => r.epoch == epoch)).map (fun r => r.reveal)).insertionSort
        string_le) = (((rs2.filter (fun r => r.epoch == epoch)).map
          (fun r => r.reveal)).insertionSort string_le) := by
    haveI := string_le_total
    haveI := string_le_trans
    haveI := string_le_antisymm
    apply List.eq_of_perm_of_sorted (r := string_le)
    · exact ((List.perm_insertionSort _ _).trans hperm).trans (List.perm_insertionSort _ _).symm
    · exact List.sorted_insertionSort _ _
    · exact List.sorted_insertionSort _ _
  have hnil : rs1.find? (fun r => r.epoch == epoch) = none ↔
      rs2.find? (fun r => r.epoch == epoch) = none := by
    rw [find?_eq_none_iff_filter, find?_eq_none_iff_filter]
    constructor
    · intro h1; rw [h1] at hperm; simpa using hperm.symm.eq_nil
    · intro h2; rw [h2] at hperm; simpa using hperm.eq_nil
  simp only [compute_epoch_value]
  cases he : s.epochs.find? (fun r => r.epoch == epoch) with
  | none => rfl
  | some e =>
    cases h1 : rs1.find? (fun r => r.epoch == epoch) with
    | none => simp only [hnil.1 h1]
    | some r1 =>
      cases h2 : rs2.find? (fun r => r.epoch == epoch) with
      | none => rw [hnil.2 h2] at h1; cases h1
      | some r2 => simp only [hsort]

/-! ## Single calls of the commit and reveal actions -/

theorem find?_pair_eq_none {α : Type} (t : List α) (f g : α → Nat) (a b : Nat) :
    t.find? (fun r => f r == a && g r == b) = none ↔ ∀ r ∈ t, ¬ (f r = a ∧ g r = b) := by
  rw [List.find?_eq_none]
  constructor
  · intro hn r hr hab; exact hn r hr (by simp [hab.1, hab.2])
  · intro hn r hr hab
    simp only [Bool.and_eq_true, beq_iff_eq] at hab
    exact hn r hr hab

/-- C9: `commit` succeeds exactly when the contract is enabled, the epoch
exists, the oracle is in its snapshot, the clock is strictly between the
start and the end of the epoch and the oracle has no commit for the epoch;
it then adds the one commit row and changes nothing else. -/
theorem commit_succeeds_iff (c : Ctx) (s : State) (oracle : name) (epoch : Nat)
    (digest : checksum256) :
    ((∃ s1, commit c s oracle epoch digest = .ok s1) ↔
      ((∃ st, s.state = some st ∧ st.enabled = true) ∧
        ∃ e, s.epochs.find? (fun r => r.epoch == epoch) = some e ∧ oracle ∈ e.oracles ∧
          e.start < c.now ∧ c.now < e.end_ ∧
          ∀ r ∈ s.commits, ¬ (r.oracle = oracle ∧ r.epoch = epoch))) ∧
    ∀ s1, commit c s oracle epoch digest = .ok s1 →
      s1 = { s with commits := s.commits ++
        [{ id := available_primary_key (fun r => r.id) s.commits,
           epoch := epoch, oracle := oracle, commit := digest }] } := by
  have hemp := emplace_available (fun r : commit_row => r.id)
    { id := available_primary_key (fun r => r.id) s.commits,
      epoch := epoch, oracle := oracle, commit := digest } s.commits rfl
  unfold commit
  cases hst : s.state with
  | none => simp
  | some st =>
    simp only []
    by_cases hen : st.enabled = false
    · simp [hen]
    · have hen1 : st.enabled = true := by simpa using hen
      rw [if_neg hen]
      cases he : s.epochs.find? (fun r => r.epoch == epoch) with
      | none => simp
      | some e =>
        simp only []
        by_cases hmem : oracle ∈ e.oracles
        · rw [if_neg (not_not.2 hmem)]
          by_cases h1 : c.now ≤ e.start
          · simp [h1, not_lt.2 h1]
          · rw [if_neg h1]
            by_cases h2 : e.end_ ≤ c.now
            · simp [h2, not_lt.2 h2]
            · rw [if_neg h2]
              cases hcm : s.commits.find? (fun r => r.oracle == oracle && r.epoch == epoch) with
              | some cm =>
                have hm := List.mem_of_find?_eq_some hcm
                have hp := List.find?_some hcm
                simp only [Bool.and_eq_true, beq_iff_eq] at hp
                refine ⟨⟨fun ⟨s1, hs1⟩ => (by cases hs1), ?_⟩, fun s1 hs1 => (by cases hs1)⟩
                rintro ⟨-, e1, he1, -, -, -, hno⟩
                exact absurd hp (hno cm hm)
              | none =>
                have hn := (find?_pair_eq_none s.commits (fun r => r.oracle) (fun r => r.epoch)
                  oracle epoch).1 hcm
                simp only [hemp]
                refine ⟨⟨fun _ => ⟨⟨st, rfl, hen1⟩, e, rfl, hmem, not_le.1 h1, not_le.1 h2, hn⟩,
                  fun _ => ⟨_, rfl⟩⟩, fun s1 hs1 => ?_⟩
                injection hs1 with hs1
                exact hs1.symm
        · rw [if_pos hmem]
          refine ⟨⟨fun ⟨s1, hs1⟩ => (by cases hs1), ?_⟩, fun s1 hs1 => (by cases hs1)⟩
          rintro ⟨-, e1, he1, hm1, -⟩
          injection he1 with he1
          subst he1
          exact absurd hm1 hmem

theorem has_revealed_all_iff (reveals : List reveal_row) (oracles : List name) (epoch : Nat) :
    (has_revealed reveals oracles epoch).length = oracles.length ↔
      ∀ o ∈ oracles, ∃ r ∈ reveals, r.oracle = o ∧ r.epoch = epoch := by
  unfold has_revealed
  rw [List.filter_length_eq_length]
  constructor
  · intro hall o ho
    have := hall o ho
    rw [Option.isSome_iff_exists] at this
    obtain ⟨r, hr⟩ := this
    have hp := List.find?_some hr
    simp only [Bool.and_eq_true, beq_iff_eq] at hp
    exact ⟨r, List.mem_of_find?_eq_some hr, hp.1, hp.2⟩
  · intro hall o ho
    obtain ⟨r, hr, h1, h2⟩ := hall o ho
    obtain ⟨a, ha⟩ := find?_isSome_of_mem (fun r => r.oracle == o && r.epoch == epoch) reveals r hr
      (by simp [h1, h2])
    rw [ha]; rfl

theorem compute_epoch_value_congr (h : Host) (s t : State) (epoch : Nat)
    (he : s.epochs = t.epochs) (hr : s.reveals = t.reveals) :
    compute_epoch_value h s epoch = compute_epoch_value h t epoch := by
  simp only [compute_epoch_value, he, hr]

/-- What a successful finalisation step did: nothing when some oracle has
not revealed, otherwise it set the flag and stored the value. -/
theorem complete_if_revealed_ok (h : Host) (s s1 : State) (e : epoch_row) (epoch : Nat)
    (hok : complete_if_revealed h s e epoch = .ok s1) :
    ((¬ ∀ o ∈ e.oracles, ∃ r ∈ s.reveals, r.oracle = o ∧ r.epoch = epoch) ∧ s1 = s) ∨
    ((∀ o ∈ e.oracles, ∃ r ∈ s.reveals, r.oracle = o ∧ r.epoch = epoch) ∧
      ∃ v, compute_epoch_value h
            { s with epochs := modify (fun r => r.epoch == epoch)
                       (fun r => { r with completed := 1 }) s.epochs } epoch = .ok v ∧
        (∀ d ∈ s.epochdrops, d.epoch ≠ epoch) ∧
        s1 = { s with
               epochs := modify (fun r => r.epoch == epoch)
                 (fun r => { r with completed := 1 }) s.epochs
               epochdrops := insert_row (fun r => r.epoch) { epoch := epoch, drops := v }
                 s.epochdrops }) := by
  unfold complete_if_revealed at hok
  by_cases hall : (has_revealed s.reveals e.oracles epoch).length = e.oracles.length
  · rw [if_pos hall] at hok
    right
    refine ⟨(has_revealed_all_iff _ _ _).1 hall, ?_⟩
    simp only [] at hok
    cases hv : compute_epoch_value h
        { s with epochs := modify (fun r => r.epoch == epoch)
                   (fun r => { r with completed := 1 }) s.epochs } epoch with
    | error msg => rw [hv] at hok; cases hok
    | ok v =>
      rw [hv] at hok
      simp only [] at hok
      cases hem : emplace (fun r : epochdrop_row => r.epoch) { epoch := epoch, drops := v }
          s.epochdrops with
      | none => rw [hem] at hok; cases hok
      | some t =>
        rw [hem] at hok
        obtain ⟨hfresh, ht⟩ := (emplace_eq_some _ _ _ _).1 hem
        injection hok with hok
        exact ⟨v, rfl, hfresh, by rw [← hok, ht]⟩
  · rw [if_neg hall] at hok
    left
    injection hok with hok
    exact ⟨fun hc => hall ((has_revealed_all_iff _ _ _).2 hc), hok.symm⟩

/-- The checks a successful `reveal` has passed, and what it went on to do. -/
theorem reveal_ok (h : Host) (c : Ctx) (s s1 : State) (oracle : name) (epoch : Nat)
    (payload : String) (hok : reveal h c s oracle epoch payload = .ok s1) :
    ∃ st e cm, s.state = some st ∧ st.enabled = true ∧
      s.epochs.find? (fun r => r.epoch == epoch) = some e ∧ e.completed = 0 ∧
      e.end_ < c.now ∧
      s.reveals.find? (fun r => r.oracle == oracle && r.epoch == epoch) = none ∧
      s.commits.find? (fun r => r.oracle == oracle && r.epoch == epoch) = some cm ∧
      h.sha256 payload = cm.commit ∧
      complete_if_revealed h
        { s with reveals := s.reveals ++
            [{ id := available_primary_key (fun r => r.id) s.reveals,
               epoch := epoch, oracle := oracle, reveal := payload }] } e epoch = .ok s1 := by
  have hemp := emplace_available (fun r : reveal_row => r.id)
    { id := available_primary_key (fun r => r.id) s.reveals,
      epoch := epoch, oracle := oracle, reveal := payload } s.reveals rfl
  unfold reveal at hok
  cases hst : s.state with
  | none => rw [hst] at hok; cases hok
  | some st =>
    rw [hst] at hok
    simp only [] at hok
    by_cases hen : st.enabled = false
    · rw [if_pos hen] at hok; cases hok
    · rw [if_neg hen] at hok
      cases he : s.epochs.find? (fun r => r.epoch == epoch) with
      | none => rw [he] at hok; cases hok
      | some e =>
        rw [he] at hok
        simp only [] at hok
        by_cases hc : e.completed ≠ 0
        · rw [if_pos hc] at hok; cases hok
        · rw [if_neg hc] at hok
          by_cases ht : c.now ≤ e.end_
          · rw [if_pos ht] at hok; cases hok
          · rw [if_neg ht] at hok
            cases hrv : s.reveals.find? (fun r => r.oracle == oracle && r.epoch == epoch) with
            | some r => rw [hrv] at hok; cases hok
            | none =>
              rw [hrv] at hok
              simp only [] at hok
              cases hcm : s.commits.find? (fun r => r.oracle == oracle && r.epoch == epoch) with
              | none => rw [hcm] at hok; cases hok
              | some cm =>
                rw [hcm] at hok
                simp only [] at hok
                by_cases hh : h.sha256 payload ≠ cm.commit
                · rw [if_pos hh] at hok; cases hok
                · rw [if_neg hh, hemp] at hok
                  exact ⟨st, e, cm, rfl, by simpa using hen, rfl, not_not.1 hc, not_le.1 ht,
                    rfl, rfl, not_not.1 hh, hok⟩

/-- The checks a successful `finishreveal` has passed. -/
theorem finishreveal_ok (h : Host) (s s1 : State) (epoch : Nat)
    (hok : finishreveal h s epoch = .ok s1) :
    ∃ e, s.epochs.find? (fun r => r.epoch == epoch) = some e ∧ e.completed = 0 ∧
      complete_if_revealed h s e epoch = .ok s1 := by
  unfold finishreveal at hok
  cases he : s.epochs.find? (fun r => r.epoch == epoch) with
  | none => rw [he] at hok; cases hok
  | some e =>
    rw [he] at hok
    simp only [] at hok
    by_cases hc : e.completed ≠ 0
    · rw [if_pos hc] at hok; cases hok
    · rw [if_neg hc] at hok
      exact ⟨e, rfl, not_not.1 hc, hok⟩

/-- C8: a reveal by an oracle that has no commit row for the epoch fails,
and so does a reveal whose digest differs from the committed one; the call
is aborted and leaves the storage (reveal rows, completed flags, entropy
rows) as it was. -/
theorem reveal_without_matching_commit_fails (h : Host) (c : Ctx) (s : State) (oracle : name)
    (epoch : Nat) (payload : String) :
    ((∀ r ∈ s.commits, ¬ (r.oracle = oracle ∧ r.epoch = epoch)) →
      (∃ msg, reveal h c s oracle epoch payload = .error msg) ∧
      commit_or_rollback s (reveal h c s oracle epoch payload) = s) ∧
    (∀ cm, s.commits.find? (fun r => r.oracle == oracle && r.epoch == epoch) = some cm →
      h.sha256 payload ≠ cm.commit →
      (∃ msg, reveal h c s oracle epoch payload = .error msg) ∧
      commit_or_rollback s (reveal h c s oracle epoch payload) = s) := by
  constructor
  · intro hno
    cases hres : reveal h c s oracle epoch payload with
    | error msg => exact ⟨⟨msg, rfl⟩, rfl⟩
    | ok s1 =>
      obtain ⟨st, e, cm, -, -, -, -, -, -, hcm, -, -⟩ := reveal_ok h c s s1 oracle epoch payload hres
      have hp := List.find?_some hcm
      simp only [Bool.and_eq_true, beq_iff_eq] at hp
      exact absurd hp (hno cm (List.mem_of_find?_eq_some hcm))
  · intro cm hcm hne
    cases hres : reveal h c s oracle epoch payload with
    | error msg => exact ⟨⟨msg, rfl⟩, rfl⟩
    | ok s1 =>
      obtain ⟨st, e, cm1, -, -, -, -, -, -, hcm1, hsha, -⟩ :=
        reveal_ok h c s s1 oracle epoch payload hres
      rw [hcm] at hcm1
      injection hcm1 with hcm1
      subst hcm1
      exact absurd hsha hne

theorem reveal_without_matching_commit_fails_witness :
    ((∃ msg, reveal example_host (example_ctx 300000001) scenario eosio 5 "foo" = .error msg) ∧
      commit_or_rollback scenario
        (reveal example_host (example_ctx 300000001) scenario eosio 5 "foo") = scenario) ∧
    ((∃ msg, reveal example_host (example_ctx 300000001) scenario oracle_a 5 "bar"
        = .error msg) ∧
      commit_or_rollback scenario
        (reveal example_host (example_ctx 300000001) scenario oracle_a 5 "bar") = scenario) :=
  ⟨(reveal_without_matching_commit_fails example_host (example_ctx 300000001) scenario eosio 5
      "foo").1 (by decide),
   (reveal_without_matching_commit_fails example_host (example_ctx 300000001) scenario oracle_a 5
      "bar").2 { id := 0, epoch := 5, oracle := oracle_a, commit := example_host.sha256 "foo" }
      rfl (by decide)⟩

/-- C10 (counterexample): epoch 5 of `scenario_ab` exists and is completed,
and `finishreveal` on it is an error, not a successful no-op. -/
theorem finishreveal_completed_counterexample :
    (∃ e ∈ scenario_ab.epochs, e.epoch = 5 ∧ e.completed = 1) ∧
    finishreveal example_host scenario_ab 5 = .error "Epoch has already completed" :=
  ⟨⟨_, List.mem_cons_self _ _, rfl, rfl⟩, rfl⟩

/-- C10 (amended): on an existing epoch that is not completed and still
lacks a reveal of some snapshot oracle, `finishreveal` succeeds and changes
nothing; on a completed epoch it fails with "Epoch has already completed";
in every case the storage after two calls in a row is the storage after
one. -/
theorem finishreveal_noop_or_error (h : Host) (s : State) (epoch : Nat) :
    (∀ e, s.epochs.find? (fun r => r.epoch == epoch) = some e → e.completed ≠ 0 →
      finishreveal h s epoch = .error "Epoch has already completed") ∧
    (∀ e, s.epochs.find? (fun r => r.epoch == epoch) = some e → e.completed = 0 →
      (∃ o ∈ e.oracles, ∀ r ∈ s.reveals, ¬ (r.oracle = o ∧ r.epoch = epoch)) →
      finishreveal h s epoch = .ok s) ∧
    commit_or_rollback (commit_or_rollback s (finishreveal h s epoch))
        (finishreveal h (commit_or_rollback s (finishreveal h s epoch)) epoch)
      = commit_or_rollback s (finishreveal h s epoch) := by
  refine ⟨?_, ?_, ?_⟩
  · intro e he hc
    simp only [finishreveal, he, if_pos hc]
  · rintro e he hc ⟨o, ho, hno⟩
    have hnot : ¬ (has_revealed s.reveals e.oracles epoch).length = e.oracles.length := by
      rw [has_revealed_all_iff]
      intro hall
      obtain ⟨r, hr, h1, h2⟩ := hall o ho
      exact hno r hr ⟨h1, h2⟩
    simp only [finishreveal, he, hc, complete_if_revealed, if_neg hnot, ne_eq, not_true_eq_false,
      if_false]
  · cases hres : finishreveal h s epoch with
    | error msg => simp only [commit_or_rollback, hres]
    | ok s1 =>
      obtain ⟨e, he, hc, hcomp⟩ := finishreveal_ok h s s1 epoch hres
      rcases complete_if_revealed_ok h s s1 e epoch hcomp with ⟨-, rfl⟩ | ⟨-, v, -, -, rfl⟩
      · simp only [commit_or_rollback, hres]
      · have hf := find?_modify_same (fun r : epoch_row => r.epoch == epoch)
          (fun r => { r with completed := 1 }) s.epochs e (fun x hx => hx) he
        simp only [commit_or_rollback, finishreveal, hf, ne_eq, one_ne_zero, not_false_eq_true,
          if_true]

theorem finishreveal_noop_or_error_witness :
    finishreveal example_host scenario_ab 5 = .error "Epoch has already completed" ∧
    finishreveal example_host scenario_a 5 = .ok scenario_a :=
  ⟨(finishreveal_noop_or_error example_host scenario_ab 5).1 _ rfl (by decide),
   (finishreveal_noop_or_error example_host scenario_a 5).2.1 _ rfl rfl
     ⟨oracle_b, by decide, by decide⟩⟩

/-- C3: after a successful `reveal` the epoch is completed exactly when
every oracle of its snapshot has a reveal row for it, and then the entropy
row of the epoch holds `compute_epoch_value` of the epoch. -/
theorem reveal_completes_iff_all_revealed (h : Host) (c : Ctx) (s s1 : State) (oracle : name)
    (epoch : Nat) (payload : String) (hok : reveal h c s oracle epoch payload = .ok s1) :
    ∃ e e1, s.epochs.find? (fun r => r.epoch == epoch) = some e ∧
      s1.epochs.find? (fun r => r.epoch == epoch) = some e1 ∧
      e1.oracles = e.oracles ∧
      (e1.completed ≠ 0 ↔ ∀ o ∈ e.oracles, ∃ r ∈ s1.reveals, r.oracle = o ∧ r.epoch = epoch) ∧
      (e1.completed ≠ 0 → ∃ v, compute_epoch_value h s1 epoch = .ok v ∧
        s1.epochdrops.find? (fun r => r.epoch == epoch) = some { epoch := epoch, drops := v }) := by
  obtain ⟨st, e, cm, -, -, he, hc, -, -, -, -, hcomp⟩ := reveal_ok h c s s1 oracle epoch payload hok
  rcases complete_if_revealed_ok h _ s1 e epoch hcomp with ⟨hnot, rfl⟩ | ⟨hall, v, hv, hfresh, rfl⟩
  · refine ⟨e, e, he, he, rfl, ?_, ?_⟩
    · simp only [hc, ne_eq, not_true_eq_false, false_iff]
      exact hnot
    · intro hne; exact absurd hc hne
  · have hf := find?_modify_same (fun r : epoch_row => r.epoch == epoch)
      (fun r => { r with completed := 1 }) s.epochs e (fun x hx => hx) he
    refine ⟨e, { e with completed := 1 }, he, hf, rfl, ?_, ?_⟩
    · simp only [ne_eq, one_ne_zero, not_false_eq_true, true_iff]
      exact hall
    · intro _
      refine ⟨v, ?_, ?_⟩
      · rw [← hv]; exact compute_epoch_value_congr h _ _ epoch rfl rfl
      · exact find?_insert_row_self (fun r : epochdrop_row => r.epoch)
          { epoch := epoch, drops := v } s.epochdrops hfresh

theorem reveal_completes_iff_all_revealed_witness :
    reveal example_host (example_ctx 300000001) scenario oracle_a 5 "foo" = .ok scenario_a ∧
    scenario_a.epochs.find? (fun r => r.epoch == 5)
      = some { epoch := 5, start := 240000000, end_ := 300000000,
               oracles := [oracle_a, oracle_b], completed := 0 } ∧
    reveal example_host (example_ctx 300000001) scenario_a oracle_b 5 "bar" = .ok scenario_ab ∧
    scenario_ab.epochdrops = [{ epoch := 5, drops := example_host.sha256 "5barfoo" }] ∧
    example_host.sha256 "5barfoo" ≠ example_host.sha256 "5foobar" ∧
    ∃ e e1, scenario_a.epochs.find? (fun r => r.epoch == 5) = some e ∧
      scenario_ab.epochs.find? (fun r => r.epoch == 5) = some e1 ∧
      e1.oracles = e.oracles ∧
      (e1.completed ≠ 0 ↔
        ∀ o ∈ e.oracles, ∃ r ∈ scenario_ab.reveals, r.oracle = o ∧ r.epoch = 5) ∧
      (e1.completed ≠ 0 → ∃ v, compute_epoch_value example_host scenario_ab 5 = .ok v ∧
        scenario_ab.epochdrops.find? (fun r => r.epoch == 5)
          = some { epoch := 5, drops := v }) :=
  ⟨rfl, rfl, rfl, rfl, by decide,
   reveal_completes_iff_all_revealed example_host (example_ctx 300000001) scenario_a scenario_ab
     oracle_b 5 "bar" rfl⟩

/-! ## What a successful call has done -/

theorem stoi_le (str : String) (a : Int) (hs : stoi str = some a) : a ≤ 2147483647 := by
  unfold stoi at hs
  by_cases h1 : (stoi_body str).takeWhile Char.isDigit = []
  · rw [if_pos h1] at hs; cases hs
  · rw [if_neg h1] at hs
    by_cases h2 : stoi_value str < -2147483648 ∨ 2147483647 < stoi_value str
    · rw [if_pos h2] at hs; cases hs
    · rw [if_neg h2] at hs
      injection hs with hs
      rw [← hs]
      rw [not_or] at h2
      exact not_lt.1 h2.2

/-- The checks a successful `generate_parse` has passed. -/
theorem generate_parse_ok (h : Host) (s : State) (quantity : asset) (memo : String)
    (epoch amount : Nat) (data : String)
    (hok : generate_parse h s quantity memo = .ok (epoch, amount, data)) :
    ∃ st, s.state = some st ∧ st.enabled = true ∧ epoch = st.epoch ∧
      0 < amount ∧ amount ≤ 2147483647 ∧ 0 < quantity.amount ∧ 32 < data.utf8ByteSize := by
  unfold generate_parse at hok
  by_cases hq : quantity.amount ≤ 0
  · rw [if_pos hq] at hok; cases hok
  rw [if_neg hq] at hok
  by_cases hsym : quantity.symbol ≠ h.EOS
  · rw [if_pos hsym] at hok; cases hok
  rw [if_neg hsym] at hok
  by_cases hm : memo.isEmpty = true
  · rw [if_pos hm] at hok; cases hok
  rw [if_neg hm] at hok
  cases hst : s.state with
  | none => rw [hst] at hok; cases hok
  | some st =>
    rw [hst] at hok
    simp only [] at hok
    by_cases hen : st.enabled = false
    · rw [if_pos hen] at hok; cases hok
    rw [if_neg hen] at hok
    cases hep : s.epochs.find? (fun r => r.epoch == st.epoch) with
    | none => rw [hep] at hok; cases hok
    | some e =>
      rw [hep] at hok
      simp only [] at hok
      generalize split memo ',' = parsed at hok
      match parsed, hok with
      | [], hok => cases hok
      | [_], hok => cases hok
      | _ :: _ :: _ :: _, hok => cases hok
      | [p0, data1], hok =>
        simp only [] at hok
        cases hsto : stoi p0 with
        | none => rw [hsto] at hok; cases hok
        | some a =>
          rw [hsto] at hok
          simp only [] at hok
          have hle := stoi_le p0 a hsto
          by_cases hpos : a ≤ 0
          · rw [if_pos hpos] at hok; cases hok
          rw [if_neg hpos] at hok
          by_cases hlen : data1.utf8ByteSize ≤ 32
          · rw [if_pos hlen] at hok; cases hok
          rw [if_neg hlen] at hok
          injection hok with hok
          injection hok with h1 h2
          injection h2 with h2 h3
          subst h1 h2 h3
          exact ⟨st, rfl, by simpa using hen, rfl, by omega, by omega, by omega, by omega⟩

/-- The tables a successful `generate` has written: none when it was
bypassed, otherwise the drops, the account row and the stat row. -/
theorem generate_ok (h : Host) (c : Ctx) (s : State) (from_ to_ : name) (quantity : asset)
    (memo : String) (r : State × List effect × generate_return_value)
    (hok : generate h c s from_ to_ quantity memo = .ok r) :
    r.1 = s ∨
    ∃ epoch amount data drops1 accounts1 stats1,
      generate_parse h s quantity memo = .ok (epoch, amount, data) ∧
      generate_drops h from_ epoch data 0 amount s.drops = some drops1 ∧
      credit_account s.accounts from_ amount = some accounts1 ∧
      credit_stat s.stats from_ epoch amount = some stats1 ∧
      r.1 = { s with drops := drops1, accounts := accounts1, stats := stats1 } := by
  unfold generate at hok
  by_cases hb : from_ = eosio_ram ∨ to_ ≠ h.self ∨ from_ = h.self ∨ memo = "bypass"
  · rw [if_pos hb] at hok
    injection hok with hok
    left; rw [← hok]
  rw [if_neg hb] at hok
  cases hp : generate_parse h s quantity memo with
  | error e => rw [hp] at hok; cases hok
  | ok v =>
    obtain ⟨epoch, amount, data⟩ := v
    rw [hp] at hok
    simp only [] at hok
    unfold generate_mint at hok
    cases hgd : generate_drops h from_ epoch data 0 amount s.drops with
    | none => rw [hgd] at hok; cases hok
    | some drops1 =>
      cases hca : credit_account s.accounts from_ amount with
      | none => rw [hgd, hca] at hok; cases hok
      | some accounts1 =>
        cases hcs : credit_stat s.stats from_ epoch amount with
        | none => rw [hgd, hca, hcs] at hok; cases hok
        | some stats1 =>
          rw [hgd, hca, hcs] at hok
          simp only [] at hok
          by_cases hcost : quantity.amount
              < c.ramcostwithfee (ram_purchase_amount h s from_ epoch amount)
          · rw [if_pos hcost] at hok; cases hok
          rw [if_neg hcost] at hok
          injection hok with hok
          right
          exact ⟨epoch, amount, data, drops1, accounts1, stats1, rfl, hgd, hca, hcs, by rw [← hok]⟩

/-- The tables a successful `transfer` has written. -/
theorem transfer_ok (c : Ctx) (s : State) (from_ to_ : name) (ids : List Nat)
    (r : State × List effect) (hok : transfer c s from_ to_ ids = .ok r) :
    ∃ st drops1 m accounts1 stats1 stats2,
      s.state = some st ∧ st.enabled = true ∧
      transfer_drops from_ to_ ids s.drops [] = .ok (drops1, m) ∧
      move_balance s.accounts from_ to_ ids.length = .ok accounts1 ∧
      decrement_stats from_ m s.stats = .ok stats1 ∧
      increment_stats to_ m stats1 = .ok stats2 ∧
      r.1 = { s with drops := drops1, accounts := accounts1, stats := stats2 } := by
  unfold transfer at hok
  by_cases ha : c.is_account to_ = false
  · rw [if_pos ha] at hok; cases hok
  rw [if_neg ha] at hok
  cases hst : s.state with
  | none => rw [hst] at hok; cases hok
  | some st =>
    rw [hst] at hok
    simp only [] at hok
    by_cases hen : st.enabled = false
    · rw [if_pos hen] at hok; cases hok
    rw [if_neg hen] at hok
    by_cases hl : ids.length = 0
    · rw [if_pos hl] at hok; cases hok
    rw [if_neg hl] at hok
    cases htd : transfer_drops from_ to_ ids s.drops [] with
    | error e => rw [htd] at hok; cases hok
    | ok v =>
      obtain ⟨drops1, m⟩ := v
      rw [htd] at hok
      simp only [] at hok
      cases hmb : move_balance s.accounts from_ to_ ids.length with
      | error e => rw [hmb] at hok; cases hok
      | ok accounts1 =>
        rw [hmb] at hok
        simp only [] at hok
        cases hds : decrement_stats from_ m s.stats with
        | error e => rw [hds] at hok; cases hok
        | ok stats1 =>
          rw [hds] at hok
          simp only [] at hok
          cases his : increment_stats to_ m stats1 with
          | error e => rw [his] at hok; cases hok
          | ok stats2 =>
            rw [his] at hok
            injection hok with hok
            exact ⟨st, drops1, m, accounts1, stats1, stats2, rfl, by simpa using hen, rfl, rfl,
              hds, his, by rw [← hok]⟩

/-- The tables a successful `destroy` has written. -/
theorem destroy_ok (h : Host) (c : Ctx) (s : State) (owner : name) (ids : List Nat)
    (r : State × List effect × destroy_return_value)
    (hok : destroy h c s owner ids = .ok r) :
    ∃ st drops1 m stats1 a,
      s.state = some st ∧ st.enabled = true ∧
      destroy_drops owner ids s.drops [] = .ok (drops1, m) ∧
      decrement_stats owner m s.stats = .ok stats1 ∧
      s.accounts.find? (fun r => r.account == owner) = some a ∧
      r.1 = { s with drops := drops1,
                     accounts := debit_account s.accounts owner ids.length,
                     stats := stats1 } := by
  unfold destroy at hok
  cases hst : s.state with
  | none => rw [hst] at hok; cases hok
  | some st =>
    rw [hst] at hok
    simp only [] at hok
    by_cases hen : st.enabled = false
    · rw [if_pos hen] at hok; cases hok
    rw [if_neg hen] at hok
    by_cases hl : ids.length = 0
    · rw [if_pos hl] at hok; cases hok
    rw [if_neg hl] at hok
    cases htd : destroy_drops owner ids s.drops [] with
    | error e => rw [htd] at hok; cases hok
    | ok v =>
      obtain ⟨drops1, m⟩ := v
      rw [htd] at hok
      simp only [] at hok
      cases hds : decrement_stats owner m s.stats with
      | error e => rw [hds] at hok; cases hok
      | ok stats1 =>
        rw [hds] at hok
        simp only [] at hok
        cases hac : s.accounts.find? (fun r => r.account == owner) with
        | none => rw [hac] at hok; cases hok
        | some a =>
          rw [hac] at hok
          injection hok with hok
          exact ⟨st, drops1, m, stats1, a, rfl, by simpa using hen, rfl, hds, rfl, by rw [← hok]⟩

/-- The tables a successful `enroll` has written. -/
theorem enroll_ok (s s1 : State) (account : name) (epoch : Nat)
    (hok : enroll s account epoch = .ok s1) :
    ∃ accounts1 x,
      enroll_account s.accounts account = some accounts1 ∧
      s.stats.find? (fun r => r.account == account && r.epoch == epoch) = some x ∧
      s1 = { s with accounts := accounts1,
                    stats := s.stats ++ [{ id := available_primary_key (fun r => r.id) s.stats,
                                           account := account, drops := 0, epoch := epoch }] } := by
  have hemp := emplace_available (fun r : stat_row => r.id)
    { id := available_primary_key (fun r => r.id) s.stats,
      account := account, drops := 0, epoch := epoch } s.stats rfl
  unfold enroll at hok
  cases hea : enroll_account s.accounts account with
  | none => rw [hea] at hok; cases hok
  | some accounts1 =>
    rw [hea] at hok
    simp only [] at hok
    cases hf : s.stats.find? (fun r => r.account == account && r.epoch == epoch) with
    | none => rw [hf] at hok; cases hok
    | some x =>
      rw [hf, hemp] at hok
      injection hok with hok
      exact ⟨accounts1, x, rfl, rfl, hok.symm⟩

theorem map_eq_ok {α β : Type} (x : Except String α) (f : α → β) (y : β)
    (hx : x.map f = .ok y) : ∃ r, x = .ok r ∧ f r = y := by
  cases x with
  | error e => cases hx
  | ok r =>
    injection hx with hx
    exact ⟨r, rfl, hx⟩

/-- The checks a successful `commit` has passed and the row it added. -/
theorem commit_ok (c : Ctx) (s s1 : State) (oracle : name) (epoch : Nat) (digest : checksum256)
    (hok : commit c s oracle epoch digest = .ok s1) :
    ∃ st e, s.state = some st ∧ st.enabled = true ∧
      s.epochs.find? (fun r => r.epoch == epoch) = some e ∧ oracle ∈ e.oracles ∧
      e.start < c.now ∧ c.now < e.end_ ∧
      s.commits.find? (fun r => r.oracle == oracle && r.epoch == epoch) = none ∧
      s1 = { s with commits := s.commits ++
        [{ id := available_primary_key (fun r => r.id) s.commits,
           epoch := epoch, oracle := oracle, commit := digest }] } := by
  have hemp := emplace_available (fun r : commit_row => r.id)
    { id := available_primary_key (fun r => r.id) s.commits,
      epoch := epoch, oracle := oracle, commit := digest } s.commits rfl
  unfold commit at hok
  cases hst : s.state with
  | none => rw [hst] at hok; cases hok
  | some st =>
    rw [hst] at hok
    simp only [] at hok
    by_cases hen : st.enabled = false
    · rw [if_pos hen] at hok; cases hok
    rw [if_neg hen] at hok
    cases he : s.epochs.find? (fun r => r.epoch == epoch) with
    | none => rw [he] at hok; cases hok
    | some e =>
      rw [he] at hok
      simp only [] at hok
      by_cases hmem : oracle ∉ e.oracles
      · rw [if_pos hmem] at hok; cases hok
      rw [if_neg hmem] at hok
      by_cases h1 : c.now ≤ e.start
      · rw [if_pos h1] at hok; cases hok
      rw [if_neg h1] at hok
      by_cases h2 : e.end_ ≤ c.now
      · rw [if_pos h2] at hok; cases hok
      rw [if_neg h2] at hok
      cases hcm : s.commits.find? (fun r => r.oracle == oracle && r.epoch == epoch) with
      | some cm => rw [hcm] at hok; cases hok
      | none =>
        rw [hcm, hemp] at hok
        injection hok with hok
        exact ⟨st, e, rfl, by simpa using hen, rfl, not_not.1 hmem, not_le.1 h1, not_le.1 h2,
          rfl, hok.symm⟩

/-- The checks a successful `advance_epoch` has passed and what it wrote. -/
theorem advance_epoch_ok (h : Host) (c : Ctx) (s s1 : State) (out : List effect)
    (row : epoch_row) (hok : advance_epoch h c s = .ok (s1, out, row)) :
    ∃ st cur, s.state = some st ∧ st.enabled = true ∧
      s.epochs.find? (fun r => r.epoch == st.epoch) = some cur ∧ cur.end_ ≤ c.now ∧
      s.oracles ≠ [] ∧
      row = { epoch := add64 st.epoch 1, start := cur.end_,
              end_ := cur.end_ + seconds h.epochphasetimer,
              oracles := s.oracles, completed := 0 } ∧
      (∀ x ∈ s.epochs, x.epoch ≠ row.epoch) ∧
      out = s.subscribers.map effect.require_recipient ∧
      s1 = { s with state := some { st with epoch := add64 st.epoch 1 },
                    epochs := insert_row (fun r => r.epoch) row s.epochs } := by
  unfold advance_epoch at hok
  cases hst : s.state with
  | none => rw [hst] at hok; cases hok
  | some st =>
    rw [hst] at hok
    simp only [] at hok
    by_cases hen : st.enabled = false
    · rw [if_pos hen] at hok; cases hok
    rw [if_neg hen] at hok
    cases he : s.epochs.find? (fun r => r.epoch == st.epoch) with
    | none => rw [he] at hok; cases hok
    | some cur =>
      rw [he] at hok
      simp only [] at hok
      by_cases ht : c.now < cur.end_
      · rw [if_pos ht] at hok; cases hok
      rw [if_neg ht] at hok
      by_cases ho : s.oracles = []
      · rw [if_pos ho] at hok; cases hok
      rw [if_neg ho] at hok
      cases hem : emplace (fun r : epoch_row => r.epoch)
          { epoch := add64 st.epoch 1, start := cur.end_,
            end_ := cur.end_ + seconds h.epochphasetimer,
            oracles := s.oracles, completed := 0 } s.epochs with
      | none => rw [hem] at hok; cases hok
      | some epochs1 =>
        rw [hem] at hok
        obtain ⟨hfresh, hins⟩ := (emplace_eq_some _ _ _ _).1 hem
        injection hok with hok
        injection hok with h1 h2
        injection h2 with h2 h3
        subst h3
        exact ⟨st, cur, rfl, by simpa using hen, he, not_lt.1 ht, ho, rfl, hfresh, h2.symm,
          by rw [← h1, hins]⟩

/-- A property of the storage that every step of the epoch pointer keeps is
kept by the action `advance`. -/
theorem advance_keeps (h : Host) (c : Ctx) (P : State → Prop)
    (hstep : ∀ s s1 out row, P s → advance_epoch h c s = .ok (s1, out, row) → P s1)
    (s : State) (r : State × List effect × epoch_row) (hs : P s)
    (hok : advance h c s = .ok r) : P r.1 := by
  have hloop : ∀ fuel s out row r, P s → advance_loop h c fuel s out row = .ok r → P r.1 := by
    intro fuel
    induction fuel with
    | zero =>
      intro s out row r hs hl
      unfold advance_loop at hl
      by_cases ht : c.now < row.end_
      · rw [if_pos ht] at hl
        injection hl with hl
        rw [← hl]; exact hs
      · rw [if_neg ht] at hl; cases hl
    | succ n ih =>
      intro s out row r hs hl
      unfold advance_loop at hl
      by_cases ht : c.now < row.end_
      · rw [if_pos ht] at hl
        injection hl with hl
        rw [← hl]; exact hs
      · rw [if_neg ht] at hl
        cases ha : advance_epoch h c s with
        | error e => rw [ha] at hl; cases hl
        | ok v =>
          obtain ⟨s1, out1, next⟩ := v
          rw [ha] at hl
          exact ih s1 _ next r (hstep s s1 out1 next hs ha) hl
  unfold advance at hok
  cases ha : advance_epoch h c s with
  | error e => rw [ha] at hok; cases hok
  | ok v =>
    obtain ⟨s1, out1, row⟩ := v
    rw [ha] at hok
    exact hloop _ s1 out1 row r (hstep s s1 out1 row hs ha) hok

/-- The checks a successful `init` has passed and what it wrote. -/
theorem init_ok (h : Host) (c : Ctx) (s s1 : State) (hok : init h c s = .ok s1) :
    ∃ accounts1 epochs1 drops1 stats1,
      s.state = none ∧
      emplace (fun r => r.account) { account := eosio, drops := 1 } s.accounts = some accounts1 ∧
      emplace (fun r => r.epoch) (first_epoch h c s) s.epochs = some epochs1 ∧
      emplace (fun r => r.drops) { drops := 0, owner := eosio, epoch := 1 } s.drops
        = some drops1 ∧
      emplace (fun r => r.id) { id := 1, account := eosio, epoch := 1, drops := 1 } s.stats
        = some stats1 ∧
      s1 = { s with state := some { epoch := 1, enabled := false },
                    epochs := epochs1, drops := drops1,
                    accounts := accounts1, stats := stats1 } := by
  unfold init at hok
  cases hac : emplace (fun r : account_row => r.account) { account := eosio, drops := 1 }
      s.accounts with
  | none => rw [hac] at hok; cases hok
  | some accounts1 =>
    rw [hac] at hok
    simp only [] at hok
    by_cases ho : s.oracles = []
    · rw [if_pos ho] at hok; cases hok
    rw [if_neg ho] at hok
    by_cases hz : h.epochphasetimer = 0
    · rw [if_pos hz] at hok; cases hok
    rw [if_neg hz] at hok
    cases hep : emplace (fun r : epoch_row => r.epoch) (first_epoch h c s) s.epochs with
    | none => rw [hep] at hok; cases hok
    | some epochs1 =>
      rw [hep] at hok
      simp only [] at hok
      cases hdr : emplace (fun r : drop_row => r.drops) { drops := 0, owner := eosio, epoch := 1 }
          s.drops with
      | none => rw [hdr] at hok; cases hok
      | some drops1 =>
        rw [hdr] at hok
        simp only [] at hok
        cases hst : s.state with
        | some st => rw [hst] at hok; cases hok
        | none =>
          rw [hst] at hok
          simp only [] at hok
          cases hsr : emplace (fun r : stat_row => r.id)
              { id := 1, account := eosio, epoch := 1, drops := 1 } s.stats with
          | none => rw [hsr] at hok; cases hok
          | some stats1 =>
            rw [hsr] at hok
            injection hok with hok
            exact ⟨accounts1, epochs1, drops1, stats1, rfl, rfl, rfl, rfl, rfl, by rw [← hok]⟩

/-! ## The invariant of the commit and reveal tables -/

theorem map_modify {α β : Type} (key : α → β) (p : α → Bool) (f : α → α) (t : List α)
    (hf : ∀ x, key (f x) = key x) : (modify p f t).map key = t.map key := by
  induction t with
  | nil => rfl
  | cons x t ih =>
    simp only [modify]
    split
    · simp only [List.map_cons, hf]
    · simp only [List.map_cons, ih]

theorem pairwise_modify {α : Type} (key : α → Nat) (p : α → Bool) (f : α → α) (t : List α)
    (hf : ∀ x, key (f x) = key x) (ht : t.Pairwise (fun a b => key a ≠ key b)) :
    (modify p f t).Pairwise (fun a b => key a ≠ key b) := by
  have h1 : (t.map key).Pairwise (fun a b => a ≠ b) := List.pairwise_map.2 ht
  rw [← map_modify key p f t hf] at h1
  exact List.pairwise_map.1 h1

theorem pairwise_key_eq {α : Type} (key : α → Nat) (t : List α)
    (ht : t.Pairwise (fun a b => key a ≠ key b)) (a b : α) (ha : a ∈ t) (hb : b ∈ t)
    (hk : key a = key b) : a = b := by
  induction t with
  | nil => cases ha
  | cons x t ih =>
    obtain ⟨hx, ht1⟩ := List.pairwise_cons.1 ht
    rcases List.mem_cons.1 ha with rfl | ha1
    · rcases List.mem_cons.1 hb with rfl | hb1
      · rfl
      · exact absurd hk (hx b hb1)
    · rcases List.mem_cons.1 hb with rfl | hb1
      · exact absurd hk.symm (hx a ha1)
      · exact ih ht1 ha1 hb1

theorem oracle_inv_of_frame (h : Host) (s s1 : State) (hi : oracle_inv h s)
    (he : s1.epochs = s.epochs) (hc : s1.commits = s.commits) (hr : s1.reveals = s.reveals)
    (hd : s1.epochdrops = s.epochdrops) : oracle_inv h s1 := by
  constructor
  · rw [he]; exact hi.epoch_unique
  · rw [he, hd]; exact hi.entropy_iff
  · rw [hd]; exact hi.entropy_unique
  · rw [hr, hc]; exact hi.reveal_committed
  · rw [hc]; exact hi.commit_unique
  · rw [hr]; exact hi.reveal_unique

theorem oracle_inv_insert_epoch (h : Host) (s s1 : State) (row : epoch_row)
    (hi : oracle_inv h s) (hrow : row.completed = 0)
    (hfresh : ∀ x ∈ s.epochs, x.epoch ≠ row.epoch)
    (he : s1.epochs = insert_row (fun r => r.epoch) row s.epochs)
    (hc : s1.commits = s.commits) (hr : s1.reveals = s.reveals)
    (hd : s1.epochdrops = s.epochdrops) : oracle_inv h s1 := by
  constructor
  · rw [he, (insert_row_perm _ _ _).pairwise_iff (fun {a b} hab => Ne.symm hab)]
    exact List.pairwise_cons.2 ⟨fun d hd => Ne.symm (hfresh d hd), hi.epoch_unique⟩
  · intro epoch
    rw [he, hd, hi.entropy_iff epoch]
    constructor
    · rintro ⟨e, hem, h1, h2⟩
      exact ⟨e, (mem_insert_row _ _ _ _).2 (Or.inr hem), h1, h2⟩
    · rintro ⟨e, hem, h1, h2⟩
      rcases (mem_insert_row _ _ _ _).1 hem with rfl | hm
      · exact absurd hrow h2
      · exact ⟨e, hm, h1, h2⟩
  · rw [hd]; exact hi.entropy_unique
  · rw [hr, hc]; exact hi.reveal_committed
  · rw [hc]; exact hi.commit_unique
  · rw [hr]; exact hi.reveal_unique

theorem oracle_inv_complete (h : Host) (s s1 : State) (e : epoch_row) (epoch : Nat)
    (hi : oracle_inv h s) (he : s.epochs.find? (fun r => r.epoch == epoch) = some e)
    (hok : complete_if_revealed h s e epoch = .ok s1) : oracle_inv h s1 := by
  rcases complete_if_revealed_ok h s s1 e epoch hok with ⟨-, rfl⟩ | ⟨-, v, -, hfresh, rfl⟩
  · exact hi
  · have hee : e.epoch = epoch := by simpa using List.find?_some he
    have hnew := mem_modify_of_find (fun r : epoch_row => r.epoch == epoch)
      (fun r => { r with completed := 1 }) s.epochs e he
    constructor
    · simp only []
      exact pairwise_modify (fun r : epoch_row => r.epoch) _ _ _ (fun x => rfl) hi.epoch_unique
    · intro E
      simp only []
      constructor
      · rintro ⟨d, hd, hdE⟩
        by_cases hE : E = epoch
        · exact ⟨_, hnew, by simpa [hE] using hee, by simp⟩
        · rcases (mem_insert_row _ _ _ _).1 hd with rfl | hm
          · exact absurd hdE.symm hE
          · obtain ⟨e0, he0, h1, h2⟩ := (hi.entropy_iff E).1 ⟨d, hm, hdE⟩
            refine ⟨e0, mem_modify_of_not _ _ _ _ he0 ?_, h1, h2⟩
            simpa [h1] using hE
      · rintro ⟨e1, he1, h1, h2⟩
        rcases mem_modify _ _ _ _ he1 with hm | ⟨y, hy, hpy, rfl⟩
        · obtain ⟨d, hd, hdE⟩ := (hi.entropy_iff E).2 ⟨e1, hm, h1, h2⟩
          exact ⟨d, (mem_insert_row _ _ _ _).2 (Or.inr hd), hdE⟩
        · have hye : y.epoch = epoch := by simpa using hpy
          refine ⟨_, (mem_insert_row _ _ _ _).2 (Or.inl rfl), ?_⟩
          simp only [] at h1
          rw [← h1, hye]
    · simp only []
      rw [(insert_row_perm _ _ _).pairwise_iff (fun {a b} hab => Ne.symm hab)]
      exact List.pairwise_cons.2 ⟨fun d hd => Ne.symm (hfresh d hd), hi.entropy_unique⟩
    · exact hi.reveal_committed
    · exact hi.commit_unique
    · exact hi.reveal_unique

theorem pairwise_append_single {α : Type} (R : α → α → Prop) (t : List α) (r : α)
    (ht : t.Pairwise R) (hr : ∀ x ∈ t, R x r) : (t ++ [r]).Pairwise R := by
  rw [List.pairwise_append]
  refine ⟨ht, List.pairwise_singleton _ _, ?_⟩
  intro a ha b hb
  rw [List.mem_singleton] at hb
  subst hb
  exact hr a ha

/-- Every successful call keeps the invariant of the commit and reveal
tables. -/
theorem oracle_inv_step (h : Host) (c : Ctx) (a : call) (s s1 : State) (hi : oracle_inv h s)
    (hok : exec h c s a = .ok s1) : oracle_inv h s1 := by
  cases a with
  | init =>
    obtain ⟨accounts1, epochs1, drops1, stats1, -, -, hep, -, -, rfl⟩ := init_ok h c s s1 hok
    obtain ⟨hfresh, hins⟩ := (emplace_eq_some _ _ _ _).1 hep
    exact oracle_inv_insert_epoch h s _ (first_epoch h c s) hi rfl hfresh hins rfl rfl rfl
  | enable enabled =>
    simp only [exec, enable] at hok
    split at hok
    · cases hok
    · injection hok with hok
      subst hok
      exact oracle_inv_of_frame h s _ hi rfl rfl rfl rfl
  | addoracle oracle =>
    simp only [exec, addoracle] at hok
    split at hok
    · cases hok
    · split at hok
      · cases hok
      · injection hok with hok
        subst hok
        exact oracle_inv_of_frame h s _ hi rfl rfl rfl rfl
  | removeoracle oracle =>
    simp only [exec, removeoracle] at hok
    split at hok
    · cases hok
    · injection hok with hok
      subst hok
      exact oracle_inv_of_frame h s _ hi rfl rfl rfl rfl
  | subscribe subscriber =>
    simp only [exec, subscribe] at hok
    split at hok
    · cases hok
    · split at hok
      · cases hok
      · injection hok with hok
        subst hok
        exact oracle_inv_of_frame h s _ hi rfl rfl rfl rfl
  | unsubscribe subscriber =>
    simp only [exec, unsubscribe] at hok
    split at hok
    · cases hok
    · injection hok with hok
      subst hok
      exact oracle_inv_of_frame h s _ hi rfl rfl rfl rfl
  | advance =>
    obtain ⟨r, hr, rfl⟩ := map_eq_ok _ _ _ hok
    refine advance_keeps h c (oracle_inv h) ?_ s r hi hr
    intro t t1 out row ht hstep
    obtain ⟨st, cur, -, -, -, -, -, hrow, hfresh, -, rfl⟩ :=
      advance_epoch_ok h c t t1 out row hstep
    exact oracle_inv_insert_epoch h t _ row ht (by rw [hrow]) hfresh rfl rfl rfl rfl
  | generate from_ to_ quantity memo =>
    obtain ⟨r, hr, rfl⟩ := map_eq_ok _ _ _ hok
    rcases generate_ok h c s from_ to_ quantity memo r hr with h1 | ⟨_, _, _, _, _, _, -, -, -, -, h1⟩
    · rw [h1]; exact hi
    · rw [h1]; exact oracle_inv_of_frame h s _ hi rfl rfl rfl rfl
  | transfer from_ to_ ids =>
    obtain ⟨r, hr, rfl⟩ := map_eq_ok _ _ _ hok
    obtain ⟨_, _, _, _, _, _, -, -, -, -, -, -, h1⟩ := transfer_ok c s from_ to_ ids r hr
    rw [h1]; exact oracle_inv_of_frame h s _ hi rfl rfl rfl rfl
  | destroy owner ids =>
    obtain ⟨r, hr, rfl⟩ := map_eq_ok _ _ _ hok
    obtain ⟨_, _, _, _, _, -, -, -, -, -, h1⟩ := destroy_ok h c s owner ids r hr
    rw [h1]; exact oracle_inv_of_frame h s _ hi rfl rfl rfl rfl
  | destroyall =>
    simp only [exec, destroyall, Except.map] at hok
    injection hok with hok
    subst hok
    exact oracle_inv_of_frame h s _ hi rfl rfl rfl rfl
  | enroll account epoch =>
    obtain ⟨_, _, -, -, rfl⟩ := enroll_ok s s1 account epoch hok
    exact oracle_inv_of_frame h s _ hi rfl rfl rfl rfl
  | commit oracle epoch cm =>
    obtain ⟨st, e, -, -, -, -, -, -, hnone, rfl⟩ := commit_ok c s s1 oracle epoch cm hok
    have hn := (find?_pair_eq_none s.commits (fun r => r.oracle) (fun r => r.epoch)
      oracle epoch).1 hnone
    constructor
    · exact hi.epoch_unique
    · exact hi.entropy_iff
    · exact hi.entropy_unique
    · intro r hr
      obtain ⟨cm0, h0, h1⟩ := hi.reveal_committed r hr
      exact ⟨cm0, List.mem_append_left _ h0, h1⟩
    · exact pairwise_append_single _ _ _ hi.commit_unique (fun x hx => hn x hx)
    · exact hi.reveal_unique
  | reveal oracle epoch rv =>
    obtain ⟨st, e, cm, -, -, he, -, -, hnone, hcm, hsha, hcomp⟩ :=
      reveal_ok h c s s1 oracle epoch rv hok
    have hn := (find?_pair_eq_none s.reveals (fun r => r.oracle) (fun r => r.epoch)
      oracle epoch).1 hnone
    have hcp := List.find?_some hcm
    simp only [Bool.and_eq_true, beq_iff_eq] at hcp
    refine oracle_inv_complete h
      { s with reveals := s.reveals ++
          [{ id := available_primary_key (fun r => r.id) s.reveals,
             epoch := epoch, oracle := oracle, reveal := rv }] } s1 e epoch ?_ he hcomp
    constructor
    · exact hi.epoch_unique
    · exact hi.entropy_iff
    · exact hi.entropy_unique
    · intro r hr
      rcases List.mem_append.1 hr with hm | hm
      · exact hi.reveal_committed r hm
      · rw [List.mem_singleton] at hm
        subst hm
        exact ⟨cm, List.mem_of_find?_eq_some hcm, hcp.1, hcp.2, hsha.symm⟩
    · exact hi.commit_unique
    · exact pairwise_append_single _ _ _ hi.reveal_unique (fun x hx => hn x hx)
  | finishreveal epoch =>
    obtain ⟨e, he, -, hcomp⟩ := finishreveal_ok h s s1 epoch hok
    exact oracle_inv_complete h s s1 e epoch hi he hcomp

theorem oracle_inv_empty (h : Host) : oracle_inv h State.empty := by
  constructor
  · exact List.Pairwise.nil
  · intro epoch; simp [State.empty]
  · exact List.Pairwise.nil
  · intro r hr; cases hr
  · exact List.Pairwise.nil
  · exact List.Pairwise.nil

/-- The invariant of the commit and reveal tables holds in every reachable
storage. -/
theorem reachable_oracle_inv (h : Host) (s : State) (hr : Reachable h s) : oracle_inv h s := by
  induction hr with
  | empty => exact oracle_inv_empty h
  | step c a _ hok ih => exact oracle_inv_step h c a _ _ ih hok

theorem later_oracle_inv (h : Host) (s s1 : State) (hi : oracle_inv h s) (hl : Later h s s1) :
    oracle_inv h s1 := by
  induction hl with
  | refl => exact hi
  | step c a _ hok ih => exact oracle_inv_step h c a _ _ ih hok

/-! ## Reachable examples -/

theorem reachable_genesis : Reachable example_host genesis :=
  Reachable.step (example_ctx 1000000000) (.enable true)
    (Reachable.step (example_ctx 1000000000) .init
      (Reachable.step (example_ctx 0) (.addoracle oracle_b)
        (Reachable.step (example_ctx 0) (.addoracle oracle_a) Reachable.empty rfl) rfl) rfl) rfl

theorem reachable_committed : Reachable example_host committed :=
  Reachable.step (example_ctx 1000000000) (.commit oracle_b 1 (example_host.sha256 "bar"))
    (Reachable.step (example_ctx 1000000000) (.commit oracle_a 1 (example_host.sha256 "foo"))
      reachable_genesis rfl) rfl

theorem later_revealed_a : Later example_host committed revealed_a :=
  Later.step (example_ctx 1020000001) (.reveal oracle_a 1 "foo") Later.refl rfl

theorem later_revealed_ab : Later example_host revealed_a revealed_ab :=
  Later.step (example_ctx 1020000001) (.reveal oracle_b 1 "bar") Later.refl rfl

theorem reachable_later (h : Host) (s s1 : State) (hr : Reachable h s) (hl : Later h s s1) :
    Reachable h s1 := by
  induction hl with
  | refl => exact hr
  | step c a _ hok ih => exact Reachable.step c a ih hok

theorem reachable_revealed_a : Reachable example_host revealed_a :=
  reachable_later _ _ _ reachable_committed later_revealed_a

theorem reachable_revealed_ab : Reachable example_host revealed_ab :=
  reachable_later _ _ _ reachable_revealed_a later_revealed_ab

/-! ## Entropy rows are written once -/

theorem complete_if_revealed_epochdrops (h : Host) (s s1 : State) (e : epoch_row) (epoch : Nat)
    (hok : complete_if_revealed h s e epoch = .ok s1) :
    ∀ d ∈ s.epochdrops, d ∈ s1.epochdrops := by
  intro d hd
  rcases complete_if_revealed_ok h s s1 e epoch hok with ⟨-, rfl⟩ | ⟨-, v, -, -, rfl⟩
  · exact hd
  · exact (mem_insert_row _ _ _ _).2 (Or.inr hd)

/-- No successful call removes or changes an entropy row. -/
theorem exec_epochdrops (h : Host) (c : Ctx) (a : call) (s s1 : State)
    (hok : exec h c s a = .ok s1) : ∀ d ∈ s.epochdrops, d ∈ s1.epochdrops := by
  cases a with
  | init =>
    obtain ⟨_, _, _, _, -, -, -, -, -, rfl⟩ := init_ok h c s s1 hok
    exact fun d hd => hd
  | enable enabled =>
    simp only [exec, enable] at hok
    split at hok
    · cases hok
    · injection hok with hok
      subst hok
      exact fun d hd => hd
  | addoracle oracle =>
    simp only [exec, addoracle] at hok
    split at hok
    · cases hok
    · split at hok
      · cases hok
      · injection hok with hok
        subst hok
        exact fun d hd => hd
  | removeoracle oracle =>
    simp only [exec, removeoracle] at hok
    split at hok
    · cases hok
    · injection hok with hok
      subst hok
      exact fun d hd => hd
  | subscribe subscriber =>
    simp only [exec, subscribe] at hok
    split at hok
    · cases hok
    · split at hok
      · cases hok
      · injection hok with hok
        subst hok
        exact fun d hd => hd
  | unsubscribe subscriber =>
    simp only [exec, unsubscribe] at hok
    split at hok
    · cases hok
    · injection hok with hok
      subst hok
      exact fun d hd => hd
  | advance =>
    obtain ⟨r, hr, rfl⟩ := map_eq_ok _ _ _ hok
    refine advance_keeps h c (fun t => ∀ d ∈ s.epochdrops, d ∈ t.epochdrops) ?_ s r
      (fun d hd => hd) hr
    intro t t1 out row ht hstep
    obtain ⟨st, cur, -, -, -, -, -, -, -, -, rfl⟩ := advance_epoch_ok h c t t1 out row hstep
    exact ht
  | generate from_ to_ quantity memo =>
    obtain ⟨r, hr, rfl⟩ := map_eq_ok _ _ _ hok
    rcases generate_ok h c s from_ to_ quantity memo r hr with h1 | ⟨_, _, _, _, _, _, -, -, -, -, h1⟩
    · rw [h1]; exact fun d hd => hd
    · rw [h1]; exact fun d hd => hd
  | transfer from_ to_ ids =>
    obtain ⟨r, hr, rfl⟩ := map_eq_ok _ _ _ hok
    obtain ⟨_, _, _, _, _, _, -, -, -, -, -, -, h1⟩ := transfer_ok c s from_ to_ ids r hr
    rw [h1]; exact fun d hd => hd
  | destroy owner ids =>
    obtain ⟨r, hr, rfl⟩ := map_eq_ok _ _ _ hok
    obtain ⟨_, _, _, _, _, -, -, -, -, -, h1⟩ := destroy_ok h c s owner ids r hr
    rw [h1]; exact fun d hd => hd
  | destroyall =>
    simp only [exec, destroyall, Except.map] at hok
    injection hok with hok
    subst hok
    exact fun d hd => hd
  | enroll account epoch =>
    obtain ⟨_, _, -, -, rfl⟩ := enroll_ok s s1 account epoch hok
    exact fun d hd => hd
  | commit oracle epoch cm =>
    obtain ⟨st, e, -, -, -, -, -, -, -, rfl⟩ := commit_ok c s s1 oracle epoch cm hok
    exact fun d hd => hd
  | reveal oracle epoch rv =>
    obtain ⟨st, e, cm, -, -, -, -, -, -, -, -, hcomp⟩ := reveal_ok h c s s1 oracle epoch rv hok
    exact complete_if_revealed_epochdrops h
      { s with reveals := s.reveals ++
          [{ id := available_primary_key (fun r => r.id) s.reveals,
             epoch := epoch, oracle := oracle, reveal := rv }] } s1 e epoch hcomp
  | finishreveal epoch =>
    obtain ⟨e, -, -, hcomp⟩ := finishreveal_ok h s s1 epoch hok
    exact complete_if_revealed_epochdrops h s s1 e epoch hcomp

theorem later_epochdrops (h : Host) (s s1 : State) (hl : Later h s s1) :
    ∀ d ∈ s.epochdrops, d ∈ s1.epochdrops := by
  induction hl with
  | refl => exact fun d hd => hd
  | step c a _ hok ih => exact fun d hd => exec_epochdrops h c a _ _ hok d (ih d hd)

/-- C2: in every reachable storage an entropy row exists for an epoch
exactly when the epoch row of that epoch has its completed flag set, and
an entropy row, once stored, is still there unchanged, as the only entropy
row of its epoch, after any further successful calls. -/
theorem entropy_iff_completed_and_written_once (h : Host) (s : State) (hr : Reachable h s)
    (epoch : Nat) :
    ((∃ d ∈ s.epochdrops, d.epoch = epoch) ↔
      ∃ e, s.epochs.find? (fun r => r.epoch == epoch) = some e ∧ e.completed ≠ 0) ∧
    ∀ s1 d, Later h s s1 → d ∈ s.epochdrops → d.epoch = epoch →
      d ∈ s1.epochdrops ∧ ∀ d1 ∈ s1.epochdrops, d1.epoch = epoch → d1 = d := by
  have hi := reachable_oracle_inv h s hr
  constructor
  · rw [hi.entropy_iff epoch]
    constructor
    · rintro ⟨e, he, h1, h2⟩
      obtain ⟨e1, he1⟩ := find?_isSome_of_mem (fun r : epoch_row => r.epoch == epoch) s.epochs e he
        (by simpa using h1)
      have h3 : e1.epoch = epoch := by simpa using List.find?_some he1
      have := pairwise_key_eq (fun r : epoch_row => r.epoch) s.epochs hi.epoch_unique e1 e
        (List.mem_of_find?_eq_some he1) he (h3.trans h1.symm)
      subst this
      exact ⟨e1, he1, h2⟩
    · rintro ⟨e, he, h2⟩
      exact ⟨e, List.mem_of_find?_eq_some he, by simpa using List.find?_some he, h2⟩
  · intro s1 d hl hd hde
    have hd1 := later_epochdrops h s s1 hl d hd
    have hi1 := later_oracle_inv h s s1 hi hl
    refine ⟨hd1, fun d1 hm1 hde1 => ?_⟩
    exact pairwise_key_eq (fun r : epochdrop_row => r.epoch) s1.epochdrops hi1.entropy_unique
      d1 d hm1 hd1 (hde1.trans hde.symm)

theorem entropy_iff_completed_and_written_once_witness :
    ((∃ d ∈ revealed_ab.epochdrops, d.epoch = 1) ↔
      ∃ e, revealed_ab.epochs.find? (fun r => r.epoch == 1) = some e ∧ e.completed ≠ 0) ∧
    ((∃ d ∈ revealed_a.epochdrops, d.epoch = 1) ↔
      ∃ e, revealed_a.epochs.find? (fun r => r.epoch == 1) = some e ∧ e.completed ≠ 0) ∧
    ({ epoch := 1, drops := example_host.sha256 "1barfoo" } ∈ revealed_ab.epochdrops ∧
      ∀ d1 ∈ revealed_ab.epochdrops, d1.epoch = 1 →
        d1 = { epoch := 1, drops := example_host.sha256 "1barfoo" }) :=
  ⟨(entropy_iff_completed_and_written_once example_host revealed_ab reachable_revealed_ab 1).1,
   (entropy_iff_completed_and_written_once example_host revealed_a reachable_revealed_a 1).1,
   (entropy_iff_completed_and_written_once example_host revealed_ab reachable_revealed_ab 1).2
     revealed_ab { epoch := 1, drops := example_host.sha256 "1barfoo" } Later.refl
     (List.mem_cons_self _ _) rfl⟩

/-! ## Commits precede reveals -/

theorem filter_pair_length_le_one {α : Type} (f g : α → Nat) (t : List α)
    (ht : t.Pairwise (fun a b => ¬ (f a = f b ∧ g a = g b))) (x y : Nat) :
    (t.filter (fun r => f r == x && g r == y)).length ≤ 1 := by
  induction t with
  | nil => simp
  | cons r t ih =>
    obtain ⟨hr, ht1⟩ := List.pairwise_cons.1 ht
    by_cases hp : (f r == x && g r == y) = true
    · rw [List.filter_cons_of_pos (p := fun r => f r == x && g r == y) hp]
      have hnil : t.filter (fun r => f r == x && g r == y) = [] := by
        rw [List.filter_eq_nil_iff]
        intro z hz hpz
        simp only [Bool.and_eq_true, beq_iff_eq] at hp hpz
        exact hr z hz ⟨hp.1.trans hpz.1.symm, hp.2.trans hpz.2.symm⟩
      rw [hnil]; simp
    · rw [List.filter_cons_of_neg (p := fun r => f r == x && g r == y) hp]
      exact ih ht1

/-- C6: in every reachable storage every reveal row has a commit row of the
same oracle and epoch whose digest is `sha256` of the revealed value, and no
pair of oracle and epoch has more than one commit row or more than one
reveal row. -/
theorem reveal_follows_matching_commit (h : Host) (s : State) (hr : Reachable h s) :
    (∀ r ∈ s.reveals, ∃ cm ∈ s.commits,
      cm.oracle = r.oracle ∧ cm.epoch = r.epoch ∧ cm.commit = h.sha256 r.reveal) ∧
    (∀ oracle epoch,
      (s.commits.filter (fun r => r.oracle == oracle && r.epoch == epoch)).length ≤ 1) ∧
    (∀ oracle epoch,
      (s.reveals.filter (fun r => r.oracle == oracle && r.epoch == epoch)).length ≤ 1) := by
  have hi := reachable_oracle_inv h s hr
  exact ⟨hi.reveal_committed,
    fun o e => filter_pair_length_le_one (fun r : commit_row => r.oracle) (fun r => r.epoch)
      s.commits hi.commit_unique o e,
    fun o e => filter_pair_length_le_one (fun r : reveal_row => r.oracle) (fun r => r.epoch)
      s.reveals hi.reveal_unique o e⟩

theorem reveal_follows_matching_commit_witness :
    (∀ r ∈ revealed_ab.reveals, ∃ cm ∈ revealed_ab.commits,
      cm.oracle = r.oracle ∧ cm.epoch = r.epoch ∧ cm.commit = example_host.sha256 r.reveal) ∧
    (∀ oracle epoch,
      (revealed_ab.commits.filter (fun r => r.oracle == oracle && r.epoch == epoch)).length
        ≤ 1) ∧
    (∀ oracle epoch,
      (revealed_ab.reveals.filter (fun r => r.oracle == oracle && r.epoch == epoch)).length
        ≤ 1) :=
  reveal_follows_matching_commit example_host revealed_ab reachable_revealed_ab

/-! ## The reveal phase -/

theorem complete_if_revealed_succeeds (h : Host) (s : State) (e : epoch_row) (epoch : Nat)
    (he : s.epochs.find? (fun r => r.epoch == epoch) = some e)
    (hrev : ∃ r ∈ s.reveals, r.epoch = epoch)
    (hfresh : ∀ d ∈ s.epochdrops, d.epoch ≠ epoch) :
    ∃ s1, complete_if_revealed h s e epoch = .ok s1 ∧ s1.reveals = s.reveals := by
  unfold complete_if_revealed
  by_cases hall : (has_revealed s.reveals e.oracles epoch).length = e.oracles.length
  · rw [if_pos hall]
    simp only []
    obtain ⟨r, hr, hre⟩ := hrev
    obtain ⟨r1, hr1⟩ := find?_isSome_of_mem (fun r : reveal_row => r.epoch == epoch) s.reveals r hr
      (by simpa using hre)
    have hf := find?_modify_same (fun r : epoch_row => r.epoch == epoch)
      (fun r => { r with completed := 1 }) s.epochs e (fun x hx => hx) he
    rw [compute_epoch_value_ok h
      { s with epochs := modify (fun r => r.epoch == epoch)
                 (fun r => { r with completed := 1 }) s.epochs } epoch _ r1 hf hr1]
    simp only []
    rw [(emplace_eq_some _ _ _ _).2 ⟨hfresh, rfl⟩]
    exact ⟨_, rfl, rfl⟩
  · rw [if_neg hall]
    exact ⟨s, rfl, rfl⟩

/-- C7 (counterexample): in `scenario` the contract is enabled, epoch 5 ends
at second 300 and is not completed, `a` has committed to the digest of
`"foo"` and has not revealed; the reveal of `"foo"` by `a` at the end time
itself is rejected. -/
theorem reveal_at_end_time_counterexample :
    (example_ctx 300000000).now = 300000000 ∧
    scenario.epochs.find? (fun r => r.epoch == 5)
      = some { epoch := 5, start := 240000000, end_ := 300000000,
               oracles := [oracle_a, oracle_b], completed := 0 } ∧
    scenario.reveals = [] ∧
    scenario.commits.find? (fun r => r.oracle == oracle_a && r.epoch == 5)
      = some { id := 0, epoch := 5, oracle := oracle_a, commit := example_host.sha256 "foo" } ∧
    reveal example_host (example_ctx 300000000) scenario oracle_a 5 "foo"
      = .error "Epoch has not concluded" :=
  ⟨rfl, rfl, rfl, rfl, rfl⟩

/-- C7 (amended): the reveal phase is clock > epoch end. In a reachable
storage with the contract enabled, a reveal for an epoch that is not
completed, by an oracle without a reveal row and with a commit row whose
digest is `sha256` of the payload, is accepted and its row stored when the
clock is strictly past the end of the epoch, and is rejected with "Epoch has
not concluded" when the clock is at or before the end. -/
theorem reveal_accepted_iff_clock_past_end (h : Host) (c : Ctx) (s : State) (oracle : name)
    (epoch : Nat) (payload : String) (st : state_row) (e : epoch_row) (cm : commit_row)
    (hr : Reachable h s) (hst : s.state = some st) (hen : st.enabled = true)
    (he : s.epochs.find? (fun r => r.epoch == epoch) = some e) (hc : e.completed = 0)
    (hnr : ∀ r ∈ s.reveals, ¬ (r.oracle = oracle ∧ r.epoch = epoch))
    (hcm : s.commits.find? (fun r => r.oracle == oracle && r.epoch == epoch) = some cm)
    (hsha : h.sha256 payload = cm.commit) :
    (e.end_ < c.now →
      ∃ s1, reveal h c s oracle epoch payload = .ok s1 ∧
        { id := available_primary_key (fun r => r.id) s.reveals,
          epoch := epoch, oracle := oracle, reveal := payload } ∈ s1.reveals) ∧
    (c.now ≤ e.end_ → reveal h c s oracle epoch payload = .error "Epoch has not concluded") := by
  have hi := reachable_oracle_inv h s hr
  have hnone := (find?_pair_eq_none s.reveals (fun r => r.oracle) (fun r => r.epoch)
    oracle epoch).2 hnr
  have hemp := emplace_available (fun r : reveal_row => r.id)
    { id := available_primary_key (fun r => r.id) s.reveals,
      epoch := epoch, oracle := oracle, reveal := payload } s.reveals rfl
  have hen1 : ¬ st.enabled = false := by simp [hen]
  have hc1 : ¬ e.completed ≠ 0 := by simp [hc]
  have hsha1 : ¬ h.sha256 payload ≠ cm.commit := by simp [hsha]
  constructor
  · intro ht
    have hfresh : ∀ d ∈ s.epochdrops, d.epoch ≠ epoch := by
      intro d hd hde
      obtain ⟨e0, he0, h1, h2⟩ := (hi.entropy_iff epoch).1 ⟨d, hd, hde⟩
      have h3 : e.epoch = epoch := by simpa using List.find?_some he
      have := pairwise_key_eq (fun r : epoch_row => r.epoch) s.epochs hi.epoch_unique e e0
        (List.mem_of_find?_eq_some he) he0 (h3.trans h1.symm)
      subst this
      exact h2 hc
    obtain ⟨s1, hs1, hrev⟩ := complete_if_revealed_succeeds h
      { s with reveals := s.reveals ++
          [{ id := available_primary_key (fun r => r.id) s.reveals,
             epoch := epoch, oracle := oracle, reveal := payload }] } e epoch he
      ⟨_, List.mem_append_right _ (List.mem_singleton_self _), rfl⟩ hfresh
    refine ⟨s1, ?_, ?_⟩
    · unfold reveal
      simp only [hst, if_neg hen1, he, if_neg hc1, if_neg (not_le.2 ht), hnone, hcm,
        if_neg hsha1, hemp]
      rw [← hst]
      exact hs1
    · rw [hrev]
      exact List.mem_append_right _ (List.mem_singleton_self _)
  · intro ht
    unfold reveal
    simp only [hst, if_neg hen1, he, if_neg hc1, if_pos ht]

theorem reveal_accepted_iff_clock_past_end_witness :
    (∃ s1, reveal example_host (example_ctx 1020000001) committed oracle_a 1 "foo" = .ok s1 ∧
      { id := available_primary_key (fun r => r.id) committed.reveals,
        epoch := 1, oracle := oracle_a, reveal := "foo" } ∈ s1.reveals) ∧
    reveal example_host (example_ctx 1020000000) committed oracle_a 1 "foo"
      = .error "Epoch has not concluded" :=
  ⟨(reveal_accepted_iff_clock_past_end example_host (example_ctx 1020000001) committed oracle_a 1
      "foo" _ _ _ reachable_committed rfl rfl rfl rfl (by decide) rfl rfl).1 (by decide),
   (reveal_accepted_iff_clock_past_end example_host (example_ctx 1020000000) committed oracle_a 1
      "foo" _ _ _ reachable_committed rfl rfl rfl rfl (by decide) rfl rfl).2 (by decide)⟩

theorem compute_epoch_value_order_invariant_witness :
    compute_epoch_value example_host
        { scenario with reveals := [{ id := 0, epoch := 5, oracle := oracle_a, reveal := "foo" },
                                    { id := 1, epoch := 5, oracle := oracle_b, reveal := "bar" }] } 5
      = compute_epoch_value example_host
        { scenario with reveals := [{ id := 3, epoch := 5, oracle := oracle_a, reveal := "bar" },
                                    { id := 4, epoch := 4, oracle := oracle_a, reveal := "baz" },
                                    { id := 7, epoch := 5, oracle := oracle_b, reveal := "foo" }] } 5 :=
  compute_epoch_value_order_invariant example_host scenario _ _ 5 (List.Perm.swap _ _ _)

theorem commit_succeeds_iff_witness :
    (∃ s1, commit (example_ctx 1000000000) genesis oracle_a 1 (example_host.sha256 "foo")
      = .ok s1) ∧
    (∀ s1, commit (example_ctx 1000000000) genesis oracle_a 1 (example_host.sha256 "foo")
        = .ok s1 →
      s1 = { genesis with commits := genesis.commits ++
        [{ id := 0, epoch := 1, oracle := oracle_a, commit := example_host.sha256 "foo" }] }) ∧
    ¬ (∃ s1, commit (example_ctx 1020000000) genesis oracle_a 1 (example_host.sha256 "foo")
      = .ok s1) := by
  refine ⟨(commit_succeeds_iff (example_ctx 1000000000) genesis oracle_a 1
      (example_host.sha256 "foo")).1.2
      ⟨⟨_, rfl, rfl⟩, _, rfl, by decide, by decide, by decide, by decide⟩,
    (commit_succeeds_iff (example_ctx 1000000000) genesis oracle_a 1
      (example_host.sha256 "foo")).2, ?_⟩
  intro hex
  obtain ⟨-, e, he, -, -, hlt, -⟩ := (commit_succeeds_iff (example_ctx 1020000000) genesis
    oracle_a 1 (example_host.sha256 "foo")).1.1 hex
  have he1 : some ({ epoch := 1, start := 960000000, end_ := 1020000000,
                     oracles := [oracle_a, oracle_b], completed := 0 } : epoch_row)
      = some e := he
  injection he1 with he1
  subst he1
  exact absurd hlt (by decide)

/-! ## Arithmetic modulo `2^64` -/

theorem add64_lt (a b : Nat) : add64 a b < 2 ^ 64 :=
  Nat.mod_lt _ (by norm_num)

theorem sub64_lt (a b : Nat) : sub64 a b < 2 ^ 64 :=
  Nat.mod_lt _ (by norm_num)

theorem cast_add64 (a b : Nat) : ((add64 a b : Nat) : ZMod (2 ^ 64)) = (a : ZMod (2 ^ 64)) + b := by
  unfold add64
  rw [ZMod.natCast_mod, Nat.cast_add]

theorem cast_sub64 (a b : Nat) : ((sub64 a b : Nat) : ZMod (2 ^ 64)) = (a : ZMod (2 ^ 64)) - b := by
  unfold sub64
  have hb : b % 2 ^ 64 ≤ a % 2 ^ 64 + 2 ^ 64 :=
    le_trans (le_of_lt (Nat.mod_lt _ (by norm_num))) (Nat.le_add_left _ _)
  rw [ZMod.natCast_mod, Nat.cast_sub hb, Nat.cast_add, ZMod.natCast_mod, ZMod.natCast_mod,
    ZMod.natCast_self, add_zero]

theorem eq_of_cast_eq (a b : Nat) (ha : a < 2 ^ 64) (hb : b < 2 ^ 64)
    (hab : (a : ZMod (2 ^ 64)) = b) : a = b := by
  rw [ZMod.natCast_eq_natCast_iff'] at hab
  rwa [Nat.mod_eq_of_lt ha, Nat.mod_eq_of_lt hb] at hab

theorem cast_mod64 (a : Nat) : ((a % 2 ^ 64 : Nat) : ZMod (2 ^ 64)) = a :=
  ZMod.natCast_mod a _

/-! ## The account table under `modify` and `emplace` -/

theorem account_ok_congr (accounts : List account_row) (T T1 : name → ZMod (2 ^ 64))
    (h : account_ok accounts T) (hT : ∀ A, T A = T1 A) : account_ok accounts T1 := by
  intro A
  have := h A
  rw [hT A] at this
  exact this

theorem account_ok_modify (accounts : List account_row) (T : name → ZMod (2 ^ 64)) (A : name)
    (a : account_row) (f : account_row → account_row) (δ : ZMod (2 ^ 64))
    (h : account_ok accounts T)
    (ha : accounts.find? (fun r => r.account == A) = some a)
    (hf : ∀ r, (f r).account = r.account)
    (hlt : (f a).drops < 2 ^ 64)
    (hval : ((f a).drops : ZMod (2 ^ 64)) = (a.drops : ZMod (2 ^ 64)) + δ) :
    account_ok (modify (fun r => r.account == A) f accounts)
      (fun B => T B + if B = A then δ else 0) := by
  intro B
  by_cases hB : B = A
  · subst hB
    rw [find?_modify_same (fun r : account_row => r.account == B) f accounts a
      (fun x hx => by simpa [hf] using hx) ha]
    have h0 := h B
    rw [ha] at h0
    simp only [if_true]
    exact ⟨hlt, by rw [hval, h0.2]⟩
  · rw [find?_modify_of_ne (fun r : account_row => r.account == A) (fun r => r.account == B) f
      accounts (fun x hx => by
        have hxA : x.account = A := by simpa using hx
        constructor
        · simpa [hxA] using Ne.symm hB
        · simpa [hf, hxA] using Ne.symm hB)]
    have h0 := h B
    simp only [if_neg hB, add_zero]
    exact h0

theorem account_ok_emplace (accounts accounts1 : List account_row) (T : name → ZMod (2 ^ 64))
    (A : name) (v : Nat) (h : account_ok accounts T)
    (ha : accounts.find? (fun r => r.account == A) = none)
    (hem : emplace (fun r => r.account) { account := A, drops := v } accounts = some accounts1)
    (hlt : v < 2 ^ 64) :
    account_ok accounts1 (fun B => T B + if B = A then (v : ZMod (2 ^ 64)) else 0) := by
  obtain ⟨hfresh, rfl⟩ := (emplace_eq_some _ _ _ _).1 hem
  intro B
  by_cases hB : B = A
  · subst hB
    have hf := find?_insert_row_self (fun r : account_row => r.account)
      { account := B, drops := v } accounts hfresh
    simp only [] at hf
    rw [hf]
    have h0 := h B
    rw [ha] at h0
    simp only [if_true]
    simp only [] at h0
    exact ⟨hlt, by rw [h0, zero_add]⟩
  · rw [find?_insert_row_of_ne (fun r : account_row => r.account) (fun r => r.account == B)
      { account := A, drops := v } accounts (by simpa using Ne.symm hB)]
    have h0 := h B
    simp only [if_neg hB, add_zero]
    exact h0

theorem pairwise_emplace {α : Type} (key : α → Nat) (r : α) (t t1 : List α)
    (ht : t.Pairwise (fun a b => key a ≠ key b)) (hem : emplace key r t = some t1) :
    t1.Pairwise (fun a b => key a ≠ key b) := by
  obtain ⟨hfresh, rfl⟩ := (emplace_eq_some _ _ _ _).1 hem
  rw [(insert_row_perm _ _ _).pairwise_iff (fun {a b} hab => Ne.symm hab)]
  exact List.pairwise_cons.2 ⟨fun d hd => Ne.symm (hfresh d hd), ht⟩

/-! ## The stat table under `modify` and `emplace` -/

theorem filter_modify_same {α : Type} (p : α → Bool) (f : α → α) (t : List α)
    (hf : ∀ x, p x = true → p (f x) = true) :
    (modify p f t).filter p = match t.filter p with
      | [] => []
      | x :: r => f x :: r := by
  induction t with
  | nil => rfl
  | cons y t ih =>
    simp only [modify]
    by_cases hy : p y = true
    · rw [if_pos hy, List.filter_cons_of_pos (hf y hy), List.filter_cons_of_pos hy]
    · rw [if_neg hy, List.filter_cons_of_neg hy, List.filter_cons_of_neg hy]
      exact ih

theorem filter_modify_of_ne {α : Type} (p q : α → Bool) (f : α → α) (t : List α)
    (hq : ∀ x, p x = true → q x = false ∧ q (f x) = false) :
    (modify p f t).filter q = t.filter q := by
  induction t with
  | nil => rfl
  | cons y t ih =>
    simp only [modify]
    by_cases hy : p y = true
    · rw [if_pos hy, List.filter_cons_of_neg (by simp [(hq y hy).2]),
        List.filter_cons_of_neg (by simp [(hq y hy).1])]
    · rw [if_neg hy]
      simp only [List.filter_cons]
      rw [ih]

theorem find?_eq_head?_filter {α : Type} (p : α → Bool) (t : List α) :
    t.find? p = (t.filter p).head? := by
  induction t with
  | nil => rfl
  | cons y t ih =>
    by_cases hy : p y = true
    · rw [List.find?_cons_of_pos _ hy, List.filter_cons_of_pos hy]; rfl
    · rw [List.find?_cons_of_neg _ hy, List.filter_cons_of_neg hy]; exact ih

theorem stats_ok_congr (stats : List stat_row) (T T1 : name → Nat → ZMod (2 ^ 64))
    (h : stats_ok stats T) (hT : ∀ A e, T A e = T1 A e) : stats_ok stats T1 := by
  intro A e
  have := h A e
  rw [hT A e] at this
  exact this

theorem stats_ok_modify (stats : List stat_row) (T : name → Nat → ZMod (2 ^ 64)) (A : name)
    (e : Nat) (x : stat_row) (f : stat_row → stat_row) (δ : ZMod (2 ^ 64))
    (h : stats_ok stats T)
    (hx : stats.find? (fun r => r.account == A && r.epoch == e) = some x)
    (hf : ∀ r, (f r).account = r.account ∧ (f r).epoch = r.epoch)
    (hlt : (f x).drops < 2 ^ 64)
    (hval : ((f x).drops : ZMod (2 ^ 64)) = (x.drops : ZMod (2 ^ 64)) + δ) :
    stats_ok (modify (fun r => r.account == A && r.epoch == e) f stats)
      (fun B e1 => T B e1 + if B = A ∧ e1 = e then δ else 0) := by
  intro B e1
  by_cases hB : B = A ∧ e1 = e
  · obtain ⟨rfl, rfl⟩ := hB
    simp only [and_self, if_true]
    unfold stat_counts
    rw [filter_modify_same (fun r : stat_row => r.account == B && r.epoch == e1) f stats
      (fun y hy => by simpa [(hf y).1, (hf y).2] using hy)]
    have h0 := h B e1
    unfold stat_counts at h0
    rw [find?_eq_head?_filter] at hx
    cases hfl : stats.filter (fun r => r.account == B && r.epoch == e1) with
    | nil => rw [hfl] at hx; cases hx
    | cons y rest =>
      rw [hfl] at hx h0
      simp only [List.head?_cons, Option.some.injEq] at hx
      subst hx
      rcases h0 with ⟨hnil, -⟩ | ⟨x0, k, hc, -, hx0⟩
      · cases hnil
      · right
        simp only [List.map_cons, List.cons.injEq] at hc
        refine ⟨(f y).drops, k, ?_, hlt, ?_⟩
        · simp only [List.map_cons, hc.2]
        · rw [hval, hc.1, hx0]
  · simp only [if_neg hB, add_zero]
    unfold stat_counts
    rw [filter_modify_of_ne (fun r : stat_row => r.account == A && r.epoch == e)
      (fun r => r.account == B && r.epoch == e1) f stats (fun y hy => by
        have hy1 : y.account = A ∧ y.epoch = e := by simpa using hy
        have hne : ¬ (A = B ∧ e = e1) := fun hc => hB ⟨hc.1.symm, hc.2.symm⟩
        constructor
        · simpa [hy1.1, hy1.2] using hne
        · simpa [(hf y).1, (hf y).2, hy1.1, hy1.2] using hne)]
    exact h B e1

theorem stats_ok_append (stats : List stat_row) (T : name → Nat → ZMod (2 ^ 64))
    (row : stat_row) (h : stats_ok stats T) (hlt : row.drops < 2 ^ 64)
    (hrow : stat_counts stats row.account row.epoch = [] ∨ row.drops = 0) :
    stats_ok (stats ++ [row])
      (fun B e1 => T B e1 + if B = row.account ∧ e1 = row.epoch then (row.drops : ZMod (2 ^ 64))
        else 0) := by
  intro B e1
  have h0 := h B e1
  unfold stat_counts at h0 hrow ⊢
  rw [List.filter_append, List.map_append]
  by_cases hB : B = row.account ∧ e1 = row.epoch
  · obtain ⟨rfl, rfl⟩ := hB
    simp only [and_self, if_true]
    have hp : (fun r : stat_row => r.account == row.account && r.epoch == row.epoch) row = true := by
      simp
    rw [List.filter_cons_of_pos (p := fun r : stat_row =>
      r.account == row.account && r.epoch == row.epoch) hp]
    simp only [List.filter_nil, List.map_cons, List.map_nil]
    rcases h0 with ⟨hnil, hT⟩ | ⟨x0, k, hc, hx0lt, hx0⟩
    · right
      refine ⟨row.drops, 0, ?_, hlt, ?_⟩
      · rw [hnil]; rfl
      · rw [hT, zero_add]
    · right
      rcases hrow with hnil | hz
      · rw [hnil] at hc; cases hc
      · refine ⟨x0, k + 1, ?_, hx0lt, ?_⟩
        · rw [hc, hz, List.replicate_succ', List.cons_append]
        · rw [hx0, hz, Nat.cast_zero, add_zero]
  · have hp : ¬ (fun r : stat_row => r.account == B && r.epoch == e1) row = true := by
      intro hc
      simp only [Bool.and_eq_true, beq_iff_eq] at hc
      exact hB ⟨hc.1.symm, hc.2.symm⟩
    rw [List.filter_cons_of_neg (p := fun r : stat_row => r.account == B && r.epoch == e1) hp]
    simp only [List.filter_nil, List.map_nil, List.append_nil, if_neg hB, add_zero]
    exact h0

theorem stat_counts_eq_nil_of_find (stats : List stat_row) (A : name) (e : Nat)
    (hf : stats.find? (fun r => r.account == A && r.epoch == e) = none) :
    stat_counts stats A e = [] := by
  unfold stat_counts
  rw [(find?_eq_none_iff_filter _ _).1 hf]
  rfl

/-! ## Counting drops -/

theorem countP_insert_row {α : Type} (key : α → Nat) (q : α → Bool) (r : α) (t : List α) :
    (insert_row key r t).countP q = t.countP q + (if q r = true then 1 else 0) := by
  rw [(insert_row_perm key r t).countP_eq, List.countP_cons]

theorem countP_modify {α : Type} (p q : α → Bool) (f : α → α) (t : List α) (d : α)
    (hd : t.find? p = some d) :
    (modify p f t).countP q + (if q d = true then 1 else 0)
      = t.countP q + (if q (f d) = true then 1 else 0) := by
  induction t with
  | nil => cases hd
  | cons y t ih =>
    simp only [modify]
    by_cases hy : p y = true
    · rw [List.find?_cons_of_pos _ hy] at hd
      injection hd with hd
      subst hd
      rw [if_pos hy, List.countP_cons, List.countP_cons]
      omega
    · rw [List.find?_cons_of_neg _ hy] at hd
      rw [if_neg hy, List.countP_cons, List.countP_cons]
      have := ih hd
      omega

theorem countP_eraseP {α : Type} (p q : α → Bool) (t : List α) (d : α)
    (hd : t.find? p = some d) :
    (t.eraseP p).countP q + (if q d = true then 1 else 0) = t.countP q := by
  induction t with
  | nil => cases hd
  | cons y t ih =>
    by_cases hy : p y = true
    · rw [List.find?_cons_of_pos _ hy] at hd
      injection hd with hd
      subst hd
      rw [List.eraseP_cons_of_pos hy, List.countP_cons]
    · rw [List.find?_cons_of_neg _ hy] at hd
      rw [List.eraseP_cons_of_neg hy, List.countP_cons, List.countP_cons]
      have := ih hd
      omega

theorem generate_drops_count (h : Host) (from_ : name) (epoch : Nat) (data : String)
    (q : drop_row → Bool)
    (hq : ∀ id, q { drops := id, owner := from_, epoch := epoch }
      = q { drops := 0, owner := from_, epoch := epoch }) :
    ∀ n i drops drops1, generate_drops h from_ epoch data i n drops = some drops1 →
      drops1.countP q = drops.countP q
        + n * (if q { drops := 0, owner := from_, epoch := epoch } = true then 1 else 0) := by
  intro n
  induction n with
  | zero =>
    intro i drops drops1 hg
    simp only [generate_drops] at hg
    injection hg with hg
    rw [hg]; simp
  | succ n ih =>
    intro i drops drops1 hg
    simp only [generate_drops] at hg
    cases hem : emplace (fun r : drop_row => r.drops)
        { drops := drop_id h i data, owner := from_, epoch := epoch } drops with
    | none => rw [hem] at hg; cases hg
    | some drops2 =>
      rw [hem] at hg
      obtain ⟨-, rfl⟩ := (emplace_eq_some _ _ _ _).1 hem
      rw [ih _ _ _ hg, countP_insert_row, hq]
      ring

theorem generate_drops_tokens_of (h : Host) (from_ : name) (epoch : Nat) (data : String)
    (n i : Nat) (drops drops1 : List drop_row)
    (hg : generate_drops h from_ epoch data i n drops = some drops1) (A : name) :
    tokens_of drops1 A = tokens_of drops A + (if A = from_ then n else 0) := by
  unfold tokens_of
  rw [generate_drops_count h from_ epoch data (fun d => d.owner == A) (fun _ => rfl) n i drops
    drops1 hg]
  by_cases hA : A = from_
  · subst hA; simp
  · simp [hA, Ne.symm hA]

theorem generate_drops_tokens_in (h : Host) (from_ : name) (epoch : Nat) (data : String)
    (n i : Nat) (drops drops1 : List drop_row)
    (hg : generate_drops h from_ epoch data i n drops = some drops1) (A : name) (e : Nat) :
    tokens_in drops1 A e = tokens_in drops A e + (if A = from_ ∧ e = epoch then n else 0) := by
  unfold tokens_in
  rw [generate_drops_count h from_ epoch data (fun d => d.owner == A && d.epoch == e)
    (fun _ => rfl) n i drops drops1 hg]
  by_cases hA : A = from_ ∧ e = epoch
  · obtain ⟨rfl, rfl⟩ := hA; simp
  · rw [if_neg hA]
    have : ¬ (from_ = A ∧ epoch = e) := fun hc => hA ⟨hc.1.symm, hc.2.symm⟩
    simp [this]

/-! ## The counting maps -/

theorem map_sum_nil (e : Nat) : map_sum [] e = 0 := rfl

theorem map_sum_cons (k v : Nat) (m : List (Nat × Nat)) (e : Nat) :
    map_sum ((k, v) :: m) e = (if k = e then v else 0) + map_sum m e := by
  unfold map_sum
  by_cases hk : k = e
  · rw [List.filter_cons_of_pos (by simpa using hk), if_pos hk]; rfl
  · rw [List.filter_cons_of_neg (by simpa using hk), if_neg hk, zero_add]

theorem cast_map_sum_incr (e0 : Nat) (m : List (Nat × Nat)) (e : Nat) :
    ((map_sum (map_incr e0 m) e : Nat) : ZMod (2 ^ 64))
      = (map_sum m e : ZMod (2 ^ 64)) + (if e0 = e then 1 else 0) := by
  induction m with
  | nil =>
    simp only [map_incr, map_sum_cons, map_sum_nil]
    split <;> simp
  | cons p m ih =>
    obtain ⟨k, v⟩ := p
    simp only [map_incr]
    by_cases h1 : e0 < k
    · rw [if_pos h1, map_sum_cons e0 1]
      split
      · simp only [Nat.cast_add, Nat.cast_one]
        ring
      · simp
    · rw [if_neg h1]
      by_cases h2 : e0 = k
      · subst h2
        rw [if_pos rfl, map_sum_cons, map_sum_cons]
        by_cases h3 : e0 = e
        · simp only [if_pos h3, Nat.cast_add, cast_add64]
          push_cast
          ring
        · simp only [if_neg h3, Nat.cast_add, Nat.cast_zero, zero_add, add_zero]
      · rw [if_neg h2, map_sum_cons, map_sum_cons k v, Nat.cast_add, Nat.cast_add, ih]
        ring

theorem map_incr_lt (e0 : Nat) (m : List (Nat × Nat)) (hm : ∀ p ∈ m, p.2 < 2 ^ 64) :
    ∀ p ∈ map_incr e0 m, p.2 < 2 ^ 64 := by
  induction m with
  | nil =>
    intro p hp
    simp only [map_incr, List.mem_singleton] at hp
    subst hp
    norm_num
  | cons q m ih =>
    obtain ⟨k, v⟩ := q
    intro p hp
    simp only [map_incr] at hp
    split at hp
    · rcases List.mem_cons.1 hp with rfl | hp1
      · norm_num
      · exact hm p hp1
    · split at hp
      · rcases List.mem_cons.1 hp with rfl | hp1
        · exact add64_lt _ _
        · exact hm p (List.mem_cons_of_mem _ hp1)
      · rcases List.mem_cons.1 hp with rfl | hp1
        · exact hm _ (List.mem_cons_self _ _)
        · exact ih (fun x hx => hm x (List.mem_cons_of_mem _ hx)) p hp1

/-! ## The loops of `transfer` and `destroy` -/

theorem transfer_drops_count (from_ to_ : name) :
    ∀ (ids : List Nat) (drops : List drop_row) (m : List (Nat × Nat)) (drops1 : List drop_row)
      (m1 : List (Nat × Nat)),
      transfer_drops from_ to_ ids drops m = .ok (drops1, m1) →
      (∀ p ∈ m, p.2 < 2 ^ 64) →
      (∀ p ∈ m1, p.2 < 2 ^ 64) ∧
      (∀ A, (tokens_of drops1 A : ZMod (2 ^ 64)) = (tokens_of drops A : ZMod (2 ^ 64))
        + (if A = to_ then (ids.length : ZMod (2 ^ 64)) else 0)
        - (if A = from_ then (ids.length : ZMod (2 ^ 64)) else 0)) ∧
      (∀ A e, (tokens_in drops1 A e : ZMod (2 ^ 64)) = (tokens_in drops A e : ZMod (2 ^ 64))
        + (if A = to_ then (map_sum m1 e : ZMod (2 ^ 64)) - map_sum m e else 0)
        - (if A = from_ then (map_sum m1 e : ZMod (2 ^ 64)) - map_sum m e else 0)) := by
  intro ids
  induction ids with
  | nil =>
    intro drops m drops1 m1 hok hm
    simp only [transfer_drops] at hok
    injection hok with hok
    injection hok with h1 h2
    subst h1 h2
    refine ⟨hm, fun A => ?_, fun A e => ?_⟩
    · simp
    · simp
  | cons id ids ih =>
    intro drops m drops1 m1 hok hm
    simp only [transfer_drops] at hok
    cases hf : drops.find? (fun r => r.drops == id) with
    | none => rw [hf] at hok; cases hok
    | some d =>
      rw [hf] at hok
      simp only [] at hok
      by_cases hown : d.owner ≠ from_
      · rw [if_pos hown] at hok; cases hok
      · rw [if_neg hown] at hok
        have hown1 : d.owner = from_ := not_not.1 hown
        obtain ⟨hlt, htot, hin⟩ := ih _ _ drops1 m1 hok (map_incr_lt d.epoch m hm)
        refine ⟨hlt, fun A => ?_, fun A e => ?_⟩
        · have hc := countP_modify (fun r : drop_row => r.drops == id)
            (fun r => r.owner == A) (fun r => { r with owner := to_ }) drops d hf
          have hc1 : (tokens_of (modify (fun r : drop_row => r.drops == id)
              (fun r => { r with owner := to_ }) drops) A : ZMod (2 ^ 64))
              = (tokens_of drops A : ZMod (2 ^ 64)) + (if A = to_ then 1 else 0)
                - (if A = from_ then 1 else 0) := by
            unfold tokens_of
            simp only [hown1, beq_iff_eq] at hc
            have hc2 := congrArg (Nat.cast : Nat → ZMod (2 ^ 64)) hc
            push_cast at hc2
            rw [eq_sub_iff_add_eq]
            convert hc2 using 2
            · by_cases hA : A = from_
              · simp [hA]
              · simp [hA, Ne.symm hA]
            · by_cases hA : A = to_
              · simp [hA]
              · simp [hA, Ne.symm hA]
          rw [htot A, hc1]
          simp only [List.length_cons, Nat.cast_add, Nat.cast_one]
          split_ifs <;> ring
        · have hc := countP_modify (fun r : drop_row => r.drops == id)
            (fun r => r.owner == A && r.epoch == e) (fun r => { r with owner := to_ }) drops d hf
          have hc1 : (tokens_in (modify (fun r : drop_row => r.drops == id)
              (fun r => { r with owner := to_ }) drops) A e : ZMod (2 ^ 64))
              = (tokens_in drops A e : ZMod (2 ^ 64))
                + (if A = to_ then (if d.epoch = e then 1 else 0) else 0)
                - (if A = from_ then (if d.epoch = e then 1 else 0) else 0) := by
            unfold tokens_in
            simp only [hown1, beq_iff_eq, Bool.and_eq_true] at hc
            have hc2 := congrArg (Nat.cast : Nat → ZMod (2 ^ 64)) hc
            push_cast at hc2
            rw [eq_sub_iff_add_eq]
            convert hc2 using 2
            · by_cases hA : A = from_
              · by_cases he : d.epoch = e
                · simp [hA, he]
                · simp [hA, he]
              · simp [hA, Ne.symm hA]
            · by_cases hA : A = to_
              · by_cases he : d.epoch = e
                · simp [hA, he]
                · simp [hA, he]
              · simp [hA, Ne.symm hA]
          rw [hin A e, hc1, cast_map_sum_incr]
          split_ifs <;> ring

theorem destroy_drops_count (owner : name) :
    ∀ (ids : List Nat) (drops : List drop_row) (m : List (Nat × Nat)) (drops1 : List drop_row)
      (m1 : List (Nat × Nat)),
      destroy_drops owner ids drops m = .ok (drops1, m1) →
      (∀ A, (tokens_of drops1 A : ZMod (2 ^ 64)) = (tokens_of drops A : ZMod (2 ^ 64))
        - (if A = owner then (ids.length : ZMod (2 ^ 64)) else 0)) ∧
      (∀ A e, (tokens_in drops1 A e : ZMod (2 ^ 64)) = (tokens_in drops A e : ZMod (2 ^ 64))
        - (if A = owner then (map_sum m1 e : ZMod (2 ^ 64)) - map_sum m e else 0)) := by
  intro ids
  induction ids with
  | nil =>
    intro drops m drops1 m1 hok
    simp only [destroy_drops] at hok
    injection hok with hok
    injection hok with h1 h2
    subst h1 h2
    refine ⟨fun A => ?_, fun A e => ?_⟩
    · simp
    · simp
  | cons id ids ih =>
    intro drops m drops1 m1 hok
    simp only [destroy_drops] at hok
    cases hf : drops.find? (fun r => r.drops == id) with
    | none => rw [hf] at hok; cases hok
    | some d =>
      rw [hf] at hok
      simp only [] at hok
      by_cases hown : d.owner ≠ owner
      · rw [if_pos hown] at hok; cases hok
      · rw [if_neg hown] at hok
        have hown1 : d.owner = owner := not_not.1 hown
        obtain ⟨htot, hin⟩ := ih _ _ drops1 m1 hok
        refine ⟨fun A => ?_, fun A e => ?_⟩
        · have hc := countP_eraseP (fun r : drop_row => r.drops == id)
            (fun r => r.owner == A) drops d hf
          have hc1 : (tokens_of (drops.eraseP (fun r : drop_row => r.drops == id)) A
              : ZMod (2 ^ 64))
              = (tokens_of drops A : ZMod (2 ^ 64)) - (if A = owner then 1 else 0) := by
            unfold tokens_of
            simp only [hown1, beq_iff_eq] at hc
            have hc2 := congrArg (Nat.cast : Nat → ZMod (2 ^ 64)) hc
            push_cast at hc2
            rw [eq_sub_iff_add_eq]
            convert hc2 using 2
            by_cases hA : A = owner
            · simp [hA]
            · simp [hA, Ne.symm hA]
          rw [htot A, hc1]
          simp only [List.length_cons, Nat.cast_add, Nat.cast_one]
          split_ifs <;> ring
        · have hc := countP_eraseP (fun r : drop_row => r.drops == id)
            (fun r => r.owner == A && r.epoch == e) drops d hf
          have hc1 : (tokens_in (drops.eraseP (fun r : drop_row => r.drops == id)) A e
              : ZMod (2 ^ 64))
              = (tokens_in drops A e : ZMod (2 ^ 64))
                - (if A = owner then (if d.epoch = e then 1 else 0) else 0) := by
            unfold tokens_in
            simp only [hown1, beq_iff_eq, Bool.and_eq_true] at hc
            have hc2 := congrArg (Nat.cast : Nat → ZMod (2 ^ 64)) hc
            push_cast at hc2
            rw [eq_sub_iff_add_eq]
            convert hc2 using 2
            by_cases hA : A = owner
            · by_cases he : d.epoch = e
              · simp [hA, he]
              · simp [hA, he]
            · simp [hA, Ne.symm hA]
          rw [hin A e, hc1, cast_map_sum_incr]
          split_ifs <;> ring

theorem decrement_stats_ok (A : name) :
    ∀ (m : List (Nat × Nat)) (stats stats1 : List stat_row) (T : name → Nat → ZMod (2 ^ 64)),
      stats_ok stats T → decrement_stats A m stats = .ok stats1 →
      stats_ok stats1 (fun B e => T B e - if B = A then (map_sum m e : ZMod (2 ^ 64)) else 0) := by
  intro m
  induction m with
  | nil =>
    intro stats stats1 T hT hok
    simp only [decrement_stats] at hok
    injection hok with hok
    subst hok
    exact stats_ok_congr _ _ _ hT (fun B e => by simp [map_sum_nil])
  | cons p m ih =>
    obtain ⟨e0, n⟩ := p
    intro stats stats1 T hT hok
    simp only [decrement_stats] at hok
    cases hf : stats.find? (fun r => r.account == A && r.epoch == e0) with
    | none => rw [hf] at hok; cases hok
    | some x =>
      rw [hf] at hok
      simp only [] at hok
      have h1 := stats_ok_modify stats T A e0 x (fun r => { r with drops := sub64 r.drops n })
        (-(n : ZMod (2 ^ 64))) hT hf (fun r => ⟨rfl, rfl⟩) (sub64_lt _ _)
        (by simp only [cast_sub64]; ring)
      refine stats_ok_congr _ _ _ (ih _ stats1 _ h1 hok) (fun B e => ?_)
      rw [map_sum_cons]
      by_cases hB : B = A
      · by_cases he : e0 = e
        · subst hB he
          simp
          ring
        · have he1 : ¬ e = e0 := fun hc => he hc.symm
          simp [hB, he, he1]
      · simp [hB]

theorem increment_stats_ok (A : name) :
    ∀ (m : List (Nat × Nat)) (stats stats1 : List stat_row) (T : name → Nat → ZMod (2 ^ 64)),
      stats_ok stats T → (∀ p ∈ m, p.2 < 2 ^ 64) → increment_stats A m stats = .ok stats1 →
      stats_ok stats1 (fun B e => T B e + if B = A then (map_sum m e : ZMod (2 ^ 64)) else 0) := by
  intro m
  induction m with
  | nil =>
    intro stats stats1 T hT _ hok
    simp only [increment_stats] at hok
    injection hok with hok
    subst hok
    exact stats_ok_congr _ _ _ hT (fun B e => by simp [map_sum_nil])
  | cons p m ih =>
    obtain ⟨e0, n⟩ := p
    intro stats stats1 T hT hm hok
    have hn : n < 2 ^ 64 := hm (e0, n) (List.mem_cons_self _ _)
    have hm1 : ∀ p ∈ m, p.2 < 2 ^ 64 := fun p hp => hm p (List.mem_cons_of_mem _ hp)
    have hfin : ∀ (T1 : name → Nat → ZMod (2 ^ 64)),
        (∀ B e, T1 B e = T B e + if B = A ∧ e = e0 then (n : ZMod (2 ^ 64)) else 0) →
        ∀ B e, (T1 B e + if B = A then (map_sum m e : ZMod (2 ^ 64)) else 0)
          = T B e + if B = A then (map_sum ((e0, n) :: m) e : ZMod (2 ^ 64)) else 0 := by
      intro T1 hT1 B e
      rw [hT1, map_sum_cons]
      by_cases hB : B = A
      · by_cases he : e0 = e
        · subst hB he
          simp
          ring
        · have he1 : ¬ e = e0 := fun hc => he hc.symm
          simp [hB, he, he1]
      · simp [hB]
    simp only [increment_stats] at hok
    cases hf : stats.find? (fun r => r.account == A && r.epoch == e0) with
    | some x =>
      rw [hf] at hok
      simp only [] at hok
      have h1 := stats_ok_modify stats T A e0 x (fun r => { r with drops := add64 r.drops n })
        (n : ZMod (2 ^ 64)) hT hf (fun r => ⟨rfl, rfl⟩) (add64_lt _ _)
        (by simp only [cast_add64])
      exact stats_ok_congr _ _ _ (ih _ stats1 _ h1 hm1 hok) (hfin _ (fun B e => rfl))
    | none =>
      rw [hf] at hok
      simp only [] at hok
      rw [emplace_available (fun r : stat_row => r.id)
        { id := available_primary_key (fun r => r.id) stats, account := A, drops := n,
          epoch := e0 } stats rfl] at hok
      simp only [] at hok
      have h1 := stats_ok_append stats T
        { id := available_primary_key (fun r => r.id) stats, account := A, drops := n,
          epoch := e0 } hT hn (Or.inl (stat_counts_eq_nil_of_find stats A e0 hf))
      exact stats_ok_congr _ _ _ (ih _ stats1 _ h1 hm1 hok) (hfin _ (fun B e => rfl))

/-! ## The balance updates -/

theorem debit_account_ok (accounts : List account_row) (T : name → ZMod (2 ^ 64)) (A : name)
    (a : account_row) (n : Nat) (h : account_ok accounts T)
    (ha : accounts.find? (fun r => r.account == A) = some a) :
    account_ok (debit_account accounts A n)
      (fun B => T B - if B = A then (n : ZMod (2 ^ 64)) else 0) := by
  have h1 := account_ok_modify accounts T A a (fun r => { r with drops := sub64 r.drops n })
    (-(n : ZMod (2 ^ 64))) h ha (fun r => rfl) (sub64_lt _ _) (by simp only [cast_sub64]; ring)
  refine account_ok_congr _ _ _ h1 (fun B => ?_)
  by_cases hB : B = A
  · simp [hB]; ring
  · simp [hB]

theorem debit_account_unique (accounts : List account_row) (A : name) (n : Nat)
    (hu : accounts.Pairwise (fun a b => a.account ≠ b.account)) :
    (debit_account accounts A n).Pairwise (fun a b => a.account ≠ b.account) :=
  pairwise_modify (fun r : account_row => r.account) _ _ _ (fun _ => rfl) hu

theorem move_balance_ok (accounts accounts1 : List account_row) (T : name → ZMod (2 ^ 64))
    (from_ to_ : name) (n : Nat) (h : account_ok accounts T)
    (hu : accounts.Pairwise (fun a b => a.account ≠ b.account))
    (hm : move_balance accounts from_ to_ n = .ok accounts1) :
    account_ok accounts1
      (fun B => T B + (if B = to_ then (n : ZMod (2 ^ 64)) else 0)
        - (if B = from_ then (n : ZMod (2 ^ 64)) else 0)) ∧
    accounts1.Pairwise (fun a b => a.account ≠ b.account) := by
  unfold move_balance at hm
  cases hf : accounts.find? (fun r => r.account == from_) with
  | none => rw [hf] at hm; cases hm
  | some a =>
    rw [hf] at hm
    simp only [] at hm
    have h1 := debit_account_ok accounts T from_ a n h hf
    have hu1 := debit_account_unique accounts from_ n hu
    cases ht : (debit_account accounts from_ n).find? (fun r => r.account == to_) with
    | some b =>
      rw [ht] at hm
      simp only [] at hm
      injection hm with hm
      subst hm
      have h2 := account_ok_modify _ _ to_ b (fun r => { r with drops := add64 r.drops n })
        (n : ZMod (2 ^ 64)) h1 ht (fun r => rfl) (add64_lt _ _) (by simp only [cast_add64])
      refine ⟨account_ok_congr _ _ _ h2 (fun B => ?_),
        pairwise_modify (fun r : account_row => r.account) _ _ _ (fun _ => rfl) hu1⟩
      ring
    | none =>
      rw [ht] at hm
      simp only [] at hm
      cases hem : emplace (fun r : account_row => r.account)
          { account := to_, drops := n % 2 ^ 64 } (debit_account accounts from_ n) with
      | none => rw [hem] at hm; cases hm
      | some acc =>
        rw [hem] at hm
        injection hm with hm
        subst hm
        have h2 := account_ok_emplace _ _ _ to_ (n % 2 ^ 64) h1 ht hem
          (Nat.mod_lt _ (by norm_num))
        refine ⟨account_ok_congr _ _ _ h2 (fun B => ?_), pairwise_emplace _ _ _ _ hu1 hem⟩
        rw [cast_mod64]
        ring

theorem credit_account_ok (accounts accounts1 : List account_row) (T : name → ZMod (2 ^ 64))
    (from_ : name) (n : Nat) (hn : n < 2 ^ 64) (h : account_ok accounts T)
    (hu : accounts.Pairwise (fun a b => a.account ≠ b.account))
    (hc : credit_account accounts from_ n = some accounts1) :
    account_ok accounts1 (fun B => T B + if B = from_ then (n : ZMod (2 ^ 64)) else 0) ∧
    accounts1.Pairwise (fun a b => a.account ≠ b.account) := by
  unfold credit_account new_drops_total at hc
  cases hf : accounts.find? (fun r => r.account == from_) with
  | some a =>
    rw [hf] at hc
    simp only [] at hc
    injection hc with hc
    subst hc
    exact ⟨account_ok_modify accounts T from_ a (fun r => { r with drops := add64 n a.drops })
      (n : ZMod (2 ^ 64)) h hf (fun r => rfl) (add64_lt _ _)
      (by simp only [cast_add64]; ring),
      pairwise_modify (fun r : account_row => r.account) _ _ _ (fun _ => rfl) hu⟩
  | none =>
    rw [hf] at hc
    simp only [] at hc
    exact ⟨account_ok_emplace _ _ _ from_ n h hf hc hn, pairwise_emplace _ _ _ _ hu hc⟩

theorem credit_stat_ok (stats stats1 : List stat_row) (T : name → Nat → ZMod (2 ^ 64))
    (from_ : name) (epoch n : Nat) (hn : n < 2 ^ 64) (h : stats_ok stats T)
    (hc : credit_stat stats from_ epoch n = some stats1) :
    stats_ok stats1
      (fun B e => T B e + if B = from_ ∧ e = epoch then (n : ZMod (2 ^ 64)) else 0) := by
  unfold credit_stat new_drops_epoch at hc
  cases hf : stats.find? (fun r => r.account == from_ && r.epoch == epoch) with
  | some x =>
    rw [hf] at hc
    simp only [] at hc
    injection hc with hc
    subst hc
    exact stats_ok_modify stats T from_ epoch x (fun r => { r with drops := add64 n x.drops })
      (n : ZMod (2 ^ 64)) h hf (fun r => ⟨rfl, rfl⟩) (add64_lt _ _)
      (by simp only [cast_add64]; ring)
  | none =>
    rw [hf] at hc
    simp only [] at hc
    rw [emplace_available (fun r : stat_row => r.id)
      { id := available_primary_key (fun r => r.id) stats, account := from_, drops := n,
        epoch := epoch } stats rfl] at hc
    injection hc with hc
    subst hc
    exact stats_ok_append stats T
      { id := available_primary_key (fun r => r.id) stats, account := from_, drops := n,
        epoch := epoch } h hn (Or.inl (stat_counts_eq_nil_of_find stats from_ epoch hf))

theorem enroll_account_ok (accounts accounts1 : List account_row) (T : name → ZMod (2 ^ 64))
    (A : name) (h : account_ok accounts T)
    (hu : accounts.Pairwise (fun a b => a.account ≠ b.account))
    (hc : enroll_account accounts A = some accounts1) :
    account_ok accounts1 T ∧ accounts1.Pairwise (fun a b => a.account ≠ b.account) := by
  unfold enroll_account at hc
  cases hf : accounts.find? (fun r => r.account == A) with
  | some a =>
    rw [hf] at hc
    injection hc with hc
    subst hc
    exact ⟨h, hu⟩
  | none =>
    rw [hf] at hc
    simp only [] at hc
    refine ⟨account_ok_congr _ _ _ (account_ok_emplace _ _ _ A 0 h hf hc (by norm_num))
      (fun B => ?_), pairwise_emplace _ _ _ _ hu hc⟩
    simp

/-! ## The invariant of the ledger tables -/

theorem ledger_inv_of_frame (s s1 : State) (hi : ledger_inv s)
    (hs : s1.state = none → s.state = none) (hd : s1.drops = s.drops)
    (ha : s1.accounts = s.accounts) (hst : s1.stats = s.stats) : ledger_inv s1 := by
  constructor
  · intro h0
    rw [hd, ha, hst]
    exact hi.fresh (hs h0)
  · rw [ha]; exact hi.account_unique
  · rw [ha, hd]; exact hi.accounts
  · rw [hst, hd]; exact hi.stats

theorem complete_if_revealed_ledger (h : Host) (s s1 : State) (e : epoch_row) (epoch : Nat)
    (hok : complete_if_revealed h s e epoch = .ok s1) :
    s1.state = s.state ∧ s1.drops = s.drops ∧ s1.accounts = s.accounts ∧ s1.stats = s.stats := by
  rcases complete_if_revealed_ok h s s1 e epoch hok with ⟨-, rfl⟩ | ⟨-, v, -, -, rfl⟩
  · exact ⟨rfl, rfl, rfl, rfl⟩
  · exact ⟨rfl, rfl, rfl, rfl⟩

theorem ledger_inv_empty : ledger_inv State.empty := by
  constructor
  · intro _; exact ⟨rfl, rfl, rfl⟩
  · exact List.Pairwise.nil
  · intro A; simp [State.empty, tokens_of]
  · intro A e; left; simp [State.empty, tokens_in, stat_counts]

theorem ledger_inv_init (h : Host) (c : Ctx) (s s1 : State) (hi : ledger_inv s)
    (hok : init h c s = .ok s1) : ledger_inv s1 := by
  obtain ⟨accounts1, epochs1, drops1, stats1, hst, hac, -, hdr, hsr, rfl⟩ := init_ok h c s s1 hok
  obtain ⟨hd0, ha0, hs0⟩ := hi.fresh hst
  rw [ha0] at hac
  rw [hd0] at hdr
  rw [hs0] at hsr
  obtain ⟨-, rfl⟩ := (emplace_eq_some _ _ _ _).1 hac
  obtain ⟨-, rfl⟩ := (emplace_eq_some _ _ _ _).1 hdr
  obtain ⟨-, rfl⟩ := (emplace_eq_some _ _ _ _).1 hsr
  constructor
  · intro h0; cases h0
  · simp [insert_row]
  · intro A
    simp only [insert_row, tokens_of]
    by_cases hA : eosio = A
    · subst hA; simp
    · simp [hA]
  · intro A e
    simp only [insert_row, tokens_in, stat_counts]
    by_cases hA : eosio = A ∧ 1 = e
    · obtain ⟨rfl, rfl⟩ := hA
      right
      exact ⟨1, 0, by simp, by norm_num, by simp⟩
    · left
      have h1 : ¬ (eosio = A ∧ 1 = e) := hA
      rw [not_and] at h1
      by_cases hA1 : eosio = A
      · have := h1 hA1
        simp [hA1, this]
      · simp [hA1]

theorem ledger_inv_generate (h : Host) (c : Ctx) (s : State) (from_ to_ : name)
    (quantity : asset) (memo : String) (r : State × List effect × generate_return_value)
    (hi : ledger_inv s) (hok : generate h c s from_ to_ quantity memo = .ok r) :
    ledger_inv r.1 := by
  rcases generate_ok h c s from_ to_ quantity memo r hok with h1 |
    ⟨epoch, amount, data, drops1, accounts1, stats1, hp, hgd, hca, hcs, h1⟩
  · rw [h1]; exact hi
  · obtain ⟨st, hst, -, -, -, hle, -, -⟩ := generate_parse_ok h s quantity memo epoch amount data hp
    have hn : amount < 2 ^ 64 := lt_of_le_of_lt hle (by norm_num)
    obtain ⟨hacc, hu⟩ := credit_account_ok s.accounts accounts1 _ from_ amount hn hi.accounts
      hi.account_unique hca
    have hstat := credit_stat_ok s.stats stats1 _ from_ epoch amount hn hi.stats hcs
    rw [h1]
    constructor
    · intro h0; rw [hst] at h0; cases h0
    · exact hu
    · refine account_ok_congr _ _ _ hacc (fun A => ?_)
      simp only []
      rw [generate_drops_tokens_of h from_ epoch data amount 0 s.drops drops1 hgd A]
      split_ifs <;> simp
    · refine stats_ok_congr _ _ _ hstat (fun A e => ?_)
      simp only []
      rw [generate_drops_tokens_in h from_ epoch data amount 0 s.drops drops1 hgd A e]
      split_ifs <;> simp

theorem ledger_inv_transfer (c : Ctx) (s : State) (from_ to_ : name) (ids : List Nat)
    (r : State × List effect) (hi : ledger_inv s) (hok : transfer c s from_ to_ ids = .ok r) :
    ledger_inv r.1 := by
  obtain ⟨st, drops1, m, accounts1, stats1, stats2, hst, -, htd, hmb, hds, his, h1⟩ :=
    transfer_ok c s from_ to_ ids r hok
  obtain ⟨hlt, htot, hin⟩ := transfer_drops_count from_ to_ ids s.drops [] drops1 m htd
    (fun p hp => by cases hp)
  obtain ⟨hacc, hu⟩ := move_balance_ok s.accounts accounts1 _ from_ to_ ids.length hi.accounts
    hi.account_unique hmb
  have hs1 := decrement_stats_ok from_ m s.stats stats1 _ hi.stats hds
  have hs2 := increment_stats_ok to_ m stats1 stats2 _ hs1 hlt his
  rw [h1]
  constructor
  · intro h0; rw [hst] at h0; cases h0
  · exact hu
  · exact account_ok_congr _ _ _ hacc (fun A => (htot A).symm)
  · refine stats_ok_congr _ _ _ hs2 (fun A e => ?_)
    simp only []
    rw [hin A e, map_sum_nil]
    split_ifs <;> simp

theorem ledger_inv_destroy (h : Host) (c : Ctx) (s : State) (owner : name) (ids : List Nat)
    (r : State × List effect × destroy_return_value) (hi : ledger_inv s)
    (hok : destroy h c s owner ids = .ok r) : ledger_inv r.1 := by
  obtain ⟨st, drops1, m, stats1, a, hst, -, hdd, hds, hfa, h1⟩ := destroy_ok h c s owner ids r hok
  obtain ⟨htot, hin⟩ := destroy_drops_count owner ids s.drops [] drops1 m hdd
  have hacc := debit_account_ok s.accounts _ owner a ids.length hi.accounts hfa
  have hs1 := decrement_stats_ok owner m s.stats stats1 _ hi.stats hds
  rw [h1]
  constructor
  · intro h0; rw [hst] at h0; cases h0
  · exact debit_account_unique s.accounts owner ids.length hi.account_unique
  · exact account_ok_congr _ _ _ hacc (fun A => (htot A).symm)
  · refine stats_ok_congr _ _ _ hs1 (fun A e => ?_)
    simp only []
    rw [hin A e, map_sum_nil]
    split_ifs <;> simp

theorem ledger_inv_enroll (s s1 : State) (account : name) (epoch : Nat) (hi : ledger_inv s)
    (hok : enroll s account epoch = .ok s1) : ledger_inv s1 := by
  obtain ⟨accounts1, x, hea, hf, rfl⟩ := enroll_ok s s1 account epoch hok
  obtain ⟨hacc, hu⟩ := enroll_account_ok s.accounts accounts1 _ account hi.accounts
    hi.account_unique hea
  have hs1 := stats_ok_append s.stats _
    { id := available_primary_key (fun r => r.id) s.stats, account := account, drops := 0,
      epoch := epoch } hi.stats (by norm_num) (Or.inr rfl)
  constructor
  · intro h0
    have h2 := (hi.fresh h0).2.2
    rw [h2] at hf
    cases hf
  · exact hu
  · exact hacc
  · exact stats_ok_congr _ _ _ hs1 (fun A e => by simp)

/-- Every successful call keeps the invariant of the ledger tables. -/
theorem ledger_inv_step (h : Host) (c : Ctx) (a : call) (s s1 : State) (hi : ledger_inv s)
    (hok : exec h c s a = .ok s1) : ledger_inv s1 := by
  cases a with
  | init => exact ledger_inv_init h c s s1 hi hok
  | enable enabled =>
    simp only [exec, enable] at hok
    split at hok
    · cases hok
    · injection hok with hok
      subst hok
      exact ledger_inv_of_frame s _ hi (fun h0 => by cases h0) rfl rfl rfl
  | addoracle oracle =>
    simp only [exec, addoracle] at hok
    split at hok
    · cases hok
    · split at hok
      · cases hok
      · injection hok with hok
        subst hok
        exact ledger_inv_of_frame s _ hi (fun h0 => h0) rfl rfl rfl
  | removeoracle oracle =>
    simp only [exec, removeoracle] at hok
    split at hok
    · cases hok
    · injection hok with hok
      subst hok
      exact ledger_inv_of_frame s _ hi (fun h0 => h0) rfl rfl rfl
  | subscribe subscriber =>
    simp only [exec, subscribe] at hok
    split at hok
    · cases hok
    · split at hok
      · cases hok
      · injection hok with hok
        subst hok
        exact ledger_inv_of_frame s _ hi (fun h0 => h0) rfl rfl rfl
  | unsubscribe subscriber =>
    simp only [exec, unsubscribe] at hok
    split at hok
    · cases hok
    · injection hok with hok
      subst hok
      exact ledger_inv_of_frame s _ hi (fun h0 => h0) rfl rfl rfl
  | advance =>
    obtain ⟨r, hr, rfl⟩ := map_eq_ok _ _ _ hok
    refine advance_keeps h c ledger_inv ?_ s r hi hr
    intro t t1 out row ht hstep
    obtain ⟨st, cur, -, -, -, -, -, -, -, -, rfl⟩ := advance_epoch_ok h c t t1 out row hstep
    exact ledger_inv_of_frame t _ ht (fun h0 => by cases h0) rfl rfl rfl
  | generate from_ to_ quantity memo =>
    obtain ⟨r, hr, rfl⟩ := map_eq_ok _ _ _ hok
    exact ledger_inv_generate h c s from_ to_ quantity memo r hi hr
  | transfer from_ to_ ids =>
    obtain ⟨r, hr, rfl⟩ := map_eq_ok _ _ _ hok
    exact ledger_inv_transfer c s from_ to_ ids r hi hr
  | destroy owner ids =>
    obtain ⟨r, hr, rfl⟩ := map_eq_ok _ _ _ hok
    exact ledger_inv_destroy h c s owner ids r hi hr
  | destroyall =>
    simp only [exec, destroyall, Except.map] at hok
    injection hok with hok
    subst hok
    constructor
    · intro _; exact ⟨rfl, rfl, rfl⟩
    · exact List.Pairwise.nil
    · intro A; simp [tokens_of]
    · intro A e; left; simp [tokens_in, stat_counts]
  | enroll account epoch => exact ledger_inv_enroll s s1 account epoch hi hok
  | commit oracle epoch cm =>
    obtain ⟨st, e, -, -, -, -, -, -, -, rfl⟩ := commit_ok c s s1 oracle epoch cm hok
    exact ledger_inv_of_frame s _ hi (fun h0 => h0) rfl rfl rfl
  | reveal oracle epoch rv =>
    obtain ⟨st, e, cm, -, -, -, -, -, -, -, -, hcomp⟩ := reveal_ok h c s s1 oracle epoch rv hok
    obtain ⟨h1, h2, h3, h4⟩ := complete_if_revealed_ledger h
      { s with reveals := s.reveals ++
          [{ id := available_primary_key (fun r => r.id) s.reveals,
             epoch := epoch, oracle := oracle, reveal := rv }] } s1 e epoch hcomp
    exact ledger_inv_of_frame s s1 hi (fun h0 => by rw [← h1]; exact h0) h2 h3 h4
  | finishreveal epoch =>
    obtain ⟨e, -, -, hcomp⟩ := finishreveal_ok h s s1 epoch hok
    obtain ⟨h1, h2, h3, h4⟩ := complete_if_revealed_ledger h s s1 e epoch hcomp
    exact ledger_inv_of_frame s s1 hi (fun h0 => by rw [← h1]; exact h0) h2 h3 h4

/-- The invariant of the ledger tables holds in every reachable storage. -/
theorem reachable_ledger_inv (h : Host) (s : State) (hr : Reachable h s) : ledger_inv s := by
  induction hr with
  | empty => exact ledger_inv_empty
  | step c a _ hok ih => exact ledger_inv_step h c a _ _ ih hok

/-! ## Totals and per-epoch counts -/

theorem sum_fiber {α : Type} (S : Finset Nat) (k w : α → Nat) :
    ∀ l : List α, (∀ x ∈ l, k x ∈ S) →
      (l.map w).sum = ∑ e in S, ((l.filter (fun x => k x == e)).map w).sum := by
  intro l
  induction l with
  | nil => intro _; simp
  | cons x l ih =>
    intro hS
    have hx := hS x (List.mem_cons_self _ _)
    have ih1 := ih (fun y hy => hS y (List.mem_cons_of_mem _ hy))
    have hstep : ∀ e, (((x :: l).filter (fun y => k y == e)).map w).sum
        = (if k x = e then w x else 0) + ((l.filter (fun y => k y == e)).map w).sum := by
      intro e
      by_cases he : k x = e
      · rw [List.filter_cons_of_pos (by simpa using he), if_pos he]; rfl
      · rw [List.filter_cons_of_neg (by simpa using he), if_neg he, zero_add]
    simp only [hstep, Finset.sum_add_distrib, Finset.sum_ite_eq, hx, if_true, List.map_cons,
      List.sum_cons, ih1]

theorem countP_fiber {α : Type} (S : Finset Nat) (k : α → Nat) (q : α → Bool) :
    ∀ l : List α, (∀ x ∈ l, k x ∈ S) →
      l.countP q = ∑ e in S, l.countP (fun x => q x && k x == e) := by
  intro l
  induction l with
  | nil => intro _; simp
  | cons x l ih =>
    intro hS
    have hx := hS x (List.mem_cons_self _ _)
    have ih1 := ih (fun y hy => hS y (List.mem_cons_of_mem _ hy))
    have hstep : ∀ e, (x :: l).countP (fun y => q y && k y == e)
        = l.countP (fun y => q y && k y == e)
          + (if k x = e then (if q x = true then 1 else 0) else 0) := by
      intro e
      rw [List.countP_cons]
      by_cases he : k x = e
      · by_cases hq : q x = true
        · simp [he, hq]
        · simp [he, hq]
      · simp [he]
    simp only [hstep, Finset.sum_add_distrib, Finset.sum_ite_eq, hx, if_true, List.countP_cons,
      ih1]

theorem stat_shape_sum (counts : List Nat) (t : Nat) (ht : t < 2 ^ 64)
    (h : stat_shape counts (t : ZMod (2 ^ 64))) : counts.sum = t := by
  rcases h with ⟨rfl, h0⟩ | ⟨x, k, rfl, hx, hxt⟩
  · have : (t : ZMod (2 ^ 64)) = ((0 : Nat) : ZMod (2 ^ 64)) := by rw [h0, Nat.cast_zero]
    have := eq_of_cast_eq t 0 ht (by norm_num) this
    rw [this]; rfl
  · rw [List.sum_cons, List.sum_replicate, smul_zero, add_zero]
    exact eq_of_cast_eq x t hx ht hxt

theorem stat_shape_sum_cast (counts : List Nat) (t : ZMod (2 ^ 64)) (h : stat_shape counts t) :
    ((counts.sum : Nat) : ZMod (2 ^ 64)) = t := by
  rcases h with ⟨rfl, h0⟩ | ⟨x, k, rfl, -, hxt⟩
  · rw [h0]; simp
  · rw [List.sum_cons, List.sum_replicate, smul_zero, add_zero]
    exact hxt

/-- In a storage that satisfies the ledger invariant the total of every
account row is, as a `uint64_t`, the number of drops the account owns, and
so is the sum of the counts of its stat rows; when the storage holds fewer
than `2^64` drops that sum is the number itself. -/
theorem ledger_inv_totals (s : State) (hi : ledger_inv s) (a : account_row)
    (ha : a ∈ s.accounts) :
    (a.drops < 2 ^ 64 ∧ (a.drops : ZMod (2 ^ 64)) = tokens_of s.drops a.account) ∧
    ((((s.stats.filter (fun r => r.account == a.account)).map (fun r => r.drops)).sum : Nat)
      : ZMod (2 ^ 64)) = tokens_of s.drops a.account ∧
    (s.drops.length < 2 ^ 64 →
      ((s.stats.filter (fun r => r.account == a.account)).map (fun r => r.drops)).sum
        = tokens_of s.drops a.account) := by
  have hS1 : ∀ x ∈ s.stats.filter (fun r => r.account == a.account),
      x.epoch ∈ (s.stats.map (fun r => r.epoch) ++ s.drops.map (fun r => r.epoch)).toFinset := by
    intro x hx
    rw [List.mem_toFinset]
    exact List.mem_append_left _ (List.mem_map_of_mem _ (List.mem_of_mem_filter hx))
  have hS2 : ∀ x ∈ s.drops,
      x.epoch ∈ (s.stats.map (fun r => r.epoch) ++ s.drops.map (fun r => r.epoch)).toFinset := by
    intro x hx
    rw [List.mem_toFinset]
    exact List.mem_append_right _ (List.mem_map_of_mem _ hx)
  have hp : ∀ e, (fun r : stat_row => r.epoch == e && r.account == a.account)
      = (fun r : stat_row => r.account == a.account && r.epoch == e) := by
    intro e; funext r; exact Bool.and_comm _ _
  refine ⟨?_, ?_, ?_⟩
  · obtain ⟨a1, ha1⟩ := find?_isSome_of_mem (fun r : account_row => r.account == a.account)
      s.accounts a ha (by simp)
    have hk : a1.account = a.account := by simpa using List.find?_some ha1
    have hEq := pairwise_key_eq (fun r : account_row => r.account) s.accounts hi.account_unique
      a1 a (List.mem_of_find?_eq_some ha1) ha hk
    subst hEq
    have h0 := hi.accounts a1.account
    rw [ha1] at h0
    exact h0
  · unfold tokens_of
    rw [sum_fiber _ (fun r : stat_row => r.epoch) (fun r => r.drops) _ hS1,
      countP_fiber _ (fun d : drop_row => d.epoch) (fun d => d.owner == a.account) _ hS2,
      Nat.cast_sum, Nat.cast_sum]
    refine Finset.sum_congr rfl (fun e _ => ?_)
    have h1 := stat_shape_sum_cast _ _ (hi.stats a.account e)
    unfold stat_counts tokens_in at h1
    rw [List.filter_filter, hp e]
    exact h1
  · intro hcap
    have hle : ∀ q : drop_row → Bool, s.drops.countP q < 2 ^ 64 :=
      fun q => lt_of_le_of_lt (List.countP_le_length q) hcap
    unfold tokens_of
    rw [sum_fiber _ (fun r : stat_row => r.epoch) (fun r => r.drops) _ hS1,
      countP_fiber _ (fun d : drop_row => d.epoch) (fun d => d.owner == a.account) _ hS2]
    refine Finset.sum_congr rfl (fun e _ => ?_)
    have h1 := stat_shape_sum _ _ (hle _) (hi.stats a.account e)
    unfold stat_counts at h1
    rw [List.filter_filter, hp e, h1]

set_option maxRecDepth 100000 in
theorem reachable_minted : Reachable example_host minted :=
  Reachable.step (example_ctx 1000000000)
    (.generate alice example_host.self ⟨100000, example_host.EOS⟩
      "3,0123456789abcdef0123456789abcdefg") reachable_genesis rfl

set_option maxRecDepth 100000 in
theorem reachable_traded : Reachable example_host traded :=
  Reachable.step (example_ctx 1000000000)
    (.transfer alice bob [drop_id example_host 0 "0123456789abcdef0123456789abcdefg"])
    reachable_minted rfl

/-- C1: in every storage reachable through successful calls (issue,
transfer, destroy and every other action but the bulk erasers) the total
stored in every account row is the sum of the counts of all stat rows of
that account: always as `uint64_t` values, that is modulo `2^64`, and as
numbers as long as the drop table holds fewer than `2^64` rows. -/
theorem account_total_eq_sum_of_stats (h : Host) (s : State) (hr : Reachable h s) :
    ∀ a ∈ s.accounts,
      a.drops = ((s.stats.filter (fun r => r.account == a.account)).map (fun r => r.drops)).sum
          % 2 ^ 64 ∧
      (s.drops.length < 2 ^ 64 →
        a.drops
          = ((s.stats.filter (fun r => r.account == a.account)).map (fun r => r.drops)).sum) := by
  intro a ha
  obtain ⟨⟨hlt, h1⟩, h2, h3⟩ := ledger_inv_totals s (reachable_ledger_inv h s hr) a ha
  constructor
  · have h4 := h1.trans h2.symm
    rw [ZMod.natCast_eq_natCast_iff', Nat.mod_eq_of_lt hlt] at h4
    exact h4
  · intro hcap
    rw [h3 hcap]
    exact eq_of_cast_eq _ _ hlt (lt_of_le_of_lt (List.countP_le_length _) hcap) h1

set_option maxRecDepth 100000 in
theorem account_total_eq_sum_of_stats_witness :
    traded.accounts = [{ account := alice, drops := 2 }, { account := bob, drops := 1 },
                       { account := eosio, drops := 1 }] ∧
    ∀ a ∈ traded.accounts,
      a.drops
        = ((traded.stats.filter (fun r => r.account == a.account)).map (fun r => r.drops)).sum :=
  ⟨rfl, fun a ha =>
    (account_total_eq_sum_of_stats example_host traded reachable_traded a ha).2 (by decide)⟩

/-! ## Enrolment -/

/-- The check of `enroll` as it is written: the action goes through exactly
when the stat table already holds a row of the account for the epoch. -/
theorem enroll_succeeds_iff (s : State) (account : name) (epoch : Nat) :
    (∃ s1, enroll s account epoch = .ok s1) ↔
      ∃ x, s.stats.find? (fun r => r.account == account && r.epoch == epoch) = some x := by
  constructor
  · rintro ⟨s1, hok⟩
    obtain ⟨_, x, -, hx, -⟩ := enroll_ok s s1 account epoch hok
    exact ⟨x, hx⟩
  · rintro ⟨x, hx⟩
    have hemp := emplace_available (fun r : stat_row => r.id)
      { id := available_primary_key (fun r => r.id) s.stats,
        account := account, drops := 0, epoch := epoch } s.stats rfl
    have hacc : ∃ accounts1, enroll_account s.accounts account = some accounts1 := by
      unfold enroll_account
      cases hf : s.accounts.find? (fun r => r.account == account) with
      | some a => exact ⟨_, rfl⟩
      | none =>
        simp only []
        cases he : emplace (fun r : account_row => r.account)
            { account := account, drops := 0 } s.accounts with
        | some t => exact ⟨t, rfl⟩
        | none =>
          obtain ⟨y, hy, hk⟩ := (emplace_eq_none _ _ _).1 he
          rw [List.find?_eq_none] at hf
          exact absurd (by simpa using hk) (hf y hy)
    obtain ⟨accounts1, hacc⟩ := hacc
    unfold enroll
    rw [hacc]
    simp only []
    rw [hx]
    simp only []
    rw [hemp]
    exact ⟨_, rfl⟩

set_option maxRecDepth 100000 in
/-- C11 (the code at the failing inputs): in `genesis` the account `alice` has
no stat row for epoch 1, and `enroll` refuses the account with the message
that it is already registered; in `minted` the account has the stat row
number 2 for epoch 1, and `enroll` goes through and adds the row number 3 for
the same account and epoch. -/
theorem enroll_check_inverted :
    genesis.stats.find? (fun r => r.account == alice && r.epoch == 1) = none ∧
    enroll genesis alice 1 = .error "This account is already registered for this epoch." ∧
    minted.stats.find? (fun r => r.account == alice && r.epoch == 1)
      = some { id := 2, account := alice, epoch := 1, drops := 3 } ∧
    (enroll minted alice 1).map (fun s => s.stats)
      = .ok [{ id := 1, account := eosio, epoch := 1, drops := 1 },
             { id := 2, account := alice, epoch := 1, drops := 3 },
             { id := 3, account := alice, epoch := 1, drops := 0 }] :=
  ⟨rfl, rfl, rfl, rfl⟩

/-! ## The seed of an issuance -/

/-- C16 (the code at the failing input): a payment of 100000 units with the
memo `3,0123456789abcdef0123456789abcdef`, whose seed has 32 characters, is
refused with the message that the seed must have at least 32 characters. -/
theorem generate_rejects_seed_of_32_characters :
    "0123456789abcdef0123456789abcdef".length = 32 ∧
    generate example_host (example_ctx 1000000000) genesis alice example_host.self
        ⟨100000, example_host.EOS⟩ "3,0123456789abcdef0123456789abcdef"
      = .error "Drop data must be at least 32 characters in length." :=
  ⟨rfl, rfl⟩

/-! ## One step of the epoch pointer -/

/-- C13: a successful step of the epoch pointer from the active epoch `n` sets
the pointer to `n + 1` (as a `uint64_t`, so to `n + 1` itself unless `n` is
the last 64-bit number), adds exactly one epoch row and leaves the others as
they were; the new row has the number of the new pointer, starts where epoch
`n` ends, lasts one phase duration, lists the oracles registered at the time
of the call and is not completed; it is the record returned to the caller and
the row stored under its number. -/
theorem advance_epoch_adds_next_epoch (h : Host) (c : Ctx) (s s1 : State) (out : List effect)
    (row : epoch_row) (st : state_row) (cur : epoch_row)
    (hst : s.state = some st)
    (hcur : s.epochs.find? (fun r => r.epoch == st.epoch) = some cur)
    (hok : advance_epoch h c s = .ok (s1, out, row)) :
    s1.state = some { st with epoch := (st.epoch + 1) % 2 ^ 64 } ∧
    (st.epoch + 1 < 2 ^ 64 → s1.state = some { st with epoch := st.epoch + 1 }) ∧
    s1.epochs.Perm (row :: s.epochs) ∧
    (∀ x ∈ s.epochs, x.epoch ≠ row.epoch) ∧
    row = { epoch := (st.epoch + 1) % 2 ^ 64, start := cur.end_,
            end_ := cur.end_ + seconds h.epochphasetimer,
            oracles := s.oracles, completed := 0 } ∧
    s1.epochs.find? (fun r => r.epoch == row.epoch) = some row := by
  obtain ⟨st0, cur0, hst0, -, hcur0, -, -, hrow, hfresh, -, rfl⟩ :=
    advance_epoch_ok h c s s1 out row hok
  rw [hst] at hst0
  injection hst0 with hst0
  subst hst0
  rw [hcur] at hcur0
  injection hcur0 with hcur0
  subst hcur0
  refine ⟨rfl, ?_, insert_row_perm _ _ _, hfresh, hrow, find?_insert_row_self _ _ _ hfresh⟩
  intro hlt
  show some { st with epoch := add64 st.epoch 1 } = _
  rw [add64, Nat.mod_eq_of_lt hlt]

theorem advance_epoch_adds_next_epoch_witness :
    advance_epoch example_host (example_ctx 1020000000) genesis
      = .ok ({ genesis with
                state := some { epoch := 2, enabled := true }
                epochs := genesis.epochs ++
                  [{ epoch := 2, start := 1020000000, end_ := 1080000000,
                     oracles := [oracle_a, oracle_b], completed := 0 }] },
             [], { epoch := 2, start := 1020000000, end_ := 1080000000,
                   oracles := [oracle_a, oracle_b], completed := 0 }) ∧
    List.Perm
      (genesis.epochs ++
        [({ epoch := 2, start := 1020000000, end_ := 1080000000,
            oracles := [oracle_a, oracle_b], completed := 0 } : epoch_row)])
      ({ epoch := 2, start := 1020000000, end_ := 1080000000,
         oracles := [oracle_a, oracle_b], completed := 0 } :: genesis.epochs) :=
  ⟨rfl,
   (advance_epoch_adds_next_epoch example_host (example_ctx 1020000000) genesis
      { genesis with
        state := some { epoch := 2, enabled := true }
        epochs := genesis.epochs ++
          [{ epoch := 2, start := 1020000000, end_ := 1080000000,
             oracles := [oracle_a, oracle_b], completed := 0 }] }
      [] ({ epoch := 2, start := 1020000000, end_ := 1080000000,
            oracles := [oracle_a, oracle_b], completed := 0 } : epoch_row)
      ({ epoch := 1, enabled := true } : state_row)
      ({ epoch := 1, start := 960000000, end_ := 1020000000,
         oracles := [oracle_a, oracle_b], completed := 0 } : epoch_row) rfl rfl rfl).2.2.1⟩

/-! ## The invariant of the epoch pointer -/

theorem mem_keys_insert_row {α : Type} (key : α → Nat) (r : α) (t : List α) (n : Nat) :
    n ∈ (insert_row key r t).map key ↔ n = key r ∨ n ∈ t.map key := by
  rw [((insert_row_perm key r t).map key).mem_iff, List.map_cons, List.mem_cons]

theorem pointer_inv_of_frame (s s1 : State) (hi : pointer_inv s)
    (hst : s1.state.map (fun st => st.epoch) = s.state.map (fun st => st.epoch))
    (hk : s1.epochs.map (fun r => r.epoch) = s.epochs.map (fun r => r.epoch)) :
    pointer_inv s1 := by
  have hsome : ∀ st1, s1.state = some st1 → ∃ st, s.state = some st ∧ st.epoch = st1.epoch := by
    intro st1 h1
    rw [h1] at hst
    cases h0 : s.state with
    | none => rw [h0] at hst; cases hst
    | some st =>
      rw [h0] at hst
      simp only [Option.map_some', Option.some.injEq] at hst
      exact ⟨st, rfl, hst.symm⟩
  constructor
  · intro h1
    rw [h1] at hst
    cases h0 : s.state with
    | some st => rw [h0] at hst; cases hst
    | none =>
      rw [hi.fresh h0] at hk
      simpa using hk
  · intro st1 h1
    obtain ⟨st, h0, he⟩ := hsome st1 h1
    rw [← he]; exact hi.bound st h0
  · intro st1 h1 hne
    obtain ⟨st, h0, he⟩ := hsome st1 h1
    rw [hk, ← he]; exact hi.range st h0 (he ▸ hne)
  · intro st1 h1 hne
    obtain ⟨st, h0, he⟩ := hsome st1 h1
    rw [hk, ← he]; exact hi.present st h0 (he ▸ hne)
  · intro st1 h1 hz
    obtain ⟨st, h0, he⟩ := hsome st1 h1
    rw [hk]; exact hi.wrapped st h0 (he ▸ hz)

theorem pointer_inv_empty : pointer_inv State.empty := by
  constructor
  · intro _; rfl
  · intro st h1; cases h1
  · intro st h1; cases h1
  · intro st h1; cases h1
  · intro st h1; cases h1

/-- While the pointer has not wrapped around, no epoch row has a number above
it, and the pointer is not the number a step would give to the next row. -/
theorem pointer_inv_le (s : State) (hi : pointer_inv s) (st : state_row)
    (hst : s.state = some st) (hfresh : ∀ x ∈ s.epochs, x.epoch ≠ add64 st.epoch 1) :
    st.epoch ≠ 0 ∧ ∀ x ∈ s.epochs, x.epoch ≤ st.epoch := by
  have hne : st.epoch ≠ 0 := by
    intro hz
    obtain ⟨h1, -⟩ := hi.wrapped st hst hz
    obtain ⟨x, hx, hx1⟩ := List.mem_map.1 h1
    exact hfresh x hx (by rw [hx1, hz]; rfl)
  exact ⟨hne, fun x hx => (hi.range st hst hne x.epoch (List.mem_map_of_mem _ hx)).2⟩

theorem pointer_inv_advance_epoch (h : Host) (c : Ctx) (s s1 : State) (out : List effect)
    (row : epoch_row) (hi : pointer_inv s) (hok : advance_epoch h c s = .ok (s1, out, row)) :
    pointer_inv s1 := by
  obtain ⟨st, cur, hst, -, -, -, -, hrow, hfresh, -, rfl⟩ := advance_epoch_ok h c s s1 out row hok
  have hre : row.epoch = add64 st.epoch 1 := by rw [hrow]
  obtain ⟨hne, -⟩ := pointer_inv_le s hi st hst (fun x hx => hre ▸ hfresh x hx)
  have hb := hi.bound st hst
  have hrange := hi.range st hst hne
  have hpresent := hi.present st hst hne
  have hmem : ∀ n, n ∈ (insert_row (fun r : epoch_row => r.epoch) row s.epochs).map
      (fun r => r.epoch) ↔ n = add64 st.epoch 1 ∨ n ∈ s.epochs.map (fun r => r.epoch) := by
    intro n
    rw [mem_keys_insert_row, hre]
  constructor
  · intro h1; cases h1
  · intro st1 h1
    injection h1 with h1
    rw [← h1]
    exact Nat.mod_lt _ (by norm_num)
  · intro st1 h1 hne1 n hn
    injection h1 with h1
    rw [← h1] at hne1 ⊢
    simp only [add64] at hne1 ⊢
    have hlt : st.epoch + 1 < 2 ^ 64 := by
      by_contra hc
      have : st.epoch + 1 = 2 ^ 64 := by omega
      rw [this] at hne1
      exact hne1 (Nat.mod_self _)
    rw [Nat.mod_eq_of_lt hlt]
    rcases (hmem n).1 hn with h2 | h2
    · rw [h2, add64, Nat.mod_eq_of_lt hlt]
      omega
    · have := hrange n h2
      omega
  · intro st1 h1 hne1 n hn1 hn2
    injection h1 with h1
    rw [← h1] at hne1 hn2
    simp only [add64] at hne1 hn2
    have hlt : st.epoch + 1 < 2 ^ 64 := by
      by_contra hc
      have : st.epoch + 1 = 2 ^ 64 := by omega
      rw [this] at hne1
      exact hne1 (Nat.mod_self _)
    rw [Nat.mod_eq_of_lt hlt] at hn2
    rw [hmem]
    by_cases hn : n = st.epoch + 1
    · left; rw [hn, add64, Nat.mod_eq_of_lt hlt]
    · right; exact hpresent n hn1 (by omega)
  · intro st1 h1 hz
    injection h1 with h1
    rw [← h1] at hz
    simp only [add64] at hz
    have hlast : st.epoch = 2 ^ 64 - 1 := by
      by_contra hc
      have hlt : st.epoch + 1 < 2 ^ 64 := by omega
      rw [Nat.mod_eq_of_lt hlt] at hz
      omega
    refine ⟨(hmem 1).2 (Or.inr (hpresent 1 (le_refl _) (by omega))),
      (hmem _).2 (Or.inr ?_)⟩
    rw [← hlast]
    exact hpresent st.epoch (by omega) (le_refl _)

theorem pointer_inv_complete (h : Host) (s s1 : State) (e : epoch_row) (epoch : Nat)
    (hi : pointer_inv s) (hok : complete_if_revealed h s e epoch = .ok s1) : pointer_inv s1 := by
  rcases complete_if_revealed_ok h s s1 e epoch hok with ⟨-, rfl⟩ | ⟨-, v, -, -, rfl⟩
  · exact hi
  · exact pointer_inv_of_frame s _ hi rfl (map_modify _ _ _ _ (fun _ => rfl))

/-- Every successful call keeps the invariant of the epoch pointer. -/
theorem pointer_inv_step (h : Host) (c : Ctx) (a : call) (s s1 : State) (hi : pointer_inv s)
    (hok : exec h c s a = .ok s1) : pointer_inv s1 := by
  cases a with
  | init =>
    obtain ⟨accounts1, epochs1, drops1, stats1, hnone, -, hep, -, -, rfl⟩ := init_ok h c s s1 hok
    obtain ⟨-, hins⟩ := (emplace_eq_some _ _ _ _).1 hep
    rw [hi.fresh hnone] at hins
    have hk : epochs1.map (fun r => r.epoch) = [1] := by rw [hins]; rfl
    constructor
    · intro h1; cases h1
    · intro st1 h1
      injection h1 with h1
      rw [← h1]
      norm_num
    · intro st1 h1 _ n hn
      injection h1 with h1
      subst h1
      simp only [hk, List.mem_singleton] at hn
      show 1 ≤ n ∧ n ≤ 1
      omega
    · intro st1 h1 _ n hn1 hn2
      injection h1 with h1
      subst h1
      simp only [hk, List.mem_singleton]
      have hn3 : n ≤ 1 := hn2
      omega
    · intro st1 h1 hz
      injection h1 with h1
      rw [← h1] at hz
      cases hz
  | enable enabled =>
    simp only [exec, enable] at hok
    cases hst : s.state with
    | none => rw [hst] at hok; cases hok
    | some st =>
      rw [hst] at hok
      injection hok with hok
      subst hok
      exact pointer_inv_of_frame s _ hi (by rw [hst]; rfl) rfl
  | addoracle oracle =>
    simp only [exec, addoracle] at hok
    split at hok
    · cases hok
    · split at hok
      · cases hok
      · injection hok with hok
        subst hok
        exact pointer_inv_of_frame s _ hi rfl rfl
  | removeoracle oracle =>
    simp only [exec, removeoracle] at hok
    split at hok
    · cases hok
    · injection hok with hok
      subst hok
      exact pointer_inv_of_frame s _ hi rfl rfl
  | subscribe subscriber =>
    simp only [exec, subscribe] at hok
    split at hok
    · cases hok
    · split at hok
      · cases hok
      · injection hok with hok
        subst hok
        exact pointer_inv_of_frame s _ hi rfl rfl
  | unsubscribe subscriber =>
    simp only [exec, unsubscribe] at hok
    split at hok
    · cases hok
    · injection hok with hok
      subst hok
      exact pointer_inv_of_frame s _ hi rfl rfl
  | advance =>
    obtain ⟨r, hr, rfl⟩ := map_eq_ok _ _ _ hok
    refine advance_keeps h c pointer_inv ?_ s r hi hr
    intro t t1 out row ht hstep
    exact pointer_inv_advance_epoch h c t t1 out row ht hstep
  | generate from_ to_ quantity memo =>
    obtain ⟨r, hr, rfl⟩ := map_eq_ok _ _ _ hok
    rcases generate_ok h c s from_ to_ quantity memo r hr with h1 | ⟨_, _, _, _, _, _, -, -, -, -, h1⟩
    · rw [h1]; exact hi
    · rw [h1]; exact pointer_inv_of_frame s _ hi rfl rfl
  | transfer from_ to_ ids =>
    obtain ⟨r, hr, rfl⟩ := map_eq_ok _ _ _ hok
    obtain ⟨_, _, _, _, _, _, -, -, -, -, -, -, h1⟩ := transfer_ok c s from_ to_ ids r hr
    rw [h1]; exact pointer_inv_of_frame s _ hi rfl rfl
  | destroy owner ids =>
    obtain ⟨r, hr, rfl⟩ := map_eq_ok _ _ _ hok
    obtain ⟨_, _, _, _, _, -, -, -, -, -, h1⟩ := destroy_ok h c s owner ids r hr
    rw [h1]; exact pointer_inv_of_frame s _ hi rfl rfl
  | destroyall =>
    simp only [exec, destroyall, Except.map] at hok
    injection hok with hok
    subst hok
    exact pointer_inv_of_frame s _ hi rfl rfl
  | enroll account epoch =>
    obtain ⟨_, _, -, -, rfl⟩ := enroll_ok s s1 account epoch hok
    exact pointer_inv_of_frame s _ hi rfl rfl
  | commit oracle epoch cm =>
    obtain ⟨st, e, -, -, -, -, -, -, -, rfl⟩ := commit_ok c s s1 oracle epoch cm hok
    exact pointer_inv_of_frame s _ hi rfl rfl
  | reveal oracle epoch rv =>
    obtain ⟨st, e, cm, -, -, -, -, -, -, -, -, hcomp⟩ := reveal_ok h c s s1 oracle epoch rv hok
    exact pointer_inv_complete h
      { s with reveals := s.reveals ++
          [{ id := available_primary_key (fun r => r.id) s.reveals,
             epoch := epoch, oracle := oracle, reveal := rv }] } s1 e epoch
      (pointer_inv_of_frame s _ hi rfl rfl) hcomp
  | finishreveal epoch =>
    obtain ⟨e, -, -, hcomp⟩ := finishreveal_ok h s s1 epoch hok
    exact pointer_inv_complete h s s1 e epoch hi hcomp

/-- The invariant of the epoch pointer holds in every reachable storage. -/
theorem reachable_pointer_inv (h : Host) (s : State) (hr : Reachable h s) : pointer_inv s := by
  induction hr with
  | empty => exact pointer_inv_empty
  | step c a _ hok ih => exact pointer_inv_step h c a _ _ ih hok

/-- In a reachable storage without an epoch row of the last 64-bit number,
the pointer is below that number, its epoch has a row, and no epoch row has
a number above it. -/
theorem reachable_pointer (h : Host) (s : State) (hr : Reachable h s) (st : state_row)
    (hst : s.state = some st) (hcap : ∀ x ∈ s.epochs, x.epoch + 1 < 2 ^ 64) :
    st.epoch + 1 < 2 ^ 64 ∧ (∃ cur, s.epochs.find? (fun r => r.epoch == st.epoch) = some cur) ∧
      ∀ x ∈ s.epochs, x.epoch ≤ st.epoch := by
  have hi := reachable_pointer_inv h s hr
  have hne : st.epoch ≠ 0 := by
    intro hz
    obtain ⟨-, h2⟩ := hi.wrapped st hst hz
    obtain ⟨x, hx, hx1⟩ := List.mem_map.1 h2
    have := hcap x hx
    rw [hx1] at this
    norm_num at this
  obtain ⟨x, hx, hx1⟩ := List.mem_map.1 (hi.present st hst hne st.epoch (by omega) (le_refl _))
  refine ⟨hx1 ▸ hcap x hx, find?_isSome_of_mem _ _ x hx (by simp [hx1]),
    fun y hy => (hi.range st hst hne y.epoch (List.mem_map_of_mem _ hy)).2⟩

/-- The result of a step of the epoch pointer that passes every check. -/
theorem advance_epoch_eq (h : Host) (c : Ctx) (s : State) (st : state_row) (cur : epoch_row)
    (hst : s.state = some st) (hen : st.enabled = true)
    (hcur : s.epochs.find? (fun r => r.epoch == st.epoch) = some cur)
    (hnow : cur.end_ ≤ c.now) (hor : s.oracles ≠ [])
    (hfresh : ∀ x ∈ s.epochs, x.epoch ≠ add64 st.epoch 1) :
    advance_epoch h c s
      = .ok ({ s with
               state := some { st with epoch := add64 st.epoch 1 }
               epochs := insert_row (fun r => r.epoch)
                 { epoch := add64 st.epoch 1, start := cur.end_,
                   end_ := cur.end_ + seconds h.epochphasetimer,
                   oracles := s.oracles, completed := 0 } s.epochs },
             s.subscribers.map effect.require_recipient,
             { epoch := add64 st.epoch 1, start := cur.end_,
               end_ := cur.end_ + seconds h.epochphasetimer,
               oracles := s.oracles, completed := 0 }) := by
  have hemp : emplace (fun r : epoch_row => r.epoch)
      { epoch := add64 st.epoch 1, start := cur.end_,
        end_ := cur.end_ + seconds h.epochphasetimer,
        oracles := s.oracles, completed := 0 } s.epochs = some _ :=
    (emplace_eq_some _ _ _ _).2 ⟨hfresh, rfl⟩
  unfold advance_epoch
  rw [hst]
  simp only []
  rw [if_neg (by simp [hen]), hcur]
  simp only []
  rw [if_neg (not_lt.2 hnow), if_neg hor, hemp]

/-! ## When a step of the epoch pointer succeeds -/

/-- C12: in a reachable storage whose epoch numbers have not run out (no
epoch row has the number `2^64 - 1`), a step of the epoch pointer succeeds if
and only if the contract is enabled, the active epoch has a row, the clock
has reached the end of the active epoch and an oracle is registered. So the
step fails while the clock is before that end, and with the clock exactly at
the end it succeeds when the other conditions hold. A failed step leaves the
storage, and with it the pointer and the epoch table, as it was. -/
theorem advance_epoch_succeeds_iff (h : Host) (c : Ctx) (s : State) (hr : Reachable h s)
    (hcap : ∀ x ∈ s.epochs, x.epoch + 1 < 2 ^ 64) :
    ((∃ r, advance_epoch h c s = .ok r) ↔
      ∃ st cur, s.state = some st ∧ st.enabled = true ∧
        s.epochs.find? (fun r => r.epoch == st.epoch) = some cur ∧
        cur.end_ ≤ c.now ∧ s.oracles ≠ []) ∧
    (∀ st cur, s.state = some st →
        s.epochs.find? (fun r => r.epoch == st.epoch) = some cur → c.now < cur.end_ →
        ∃ msg, advance_epoch h c s = .error msg) ∧
    (∀ st cur, s.state = some st → st.enabled = true →
        s.epochs.find? (fun r => r.epoch == st.epoch) = some cur → c.now = cur.end_ →
        s.oracles ≠ [] → ∃ r, advance_epoch h c s = .ok r) ∧
    (∀ msg, advance_epoch h c s = .error msg →
        commit_or_rollback s ((advance_epoch h c s).map (fun r => r.1)) = s) := by
  have hiff : (∃ r, advance_epoch h c s = .ok r) ↔
      ∃ st cur, s.state = some st ∧ st.enabled = true ∧
        s.epochs.find? (fun r => r.epoch == st.epoch) = some cur ∧
        cur.end_ ≤ c.now ∧ s.oracles ≠ [] := by
    constructor
    · rintro ⟨⟨s1, out, row⟩, hok⟩
      obtain ⟨st, cur, h1, h2, h3, h4, h5, -⟩ := advance_epoch_ok h c s s1 out row hok
      exact ⟨st, cur, h1, h2, h3, h4, h5⟩
    · rintro ⟨st, cur, h1, h2, h3, h4, h5⟩
      obtain ⟨hlt, -, hle⟩ := reachable_pointer h s hr st h1 hcap
      refine ⟨_, advance_epoch_eq h c s st cur h1 h2 h3 h4 h5 ?_⟩
      intro x hx
      have := hle x hx
      rw [add64, Nat.mod_eq_of_lt hlt]
      omega
  refine ⟨hiff, ?_, ?_, ?_⟩
  · intro st cur hst hcur hnow
    cases hres : advance_epoch h c s with
    | error msg => exact ⟨msg, rfl⟩
    | ok r =>
      obtain ⟨st1, cur1, h1, -, h3, h4, -⟩ := hiff.1 ⟨r, hres⟩
      rw [hst] at h1
      injection h1 with h1
      subst h1
      rw [hcur] at h3
      injection h3 with h3
      subst h3
      exact absurd hnow (not_lt.2 h4)
  · intro st cur hst hen hcur hnow hor
    exact hiff.2 ⟨st, cur, hst, hen, hcur, le_of_eq hnow.symm, hor⟩
  · intro msg hmsg
    rw [hmsg]
    rfl

theorem advance_epoch_succeeds_iff_witness :
    (∃ r, advance_epoch example_host (example_ctx 1020000000) genesis = .ok r) ∧
    (∃ msg, advance_epoch example_host (example_ctx 1019999999) genesis = .error msg) :=
  ⟨(advance_epoch_succeeds_iff example_host (example_ctx 1020000000) genesis reachable_genesis
      (by decide)).2.2.1
      { epoch := 1, enabled := true }
      { epoch := 1, start := 960000000, end_ := 1020000000,
        oracles := [oracle_a, oracle_b], completed := 0 } rfl rfl rfl rfl (by decide),
   (advance_epoch_succeeds_iff example_host (example_ctx 1019999999) genesis reachable_genesis
      (by decide)).2.1
      { epoch := 1, enabled := true }
      { epoch := 1, start := 960000000, end_ := 1020000000,
        oracles := [oracle_a, oracle_b], completed := 0 } rfl rfl (by decide)⟩

/-! ## The loop of `advance` -/

theorem length_insert_row {α : Type} (key : α → Nat) (r : α) (t : List α) :
    (insert_row key r t).length = t.length + 1 := by
  rw [(insert_row_perm key r t).length_eq, List.length_cons]

/-- The loop of `advance` run from a storage whose pointer is at the epoch
`row`: if `j` more phase durations get the end past the clock and fewer do
not, the loop takes `j` steps, given fuel for them. -/
theorem advance_loop_runs (h : Host) (c : Ctx) :
    ∀ (j fuel : Nat) (s : State) (out : List effect) (row : epoch_row) (st : state_row),
      s.state = some st → st.enabled = true →
      s.epochs.find? (fun r => r.epoch == st.epoch) = some row →
      (∀ x ∈ s.epochs, x.epoch ≤ st.epoch) →
      s.oracles ≠ [] →
      st.epoch + j < 2 ^ 64 →
      c.now < row.end_ + (j : Int) * seconds h.epochphasetimer →
      (∀ i : Nat, i < j → row.end_ + (i : Int) * seconds h.epochphasetimer ≤ c.now) →
      j ≤ fuel →
      ∃ s1 out1 row1, advance_loop h c fuel s out row = .ok (s1, out1, row1) ∧
        s1.state = some { st with epoch := st.epoch + j } ∧
        row1.end_ = row.end_ + (j : Int) * seconds h.epochphasetimer ∧
        s1.epochs.find? (fun r => r.epoch == st.epoch + j) = some row1 ∧
        s1.epochs.length = s.epochs.length + j := by
  intro j
  induction j with
  | zero =>
    intro fuel s out row st hst _ hrow _ _ _ hnow _ _
    simp only [Nat.cast_zero, zero_mul, add_zero] at hnow
    refine ⟨s, out, row, ?_, ?_, by simp, by simpa using hrow, rfl⟩
    · cases fuel with
      | zero => unfold advance_loop; rw [if_pos hnow]
      | succ n => unfold advance_loop; rw [if_pos hnow]
    · rw [hst]; rfl
  | succ j ih =>
    intro fuel s out row st hst hen hrow hle hor hcap hnow hbefore hfuel
    obtain ⟨n, rfl⟩ : ∃ n, fuel = n + 1 := ⟨fuel - 1, by omega⟩
    have h0 := hbefore 0 (Nat.succ_pos _)
    simp only [Nat.cast_zero, zero_mul, add_zero] at h0
    have hnext : add64 st.epoch 1 = st.epoch + 1 := by
      rw [add64, Nat.mod_eq_of_lt (by omega)]
    have hfresh : ∀ x ∈ s.epochs, x.epoch ≠ add64 st.epoch 1 := by
      intro x hx
      have := hle x hx
      rw [hnext]; omega
    have hstep := advance_epoch_eq h c s st row hst hen hrow h0 hor hfresh
    unfold advance_loop
    rw [if_neg (not_lt.2 h0), hstep]
    simp only []
    have hfresh2 : ∀ x ∈ s.epochs, (fun r : epoch_row => r.epoch) x
        ≠ (fun r : epoch_row => r.epoch)
          { epoch := add64 st.epoch 1, start := row.end_,
            end_ := row.end_ + seconds h.epochphasetimer,
            oracles := s.oracles, completed := 0 } := hfresh
    obtain ⟨s1, out1, row1, hl, h1, h2, h3, h4⟩ := ih n
      { s with
        state := some { st with epoch := add64 st.epoch 1 }
        epochs := insert_row (fun r => r.epoch)
          { epoch := add64 st.epoch 1, start := row.end_,
            end_ := row.end_ + seconds h.epochphasetimer,
            oracles := s.oracles, completed := 0 } s.epochs }
      (out ++ s.subscribers.map effect.require_recipient)
      { epoch := add64 st.epoch 1, start := row.end_,
        end_ := row.end_ + seconds h.epochphasetimer,
        oracles := s.oracles, completed := 0 }
      { st with epoch := add64 st.epoch 1 } rfl hen
      (find?_insert_row_self _ _ _ hfresh2)
      (by
        intro x hx
        rcases (mem_insert_row _ _ _ _).1 hx with hx | hx
        · rw [hx]
        · have := hle x hx
          show x.epoch ≤ add64 st.epoch 1
          rw [hnext]; omega)
      hor
      (by show add64 st.epoch 1 + j < 2 ^ 64; rw [hnext]; omega)
      (by
        show c.now < row.end_ + seconds h.epochphasetimer + (j : Int) * seconds h.epochphasetimer
        have := hnow
        push_cast at this
        linarith)
      (by
        intro i hi
        show row.end_ + seconds h.epochphasetimer + (i : Int) * seconds h.epochphasetimer ≤ c.now
        have := hbefore (i + 1) (by omega)
        push_cast at this
        linarith)
      (by omega)
    refine ⟨s1, out1, row1, hl, ?_, ?_, ?_, ?_⟩
    · rw [h1]
      show some ({ epoch := add64 st.epoch 1 + j, enabled := st.enabled } : state_row) = _
      rw [hnext, Nat.add_right_comm, Nat.add_assoc]
    · rw [h2]
      show row.end_ + seconds h.epochphasetimer + (j : Int) * seconds h.epochphasetimer = _
      push_cast
      ring
    · have : st.epoch + (j + 1) = add64 st.epoch 1 + j := by rw [hnext]; omega
      rw [this]
      exact h3
    · rw [h4]
      show (insert_row _ _ s.epochs).length + j = _
      rw [length_insert_row]
      omega

/-- C14: in a reachable storage, with a positive phase duration and a clock
that stays fixed, the action `advance` returns whenever its first step
succeeds (and the pointer stays below `2^64`). It takes as many steps as
phase durations are needed, from the end of the old active epoch, to get past
the clock, which is at least one: the pointer moves up by that number, one
epoch row is added per step, and the epoch returned is the row of the new
pointer; it ends that many phase durations after the old active epoch, and
after the clock. -/
theorem advance_terminates (h : Host) (c : Ctx) (s : State) (hr : Reachable h s)
    (hpos : 0 < h.epochphasetimer) (st : state_row) (cur : epoch_row)
    (hst : s.state = some st)
    (hcur : s.epochs.find? (fun r => r.epoch == st.epoch) = some cur)
    (r1 : State × List effect × epoch_row) (hfirst : advance_epoch h c s = .ok r1)
    (hcap : st.epoch + advance_rounds h c cur < 2 ^ 64) :
    ∃ s1 out row, advance h c s = .ok (s1, out, row) ∧ c.now < row.end_ ∧
      1 ≤ advance_rounds h c cur ∧
      s1.state = some { st with epoch := st.epoch + advance_rounds h c cur } ∧
      row.end_ = cur.end_ + (advance_rounds h c cur : Int) * seconds h.epochphasetimer ∧
      s1.epochs.find? (fun r => r.epoch == st.epoch + advance_rounds h c cur) = some row ∧
      s1.epochs.length = s.epochs.length + advance_rounds h c cur := by
  obtain ⟨s0, out0, row0⟩ := r1
  obtain ⟨st0, cur0, hst0, hen, hcur0, hnow, hor, hrow, hfresh, -, -⟩ :=
    advance_epoch_ok h c s s0 out0 row0 hfirst
  rw [hst] at hst0
  injection hst0 with hst0
  subst hst0
  rw [hcur] at hcur0
  injection hcur0 with hcur0
  subst hcur0
  have hre : row0.epoch = add64 st.epoch 1 := by rw [hrow]
  have hfresh1 : ∀ x ∈ s.epochs, x.epoch ≠ add64 st.epoch 1 := fun x hx => hre ▸ hfresh x hx
  obtain ⟨-, hle⟩ := pointer_inv_le s (reachable_pointer_inv h s hr) st hst hfresh1
  have hstep := advance_epoch_eq h c s st cur hst hen hcur hnow hor hfresh1
  -- the arithmetic of the clock
  have hP : (0 : Int) < seconds h.epochphasetimer := by
    unfold seconds
    have : (0 : Int) < (h.epochphasetimer : Int) := by exact_mod_cast hpos
    positivity
  have hd : 0 ≤ c.now - cur.end_ := by linarith
  have hq : (((c.now - cur.end_) / seconds h.epochphasetimer).toNat : Int)
      = (c.now - cur.end_) / seconds h.epochphasetimer :=
    Int.toNat_of_nonneg (Int.ediv_nonneg hd (le_of_lt hP))
  have hdiv := Int.ediv_add_emod (c.now - cur.end_) (seconds h.epochphasetimer)
  have hr0 := Int.emod_nonneg (c.now - cur.end_) (ne_of_gt hP)
  have hr1 := Int.emod_lt_of_pos (c.now - cur.end_) hP
  have hshift : (c.now - (cur.end_ + seconds h.epochphasetimer)) / seconds h.epochphasetimer
      = (c.now - cur.end_) / seconds h.epochphasetimer + (-1) := by
    rw [← Int.add_mul_ediv_right _ _ (ne_of_gt hP)]
    congr 1
    ring
  have hnext : add64 st.epoch 1 = st.epoch + 1 := by
    unfold advance_rounds at hcap
    rw [add64, Nat.mod_eq_of_lt (by omega)]
  have hfresh2 : ∀ x ∈ s.epochs, (fun r : epoch_row => r.epoch) x
      ≠ (fun r : epoch_row => r.epoch)
        { epoch := add64 st.epoch 1, start := cur.end_,
          end_ := cur.end_ + seconds h.epochphasetimer,
          oracles := s.oracles, completed := 0 } := hfresh1
  obtain ⟨s1, out1, row1, hl, h1, h2, h3, h4⟩ := advance_loop_runs h c
    ((c.now - cur.end_) / seconds h.epochphasetimer).toNat
    (((c.now - (cur.end_ + seconds h.epochphasetimer)) / seconds h.epochphasetimer).toNat + 1)
    { s with
      state := some { st with epoch := add64 st.epoch 1 }
      epochs := insert_row (fun r => r.epoch)
        { epoch := add64 st.epoch 1, start := cur.end_,
          end_ := cur.end_ + seconds h.epochphasetimer,
          oracles := s.oracles, completed := 0 } s.epochs }
    (s.subscribers.map effect.require_recipient)
    { epoch := add64 st.epoch 1, start := cur.end_,
      end_ := cur.end_ + seconds h.epochphasetimer,
      oracles := s.oracles, completed := 0 }
    { st with epoch := add64 st.epoch 1 } rfl hen
    (find?_insert_row_self _ _ _ hfresh2)
    (by
      intro x hx
      rcases (mem_insert_row _ _ _ _).1 hx with hx | hx
      · rw [hx]
      · have := hle x hx
        show x.epoch ≤ add64 st.epoch 1
        rw [hnext]; omega)
    hor
    (by
      show add64 st.epoch 1 + _ < 2 ^ 64
      unfold advance_rounds at hcap
      rw [hnext]; omega)
    (by
      show c.now < cur.end_ + seconds h.epochphasetimer + _ * seconds h.epochphasetimer
      rw [hq]
      nlinarith)
    (by
      intro i hi
      show cur.end_ + seconds h.epochphasetimer + (i : Int) * seconds h.epochphasetimer ≤ c.now
      have hi1 : ((i : Int) + 1) ≤ (c.now - cur.end_) / seconds h.epochphasetimer := by
        rw [← hq]
        exact_mod_cast hi
      have := mul_le_mul_of_nonneg_right hi1 (le_of_lt hP)
      nlinarith)
    (by
      rw [hshift]
      omega)
  refine ⟨s1, out1, row1, ?_, ?_, ?_, ?_, ?_, ?_, ?_⟩
  · unfold advance
    rw [hstep]
    exact hl
  · rw [h2]
    show c.now < cur.end_ + seconds h.epochphasetimer + _ * seconds h.epochphasetimer
    rw [hq]
    nlinarith
  · unfold advance_rounds; omega
  · rw [h1]
    unfold advance_rounds
    show some ({ epoch := add64 st.epoch 1 + _, enabled := st.enabled } : state_row) = _
    rw [hnext, Nat.add_right_comm, Nat.add_assoc]
  · rw [h2]
    unfold advance_rounds
    show cur.end_ + seconds h.epochphasetimer + _ * seconds h.epochphasetimer = _
    push_cast
    ring
  · have : st.epoch + advance_rounds h c cur
        = add64 st.epoch 1 + ((c.now - cur.end_) / seconds h.epochphasetimer).toNat := by
      unfold advance_rounds
      rw [hnext]; omega
    rw [this]
    exact h3
  · rw [h4]
    unfold advance_rounds
    show (insert_row _ _ s.epochs).length + _ = _
    rw [length_insert_row]
    omega

theorem advance_terminates_witness :
    advance_rounds example_host (example_ctx 1140000000)
        { epoch := 1, start := 960000000, end_ := 1020000000,
          oracles := [oracle_a, oracle_b], completed := 0 } = 3 ∧
    ∃ s1 out row, advance example_host (example_ctx 1140000000) genesis = .ok (s1, out, row) ∧
      (1140000000 : Int) < row.end_ ∧
      s1.state = some { epoch := 1 + 3, enabled := true } ∧
      row.end_ = 1020000000 + ((3 : Nat) : Int) * seconds 60 := by
  refine ⟨rfl, ?_⟩
  obtain ⟨s1, out, row, h1, h2, -, h3, h4, -, -⟩ :=
    advance_terminates example_host (example_ctx 1140000000) genesis reachable_genesis
      (by decide) { epoch := 1, enabled := true }
      { epoch := 1, start := 960000000, end_ := 1020000000,
        oracles := [oracle_a, oracle_b], completed := 0 } rfl rfl
      ({ genesis with
          state := some { epoch := 2, enabled := true }
          epochs := genesis.epochs ++
            [{ epoch := 2, start := 1020000000, end_ := 1080000000,
               oracles := [oracle_a, oracle_b], completed := 0 }] },
       [], { epoch := 2, start := 1020000000, end_ := 1080000000,
             oracles := [oracle_a, oracle_b], completed := 0 }) rfl (by decide)
  exact ⟨s1, out, row, h1, h2, h3, h4⟩

/-! ## The value of a drop in an epoch -/

theorem find?_eq_of_mem_unique {α : Type} (key : α → Nat) (t : List α) (x : α) (hx : x ∈ t)
    (hu : t.Pairwise (fun a b => key a ≠ key b)) :
    t.find? (fun r => key r == key x) = some x := by
  induction t with
  | nil => cases hx
  | cons y t ih =>
    rw [List.pairwise_cons] at hu
    rw [List.find?_cons]
    rcases List.mem_cons.1 hx with hxy | hxt
    · subst hxy
      simp
    · have hne : key y ≠ key x := hu.1 x hxt
      have : (key y == key x) = false := by simpa using hne
      rw [this]
      exact ih hxt hu.2

set_option maxRecDepth 100000 in
theorem later_settled : Later example_host minted settled := by
  have l1 : Later example_host minted
      { minted with
        commits := [{ id := 0, epoch := 1, oracle := oracle_a,
                      commit := example_host.sha256 "foo" }] } :=
    Later.step (example_ctx 1000000000) (.commit oracle_a 1 (example_host.sha256 "foo"))
      Later.refl rfl
  have l2 : Later example_host minted
      { committed with
        drops := minted.drops, accounts := minted.accounts, stats := minted.stats } :=
    Later.step (example_ctx 1000000000) (.commit oracle_b 1 (example_host.sha256 "bar")) l1 rfl
  have l3 : Later example_host minted
      { revealed_a with
        drops := minted.drops, accounts := minted.accounts, stats := minted.stats } :=
    Later.step (example_ctx 1020000001) (.reveal oracle_a 1 "foo") l2 rfl
  exact Later.step (example_ctx 1020000001) (.reveal oracle_b 1 "bar") l3 rfl

theorem reachable_settled : Reachable example_host settled :=
  reachable_later _ _ _ reachable_minted later_settled

theorem credit_account_some (accounts : List account_row) (from_ : name) (amount : Nat) :
    ∃ accounts1, credit_account accounts from_ amount = some accounts1 := by
  unfold credit_account
  cases hf : accounts.find? (fun r => r.account == from_) with
  | some a => exact ⟨_, rfl⟩
  | none =>
    simp only []
    cases he : emplace (fun r : account_row => r.account)
        { account := from_, drops := new_drops_total accounts from_ amount } accounts with
    | some t => exact ⟨t, rfl⟩
    | none =>
      obtain ⟨y, hy, hk⟩ := (emplace_eq_none _ _ _).1 he
      rw [List.find?_eq_none] at hf
      exact absurd (by simpa using hk) (hf y hy)

theorem credit_stat_some (stats : List stat_row) (from_ : name) (epoch amount : Nat) :
    ∃ stats1, credit_stat stats from_ epoch amount = some stats1 := by
  unfold credit_stat
  cases hf : stats.find? (fun r => r.account == from_ && r.epoch == epoch) with
  | some a => exact ⟨_, rfl⟩
  | none =>
    simp only []
    exact ⟨_, emplace_available (fun r : stat_row => r.id) _ stats rfl⟩

/-- The minting loop goes through exactly when the ids it mints are new to
the drop table and differ from one another. -/
theorem generate_drops_some_iff (h : Host) (from_ : name) (epoch : Nat) (data : String) :
    ∀ (n i : Nat) (drops : List drop_row),
      (∃ drops1, generate_drops h from_ epoch data i n drops = some drops1) ↔
        (∀ j, j < n → ∀ d ∈ drops, d.drops ≠ drop_id h (i + j) data) ∧
        (∀ j k, j < k → k < n → drop_id h (i + j) data ≠ drop_id h (i + k) data) := by
  intro n
  induction n with
  | zero =>
    intro i drops
    simp only [generate_drops]
    constructor
    · intro _
      exact ⟨fun j hj => absurd hj (Nat.not_lt_zero _), fun j k _ hk => absurd hk (Nat.not_lt_zero _)⟩
    · intro _
      exact ⟨drops, rfl⟩
  | succ n ih =>
    intro i drops
    simp only [generate_drops]
    cases he : emplace (fun r : drop_row => r.drops)
        { drops := drop_id h i data, owner := from_, epoch := epoch } drops with
    | none =>
      obtain ⟨y, hy, hk⟩ := (emplace_eq_none _ _ _).1 he
      simp only []
      constructor
      · rintro ⟨_, hc⟩; cases hc
      · rintro ⟨h1, -⟩
        exact absurd hk (h1 0 (Nat.succ_pos _) y hy)
    | some drops1 =>
      obtain ⟨hfresh, hins⟩ := (emplace_eq_some _ _ _ _).1 he
      simp only []
      rw [ih (i + 1) drops1]
      have hmem : ∀ d, d ∈ drops1 ↔
          d = { drops := drop_id h i data, owner := from_, epoch := epoch } ∨ d ∈ drops := by
        intro d
        rw [hins, mem_insert_row]
      constructor
      · rintro ⟨h1, h2⟩
        constructor
        · intro j hj d hd
          cases j with
          | zero => exact hfresh d hd
          | succ j =>
            have := h1 j (by omega) d ((hmem d).2 (Or.inr hd))
            rwa [Nat.add_assoc, Nat.add_comm 1 j] at this
        · intro j k hjk hk
          cases k with
          | zero => omega
          | succ k =>
            cases j with
            | zero =>
              have := h1 k (by omega) _ ((hmem _).2 (Or.inl rfl))
              rw [Nat.add_assoc, Nat.add_comm 1 k] at this
              exact this
            | succ j =>
              have := h2 j k (by omega) (by omega)
              rwa [Nat.add_assoc, Nat.add_comm 1 j, Nat.add_assoc, Nat.add_comm 1 k] at this
      · rintro ⟨h1, h2⟩
        constructor
        · intro j hj d hd
          rw [Nat.add_assoc, Nat.add_comm 1 j]
          rcases (hmem d).1 hd with hd | hd
          · rw [hd]
            exact h2 0 (j + 1) (by omega) (by omega)
          · exact h1 (j + 1) (by omega) d hd
        · intro j k hjk hk
          rw [Nat.add_assoc, Nat.add_comm 1 j, Nat.add_assoc, Nat.add_comm 1 k]
          exact h2 (j + 1) (k + 1) (by omega) (by omega)

/-- The rows the minting loop leaves: the old rows and one new row for each
round. -/
theorem generate_drops_perm (h : Host) (from_ : name) (epoch : Nat) (data : String) :
    ∀ (n i : Nat) (drops drops1 : List drop_row),
      generate_drops h from_ epoch data i n drops = some drops1 →
      drops1.Perm ((List.range n).map
        (fun j => ({ drops := drop_id h (i + j) data, owner := from_, epoch := epoch } : drop_row))
        ++ drops) := by
  intro n
  induction n with
  | zero =>
    intro i drops drops1 hg
    simp only [generate_drops] at hg
    injection hg with hg
    rw [hg]
    simp
  | succ n ih =>
    intro i drops drops1 hg
    simp only [generate_drops] at hg
    cases he : emplace (fun r : drop_row => r.drops)
        { drops := drop_id h i data, owner := from_, epoch := epoch } drops with
    | none => rw [he] at hg; cases hg
    | some drops0 =>
      rw [he] at hg
      simp only [] at hg
      obtain ⟨-, hins⟩ := (emplace_eq_some _ _ _ _).1 he
      have h1 := ih (i + 1) drops0 drops1 hg
      rw [List.range_succ_eq_map, List.map_cons, List.map_map, List.cons_append]
      have h2 : (List.range n).map
          (fun j => ({ drops := drop_id h (i + 1 + j) data, owner := from_, epoch := epoch }
            : drop_row))
          = (List.range n).map
            ((fun j => ({ drops := drop_id h (i + j) data, owner := from_, epoch := epoch }
              : drop_row)) ∘ Nat.succ) := by
        apply List.map_congr_left
        intro j _
        show _ = ({ drops := drop_id h (i + (j + 1)) data, owner := from_, epoch := epoch }
          : drop_row)
        rw [Nat.add_assoc, Nat.add_comm 1 j]
      rw [← h2]
      refine h1.trans ?_
      rw [hins]
      refine (List.Perm.append_left _ (insert_row_perm _ _ _)).trans ?_
      exact List.perm_middle

/-- The id of a drop, byte by byte: byte `k` of the digest, counted from its
most significant end, is digit `k` of the id in base 256. -/
theorem drop_id_eq (h : Host) (i : Nat) (data : String) :
    drop_id h i data
      = ((List.range 8).map
          (fun k => h.sha256 (Nat.repr i ++ data) / 256 ^ (31 - k) % 256 * 256 ^ k)).sum := by
  unfold drop_id memcpy_uint64 extract_as_byte_array
  generalize h.sha256 (Nat.repr i ++ data) = v
  simp only [List.range, List.range.loop, List.map, List.take, List.foldr, List.sum_cons,
    List.sum_nil]
  ring

theorem generate_eq_mint (h : Host) (c : Ctx) (s : State) (from_ to_ : name) (quantity : asset)
    (memo : String) (epoch amount : Nat) (data : String)
    (hb : ¬ (from_ = eosio_ram ∨ to_ ≠ h.self ∨ from_ = h.self ∨ memo = "bypass"))
    (hparse : generate_parse h s quantity memo = .ok (epoch, amount, data)) :
    generate h c s from_ to_ quantity memo
      = generate_mint h c s from_ quantity epoch amount data := by
  unfold generate
  rw [if_neg hb, hparse]

theorem generate_mint_of_none (h : Host) (c : Ctx) (s : State) (from_ : name) (quantity : asset)
    (epoch amount : Nat) (data : String)
    (hgd : generate_drops h from_ epoch data 0 amount s.drops = none) :
    generate_mint h c s from_ quantity epoch amount data = .error "primary key already in use" := by
  unfold generate_mint
  rw [hgd]

theorem generate_mint_of_some (h : Host) (c : Ctx) (s : State) (from_ : name) (quantity : asset)
    (epoch amount : Nat) (data : String) (drops1 : List drop_row)
    (hgd : generate_drops h from_ epoch data 0 amount s.drops = some drops1) :
    ∃ accounts1 stats1,
      credit_account s.accounts from_ amount = some accounts1 ∧
      credit_stat s.stats from_ epoch amount = some stats1 ∧
      generate_mint h c s from_ quantity epoch amount data
        = if quantity.amount < c.ramcostwithfee (ram_purchase_amount h s from_ epoch amount) then
            .error "The amount sent does not cover the RAM purchase cost"
          else
            .ok ({ s with drops := drops1, accounts := accounts1, stats := stats1 },
              effect.buyrambytes h.self h.self (ram_purchase_amount h s from_ epoch amount) ::
                (if quantity.amount
                    - c.ramcostwithfee (ram_purchase_amount h s from_ epoch amount) > 0
                 then [effect.token_transfer h.self from_
                   ⟨quantity.amount
                      - c.ramcostwithfee (ram_purchase_amount h s from_ epoch amount),
                     h.EOS⟩ ""]
                 else []),
              { drops := amount % 2 ^ 32, epoch := epoch,
                cost := ⟨c.ramcostwithfee (ram_purchase_amount h s from_ epoch amount), h.EOS⟩,
                refund := ⟨quantity.amount
                  - c.ramcostwithfee (ram_purchase_amount h s from_ epoch amount), h.EOS⟩,
                total_drops := new_drops_total s.accounts from_ amount,
                epoch_drops := new_drops_epoch s.stats from_ epoch amount }) := by
  obtain ⟨accounts1, hca⟩ := credit_account_some s.accounts from_ amount
  obtain ⟨stats1, hcs⟩ := credit_stat_some s.stats from_ epoch amount
  refine ⟨accounts1, stats1, hca, hcs, ?_⟩
  unfold generate_mint
  rw [hgd, hca, hcs]

/-! ## Issuance: capacity, payment and minted rows -/

theorem ram_purchase_amount_eq (h : Host) (s : State) (from_ : name) (epoch amount : Nat) :
    ram_purchase_amount h s from_ epoch amount
      = (amount * (h.record_size + h.purchase_buffer)
          + (if s.accounts.find? (fun r => r.account == from_) = none then h.accounts_row else 0)
          + (if s.stats.find? (fun r => r.account == from_ && r.epoch == epoch) = none
              then h.stats_row else 0)) % 2 ^ 64 := by
  unfold ram_purchase_amount add64
  generalize amount * (h.record_size + h.purchase_buffer) = x
  cases s.accounts.find? (fun r => r.account == from_) <;>
    cases s.stats.find? (fun r => r.account == from_ && r.epoch == epoch) <;>
    simp [Nat.add_mod]

/-- What a `generate` that is not bypassed and passes the checks returns when
it succeeds. -/
theorem generate_result (h : Host) (c : Ctx) (s : State) (from_ to_ : name) (quantity : asset)
    (memo : String) (epoch amount : Nat) (data : String)
    (hb : ¬ (from_ = eosio_ram ∨ to_ ≠ h.self ∨ from_ = h.self ∨ memo = "bypass"))
    (hparse : generate_parse h s quantity memo = .ok (epoch, amount, data))
    (r : State × List effect × generate_return_value)
    (hok : generate h c s from_ to_ quantity memo = .ok r) :
    ∃ drops1 accounts1 stats1,
      generate_drops h from_ epoch data 0 amount s.drops = some drops1 ∧
      credit_account s.accounts from_ amount = some accounts1 ∧
      credit_stat s.stats from_ epoch amount = some stats1 ∧
      c.ramcostwithfee (ram_purchase_amount h s from_ epoch amount) ≤ quantity.amount ∧
      r = ({ s with drops := drops1, accounts := accounts1, stats := stats1 },
            effect.buyrambytes h.self h.self (ram_purchase_amount h s from_ epoch amount) ::
              (if quantity.amount
                  - c.ramcostwithfee (ram_purchase_amount h s from_ epoch amount) > 0
               then [effect.token_transfer h.self from_
                 ⟨quantity.amount
                    - c.ramcostwithfee (ram_purchase_amount h s from_ epoch amount),
                   h.EOS⟩ ""]
               else []),
            { drops := amount % 2 ^ 32, epoch := epoch,
              cost := ⟨c.ramcostwithfee (ram_purchase_amount h s from_ epoch amount), h.EOS⟩,
              refund := ⟨quantity.amount
                - c.ramcostwithfee (ram_purchase_amount h s from_ epoch amount), h.EOS⟩,
              total_drops := new_drops_total s.accounts from_ amount,
              epoch_drops := new_drops_epoch s.stats from_ epoch amount }) := by
  rw [generate_eq_mint h c s from_ to_ quantity memo epoch amount data hb hparse] at hok
  cases hgd : generate_drops h from_ epoch data 0 amount s.drops with
  | none =>
    rw [generate_mint_of_none h c s from_ quantity epoch amount data hgd] at hok
    cases hok
  | some drops1 =>
    obtain ⟨accounts1, stats1, hca, hcs, hm⟩ :=
      generate_mint_of_some h c s from_ quantity epoch amount data drops1 hgd
    rw [hm] at hok
    by_cases hlt : quantity.amount < c.ramcostwithfee (ram_purchase_amount h s from_ epoch amount)
    · rw [if_pos hlt] at hok; cases hok
    · rw [if_neg hlt] at hok
      injection hok with hok
      exact ⟨drops1, accounts1, stats1, rfl, hca, hcs, not_lt.1 hlt, hok.symm⟩

/-- C17: an issuance that passes the checks buys, and is charged for,
`count * (record_size + purchase_buffer)` bytes, plus `accounts_row` exactly
when the payer has no account row, plus `stats_row` exactly when the payer has
no stat row for the current epoch, the sum taken as a `uint64_t` (so it is the
sum itself when that is below `2^64`). The payment is compared with the price
of this amount: a payment below it makes the issuance fail, and a payment that
covers it, for drops whose ids are new and distinct, makes the issuance
succeed; whenever the issuance succeeds, this amount is the amount of the
`buyrambytes` action it sends first and its price is the cost returned. -/
theorem generate_reserves_capacity (h : Host) (c : Ctx) (s : State) (from_ to_ : name)
    (quantity : asset) (memo : String) (epoch amount : Nat) (data : String)
    (hb : ¬ (from_ = eosio_ram ∨ to_ ≠ h.self ∨ from_ = h.self ∨ memo = "bypass"))
    (hparse : generate_parse h s quantity memo = .ok (epoch, amount, data)) :
    (∃ st, s.state = some st ∧ epoch = st.epoch) ∧
    ram_purchase_amount h s from_ epoch amount
      = (amount * (h.record_size + h.purchase_buffer)
          + (if s.accounts.find? (fun r => r.account == from_) = none then h.accounts_row else 0)
          + (if s.stats.find? (fun r => r.account == from_ && r.epoch == epoch) = none
              then h.stats_row else 0)) % 2 ^ 64 ∧
    (amount * (h.record_size + h.purchase_buffer)
          + (if s.accounts.find? (fun r => r.account == from_) = none then h.accounts_row else 0)
          + (if s.stats.find? (fun r => r.account == from_ && r.epoch == epoch) = none
              then h.stats_row else 0) < 2 ^ 64 →
      ram_purchase_amount h s from_ epoch amount
        = amount * (h.record_size + h.purchase_buffer)
          + (if s.accounts.find? (fun r => r.account == from_) = none then h.accounts_row else 0)
          + (if s.stats.find? (fun r => r.account == from_ && r.epoch == epoch) = none
              then h.stats_row else 0)) ∧
    (∀ r, generate h c s from_ to_ quantity memo = .ok r →
      r.2.1.head? = some (effect.buyrambytes h.self h.self
        (ram_purchase_amount h s from_ epoch amount)) ∧
      r.2.2.cost = ⟨c.ramcostwithfee (ram_purchase_amount h s from_ epoch amount), h.EOS⟩) ∧
    (quantity.amount < c.ramcostwithfee (ram_purchase_amount h s from_ epoch amount) →
      ∃ msg, generate h c s from_ to_ quantity memo = .error msg) ∧
    (c.ramcostwithfee (ram_purchase_amount h s from_ epoch amount) ≤ quantity.amount →
      (∀ i, i < amount → ∀ d ∈ s.drops, d.drops ≠ drop_id h i data) →
      (∀ i j, i < j → j < amount → drop_id h i data ≠ drop_id h j data) →
      ∃ r, generate h c s from_ to_ quantity memo = .ok r ∧
        r.2.1.head? = some (effect.buyrambytes h.self h.self
          (ram_purchase_amount h s from_ epoch amount)) ∧
        r.2.2.cost
          = ⟨c.ramcostwithfee (ram_purchase_amount h s from_ epoch amount), h.EOS⟩) := by
  obtain ⟨st, hst, -, he, -⟩ := generate_parse_ok h s quantity memo epoch amount data hparse
  have hres := generate_result h c s from_ to_ quantity memo epoch amount data hb hparse
  refine ⟨⟨st, hst, he⟩, ram_purchase_amount_eq h s from_ epoch amount, ?_, ?_, ?_, ?_⟩
  · intro hlt
    rw [ram_purchase_amount_eq, Nat.mod_eq_of_lt hlt]
  · intro r hok
    obtain ⟨_, _, _, -, -, -, -, rfl⟩ := hres r hok
    exact ⟨rfl, rfl⟩
  · intro hlt
    cases hg : generate h c s from_ to_ quantity memo with
    | error msg => exact ⟨msg, rfl⟩
    | ok r =>
      obtain ⟨_, _, _, -, -, -, hle, -⟩ := hres r hg
      exact absurd hlt (not_lt.2 hle)
  · intro hle h1 h2
    have hfresh := generate_drops_some_iff h from_ epoch data amount 0 s.drops
    simp only [Nat.zero_add] at hfresh
    obtain ⟨drops1, hgd⟩ := hfresh.2 ⟨h1, h2⟩
    obtain ⟨accounts1, stats1, -, -, hm⟩ :=
      generate_mint_of_some h c s from_ quantity epoch amount data drops1 hgd
    rw [generate_eq_mint h c s from_ to_ quantity memo epoch amount data hb hparse, hm,
      if_neg (not_lt.2 hle)]
    exact ⟨_, rfl, rfl, rfl⟩

set_option maxRecDepth 100000 in
theorem generate_reserves_capacity_witness :
    generate example_host (example_ctx 1000000000) genesis alice example_host.self
        ⟨100000, example_host.EOS⟩ "3,0123456789abcdef0123456789abcdefg"
      = .ok (minted,
          [effect.buyrambytes 7 7 1370, effect.token_transfer 7 alice ⟨98630, 1⟩ ""],
          { drops := 3, epoch := 1, cost := ⟨1370, 1⟩, refund := ⟨98630, 1⟩,
            total_drops := 3, epoch_drops := 3 }) ∧
    genesis.accounts.find? (fun r => r.account == alice) = none ∧
    genesis.stats.find? (fun r => r.account == alice && r.epoch == 1) = none ∧
    ram_purchase_amount example_host genesis alice 1 3
      = 3 * (example_host.record_size + example_host.purchase_buffer)
        + example_host.accounts_row + example_host.stats_row ∧
    [effect.buyrambytes 7 7 1370, effect.token_transfer 7 alice ⟨98630, 1⟩ ""].head?
      = some (effect.buyrambytes example_host.self example_host.self
          (ram_purchase_amount example_host genesis alice 1 3)) ∧
    (⟨1370, 1⟩ : asset)
      = ⟨(example_ctx 1000000000).ramcostwithfee
          (ram_purchase_amount example_host genesis alice 1 3), example_host.EOS⟩ :=
  have hw := generate_reserves_capacity example_host (example_ctx 1000000000) genesis alice
    example_host.self ⟨100000, example_host.EOS⟩ "3,0123456789abcdef0123456789abcdefg"
    1 3 "0123456789abcdef0123456789abcdefg" (by decide) rfl
  have hr := hw.2.2.2.1
    (minted, [effect.buyrambytes 7 7 1370, effect.token_transfer 7 alice ⟨98630, 1⟩ ""],
      { drops := 3, epoch := 1, cost := ⟨1370, 1⟩, refund := ⟨98630, 1⟩,
        total_drops := 3, epoch_drops := 3 }) rfl
  ⟨rfl, rfl, rfl, hw.2.2.1 (by decide), hr.1, hr.2⟩

set_option maxRecDepth 100000 in
/-- C18 (counterexample): in `minted` the payer `alice` sends the same memo a
second time, with 100000 units for a cost of 834; the memo passes the checks
and the payment covers the cost, but the issuance fails, because the ids of
the drops it would mint are in the drop table already. -/
theorem generate_funded_but_refused_counterexample :
    generate_parse example_host minted ⟨100000, example_host.EOS⟩
        "3,0123456789abcdef0123456789abcdefg"
      = .ok (1, 3, "0123456789abcdef0123456789abcdefg") ∧
    (example_ctx 1000000000).ramcostwithfee (ram_purchase_amount example_host minted alice 1 3)
      = 834 ∧
    generate example_host (example_ctx 1000000000) minted alice example_host.self
        ⟨100000, example_host.EOS⟩ "3,0123456789abcdef0123456789abcdefg"
      = .error "primary key already in use" :=
  ⟨rfl, rfl, rfl⟩

/-- C18 (amended): an issuance that passes the checks, with `cost` the price of
the bytes it buys, fails when the payment is below the cost, and succeeds if
and only if the payment covers the cost and the ids of the drops to mint are
new to the drop table and differ from one another. On success the cost and
the refund returned add up to the payment, the refund is not negative, and
after the `buyrambytes` action a transfer of the payment less the cost to the
payer is sent exactly when that difference is positive. -/
theorem generate_succeeds_iff_funded_and_fresh (h : Host) (c : Ctx) (s : State)
    (from_ to_ : name) (quantity : asset) (memo : String) (epoch amount : Nat) (data : String)
    (hb : ¬ (from_ = eosio_ram ∨ to_ ≠ h.self ∨ from_ = h.self ∨ memo = "bypass"))
    (hparse : generate_parse h s quantity memo = .ok (epoch, amount, data)) :
    (quantity.amount < c.ramcostwithfee (ram_purchase_amount h s from_ epoch amount) →
      ∃ msg, generate h c s from_ to_ quantity memo = .error msg) ∧
    ((∃ r, generate h c s from_ to_ quantity memo = .ok r) ↔
      c.ramcostwithfee (ram_purchase_amount h s from_ epoch amount) ≤ quantity.amount ∧
      (∀ i, i < amount → ∀ d ∈ s.drops, d.drops ≠ drop_id h i data) ∧
      (∀ i j, i < j → j < amount → drop_id h i data ≠ drop_id h j data)) ∧
    ∀ r, generate h c s from_ to_ quantity memo = .ok r →
      r.2.2.cost = ⟨c.ramcostwithfee (ram_purchase_amount h s from_ epoch amount), h.EOS⟩ ∧
      r.2.2.cost.amount + r.2.2.refund.amount = quantity.amount ∧
      0 ≤ r.2.2.refund.amount ∧
      r.2.2.refund.symbol = h.EOS ∧
      r.2.1 = effect.buyrambytes h.self h.self (ram_purchase_amount h s from_ epoch amount) ::
        (if 0 < quantity.amount - r.2.2.cost.amount
         then [effect.token_transfer h.self from_
                ⟨quantity.amount - r.2.2.cost.amount, h.EOS⟩ ""]
         else []) := by
  have hfresh := generate_drops_some_iff h from_ epoch data amount 0 s.drops
  simp only [Nat.zero_add] at hfresh
  have hres := generate_result h c s from_ to_ quantity memo epoch amount data hb hparse
  refine ⟨?_, ?_, ?_⟩
  · intro hlt
    cases hg : generate h c s from_ to_ quantity memo with
    | error msg => exact ⟨msg, rfl⟩
    | ok r =>
      obtain ⟨_, _, _, -, -, -, hle, -⟩ := hres r hg
      exact absurd hlt (not_lt.2 hle)
  · constructor
    · rintro ⟨r, hok⟩
      obtain ⟨drops1, _, _, hgd, -, -, hle, -⟩ := hres r hok
      obtain ⟨h1, h2⟩ := hfresh.1 ⟨drops1, hgd⟩
      exact ⟨hle, h1, h2⟩
    · rintro ⟨hle, h1, h2⟩
      obtain ⟨drops1, hgd⟩ := hfresh.2 ⟨h1, h2⟩
      obtain ⟨accounts1, stats1, -, -, hm⟩ :=
        generate_mint_of_some h c s from_ quantity epoch amount data drops1 hgd
      rw [generate_eq_mint h c s from_ to_ quantity memo epoch amount data hb hparse, hm,
        if_neg (not_lt.2 hle)]
      exact ⟨_, rfl⟩
  · intro r hok
    obtain ⟨_, _, _, -, -, -, hle, rfl⟩ := hres r hok
    refine ⟨rfl, ?_, ?_, rfl, rfl⟩
    · show c.ramcostwithfee (ram_purchase_amount h s from_ epoch amount)
        + (quantity.amount - c.ramcostwithfee (ram_purchase_amount h s from_ epoch amount))
        = quantity.amount
      omega
    · show 0 ≤ quantity.amount - c.ramcostwithfee (ram_purchase_amount h s from_ epoch amount)
      omega

theorem generate_succeeds_iff_funded_and_fresh_witness :
    (∃ r, generate example_host (example_ctx 1000000000) genesis alice example_host.self
        ⟨100000, example_host.EOS⟩ "3,0123456789abcdef0123456789abcdefg" = .ok r) ∧
    (∃ msg, generate example_host (example_ctx 1000000000) genesis alice example_host.self
        ⟨1369, example_host.EOS⟩ "3,0123456789abcdef0123456789abcdefg" = .error msg) :=
  ⟨(generate_succeeds_iff_funded_and_fresh example_host (example_ctx 1000000000) genesis alice
      example_host.self ⟨100000, example_host.EOS⟩ "3,0123456789abcdef0123456789abcdefg"
      1 3 "0123456789abcdef0123456789abcdefg" (by decide) rfl).2.1.2
      ⟨by decide, by decide, by
        intro i j hij hj
        interval_cases j <;> interval_cases i <;> decide⟩,
   (generate_succeeds_iff_funded_and_fresh example_host (example_ctx 1000000000) genesis alice
      example_host.self ⟨1369, example_host.EOS⟩ "3,0123456789abcdef0123456789abcdefg"
      1 3 "0123456789abcdef0123456789abcdefg" (by decide) rfl).1 (by decide)⟩

/-- C19: after a successful issuance of `count` drops with the seed `data` in
the current epoch `e`, the drop table holds, for every `i < count`, a row of
the payer created in `e` whose id is made of the first eight bytes of
`sha256(decimal(i) ++ data)` (byte `k` of the digest is digit `k` of the id in
base 256), an id that depends on `i` and the seed only; these rows are the
only change of the drop table. The record returned carries `count`, `e`, and
the old total and the old count of the payer in `e` (zero when the row was
missing) plus `count`, as `uint64_t` values, so the sums themselves when they
are below `2^64`. -/
theorem generate_mints_rows (h : Host) (c : Ctx) (s : State) (from_ to_ : name)
    (quantity : asset) (memo : String) (epoch amount : Nat) (data : String)
    (hb : ¬ (from_ = eosio_ram ∨ to_ ≠ h.self ∨ from_ = h.self ∨ memo = "bypass"))
    (hparse : generate_parse h s quantity memo = .ok (epoch, amount, data))
    (r : State × List effect × generate_return_value)
    (hok : generate h c s from_ to_ quantity memo = .ok r) :
    (∃ st, s.state = some st ∧ epoch = st.epoch) ∧
    (∀ i, i < amount →
      ({ drops := drop_id h i data, owner := from_, epoch := epoch } : drop_row) ∈ r.1.drops) ∧
    (∀ i, drop_id h i data
      = ((List.range 8).map
          (fun k => h.sha256 (Nat.repr i ++ data) / 256 ^ (31 - k) % 256 * 256 ^ k)).sum) ∧
    r.1.drops.Perm ((List.range amount).map
      (fun i => ({ drops := drop_id h i data, owner := from_, epoch := epoch } : drop_row))
      ++ s.drops) ∧
    r.2.2.drops = amount ∧ r.2.2.epoch = epoch ∧
    r.2.2.total_drops
      = (((s.accounts.find? (fun r => r.account == from_)).map (fun a => a.drops)).getD 0
          + amount) % 2 ^ 64 ∧
    r.2.2.epoch_drops
      = (((s.stats.find? (fun r => r.account == from_ && r.epoch == epoch)).map
            (fun x => x.drops)).getD 0 + amount) % 2 ^ 64 ∧
    (((s.accounts.find? (fun r => r.account == from_)).map (fun a => a.drops)).getD 0
        + amount < 2 ^ 64 →
      r.2.2.total_drops
        = ((s.accounts.find? (fun r => r.account == from_)).map (fun a => a.drops)).getD 0
          + amount) ∧
    (((s.stats.find? (fun r => r.account == from_ && r.epoch == epoch)).map
        (fun x => x.drops)).getD 0 + amount < 2 ^ 64 →
      r.2.2.epoch_drops
        = ((s.stats.find? (fun r => r.account == from_ && r.epoch == epoch)).map
            (fun x => x.drops)).getD 0 + amount) := by
  obtain ⟨st, hst, -, he, -, hmax, -, -⟩ :=
    generate_parse_ok h s quantity memo epoch amount data hparse
  obtain ⟨drops1, accounts1, stats1, hgd, -, -, -, rfl⟩ :=
    generate_result h c s from_ to_ quantity memo epoch amount data hb hparse r hok
  have hperm := generate_drops_perm h from_ epoch data amount 0 s.drops drops1 hgd
  simp only [Nat.zero_add] at hperm
  have htot : new_drops_total s.accounts from_ amount
      = (((s.accounts.find? (fun r => r.account == from_)).map (fun a => a.drops)).getD 0
          + amount) % 2 ^ 64 := by
    unfold new_drops_total
    cases s.accounts.find? (fun r => r.account == from_) with
    | none =>
      simp only [Option.map_none', Option.getD_none, Nat.zero_add]
      rw [Nat.mod_eq_of_lt (by omega)]
    | some a =>
      simp only [Option.map_some', Option.getD_some, add64, Nat.add_comm]
  have hep : new_drops_epoch s.stats from_ epoch amount
      = (((s.stats.find? (fun r => r.account == from_ && r.epoch == epoch)).map
            (fun x => x.drops)).getD 0 + amount) % 2 ^ 64 := by
    unfold new_drops_epoch
    cases s.stats.find? (fun r => r.account == from_ && r.epoch == epoch) with
    | none =>
      simp only [Option.map_none', Option.getD_none, Nat.zero_add]
      rw [Nat.mod_eq_of_lt (by omega)]
    | some a =>
      simp only [Option.map_some', Option.getD_some, add64, Nat.add_comm]
  refine ⟨⟨st, hst, he⟩, ?_, fun i => drop_id_eq h i data, hperm, ?_, rfl, htot, hep, ?_, ?_⟩
  · intro i hi
    rw [hperm.mem_iff]
    exact List.mem_append_left _ (List.mem_map.2 ⟨i, List.mem_range.2 hi, rfl⟩)
  · show amount % 2 ^ 32 = amount
    exact Nat.mod_eq_of_lt (by omega)
  · intro hlt
    rw [← Nat.mod_eq_of_lt hlt]
    exact htot
  · intro hlt
    rw [← Nat.mod_eq_of_lt hlt]
    exact hep

set_option maxRecDepth 100000 in
theorem generate_mints_rows_witness :
    (∀ i, i < 3 →
      ({ drops := drop_id example_host i "0123456789abcdef0123456789abcdefg",
         owner := alice, epoch := 1 } : drop_row) ∈ minted.drops) ∧
    drop_id example_host 0 "0123456789abcdef0123456789abcdefg" = 16049534613270587057 :=
  ⟨(generate_mints_rows example_host (example_ctx 1000000000) genesis alice
      example_host.self ⟨100000, example_host.EOS⟩ "3,0123456789abcdef0123456789abcdefg"
      1 3 "0123456789abcdef0123456789abcdefg" (by decide) rfl
      (minted, [effect.buyrambytes 7 7 1370, effect.token_transfer 7 alice ⟨98630, 1⟩ ""],
        { drops := 3, epoch := 1, cost := ⟨1370, 1⟩, refund := ⟨98630, 1⟩,
          total_drops := 3, epoch_drops := 3 }) rfl).2.1,
   rfl⟩

/-! ## Transfer: the drop rows -/

theorem find?_modify_key {α : Type} (key : α → Nat) (f : α → α) (hf : ∀ x, key (f x) = key x)
    (a b : Nat) (t : List α) :
    (modify (fun r => key r == a) f t).find? (fun r => key r == b)
      = if a = b then (t.find? (fun r => key r == b)).map f
        else t.find? (fun r => key r == b) := by
  induction t with
  | nil => simp [modify]
  | cons x t ih =>
    simp only [modify]
    by_cases hx : key x = a
    · rw [if_pos (by simpa using hx)]
      by_cases hab : a = b
      · rw [if_pos hab, List.find?_cons_of_pos _ (by simp [hf, hx, hab]),
          List.find?_cons_of_pos _ (by simp [hx, hab])]
        rfl
      · rw [if_neg hab, List.find?_cons_of_neg _ (by simp [hf, hx, hab]),
          List.find?_cons_of_neg _ (by simp [hx, hab])]
    · rw [if_neg (by simpa using hx)]
      by_cases hxb : key x = b
      · have hab : a ≠ b := fun hab => hx (hxb.trans hab.symm)
        rw [if_neg hab, List.find?_cons_of_pos _ (by simpa using hxb),
          List.find?_cons_of_pos _ (by simpa using hxb)]
      · rw [List.find?_cons_of_neg _ (by simpa using hxb), ih,
          List.find?_cons_of_neg _ (by simpa using hxb)]

theorem mem_modify_iff_of_key {α : Type} (key : α → Nat) (f : α → α)
    (hf : ∀ x, key (f x) = key x) (a : Nat) (t : List α) (d : α) (hd : key d ≠ a) :
    d ∈ modify (fun r => key r == a) f t ↔ d ∈ t := by
  constructor
  · intro hm
    rcases mem_modify _ _ _ _ hm with h1 | ⟨y, -, hy, rfl⟩
    · exact h1
    · exfalso
      apply hd
      rw [hf]
      simpa using hy
  · intro hm
    exact mem_modify_of_not _ _ _ _ hm (by simpa using hd)

/-- What the first loop of a successful `transfer` between two accounts has
done to the drop table: the ids are distinct, every listed id was found with
the owner `from` and is now found with the owner `to` and nothing else
changed; a lookup of another id gives what it gave, and the rows of other ids
are the same. -/
theorem transfer_drops_rows (from_ to_ : name) (hne : from_ ≠ to_) :
    ∀ (ids : List Nat) (drops : List drop_row) (m : List (Nat × Nat)) (drops1 : List drop_row)
      (m1 : List (Nat × Nat)),
      transfer_drops from_ to_ ids drops m = .ok (drops1, m1) →
      ids.Nodup ∧
      (∀ id ∈ ids, ∃ d, drops.find? (fun r => r.drops == id) = some d ∧ d.owner = from_ ∧
        drops1.find? (fun r => r.drops == id) = some { d with owner := to_ }) ∧
      (∀ id, id ∉ ids →
        drops1.find? (fun r => r.drops == id) = drops.find? (fun r => r.drops == id)) ∧
      (∀ d : drop_row, d.drops ∉ ids → (d ∈ drops1 ↔ d ∈ drops)) ∧
      drops1.map (fun r => r.drops) = drops.map (fun r => r.drops) := by
  intro ids
  induction ids with
  | nil =>
    intro drops m drops1 m1 hok
    simp only [transfer_drops] at hok
    injection hok with hok
    injection hok with h1 h2
    subst h1
    exact ⟨List.nodup_nil, fun id hid => absurd hid (List.not_mem_nil _), fun _ _ => rfl,
      fun _ _ => Iff.rfl, rfl⟩
  | cons id ids ih =>
    intro drops m drops1 m1 hok
    simp only [transfer_drops] at hok
    cases hf : drops.find? (fun r => r.drops == id) with
    | none => rw [hf] at hok; cases hok
    | some d =>
      rw [hf] at hok
      simp only [] at hok
      by_cases hown : d.owner ≠ from_
      · rw [if_pos hown] at hok; cases hok
      rw [if_neg hown] at hok
      have hown1 : d.owner = from_ := not_not.1 hown
      obtain ⟨hnd, hlisted, hother, hrows, hkeys⟩ := ih _ _ drops1 m1 hok
      have hkey := find?_modify_key (fun r : drop_row => r.drops)
        (fun r => { r with owner := to_ }) (fun _ => rfl) id
      have hnot : id ∉ ids := by
        intro hmem
        obtain ⟨d1, h1, h2, -⟩ := hlisted id hmem
        rw [hkey id drops, if_pos rfl, hf] at h1
        injection h1 with h1
        rw [← h1] at h2
        exact hne h2.symm
      refine ⟨List.nodup_cons.2 ⟨hnot, hnd⟩, ?_, ?_, ?_, ?_⟩
      · intro id1 hid1
        rcases List.mem_cons.1 hid1 with rfl | hmem
        · refine ⟨d, hf, hown1, ?_⟩
          rw [hother _ hnot, hkey _ drops, if_pos rfl, hf]
          rfl
        · obtain ⟨d1, h1, h2, h3⟩ := hlisted id1 hmem
          have hid : id ≠ id1 := fun hc => hnot (hc ▸ hmem)
          rw [hkey id1 drops, if_neg hid] at h1
          exact ⟨d1, h1, h2, h3⟩
      · intro id1 hid1
        rw [List.mem_cons, not_or] at hid1
        rw [hother id1 hid1.2, hkey id1 drops, if_neg (Ne.symm hid1.1)]
      · intro d1 hd1
        rw [List.mem_cons, not_or] at hd1
        rw [hrows d1 hd1.2]
        exact mem_modify_iff_of_key (fun r : drop_row => r.drops)
          (fun r => { r with owner := to_ }) (fun _ => rfl) id drops d1 hd1.1
      · rw [hkeys]
        exact map_modify _ _ _ _ (fun _ => rfl)

theorem listed_in_modify (f : drop_row → drop_row) (hf : ∀ x, (f x).drops = x.drops)
    (hfe : ∀ x, (f x).epoch = x.epoch) (id : Nat) (drops : List drop_row) (ids : List Nat)
    (e : Nat) :
    listed_in (modify (fun r => r.drops == id) f drops) ids e = listed_in drops ids e := by
  unfold listed_in
  congr 1
  funext id1
  rw [find?_modify_key (fun r : drop_row => r.drops) f hf id id1 drops]
  by_cases h : id = id1
  · rw [if_pos h]
    cases drops.find? (fun r => r.drops == id1) with
    | none => rfl
    | some d => simp [hfe]
  · rw [if_neg h]

/-- The number of drops an account owns, in all and per epoch, before and
after the first loop of a successful `transfer`. -/
theorem transfer_drops_tokens (from_ to_ : name) :
    ∀ (ids : List Nat) (drops : List drop_row) (m : List (Nat × Nat)) (drops1 : List drop_row)
      (m1 : List (Nat × Nat)),
      transfer_drops from_ to_ ids drops m = .ok (drops1, m1) →
      (∀ A, tokens_of drops1 A + (if A = from_ then ids.length else 0)
          = tokens_of drops A + (if A = to_ then ids.length else 0)) ∧
      (∀ A e, tokens_in drops1 A e + (if A = from_ then listed_in drops ids e else 0)
          = tokens_in drops A e + (if A = to_ then listed_in drops ids e else 0)) := by
  intro ids
  induction ids with
  | nil =>
    intro drops m drops1 m1 hok
    simp only [transfer_drops] at hok
    injection hok with hok
    injection hok with h1 h2
    subst h1
    simp [listed_in]
  | cons id ids ih =>
    intro drops m drops1 m1 hok
    simp only [transfer_drops] at hok
    cases hf : drops.find? (fun r => r.drops == id) with
    | none => rw [hf] at hok; cases hok
    | some d =>
      rw [hf] at hok
      simp only [] at hok
      by_cases hown : d.owner ≠ from_
      · rw [if_pos hown] at hok; cases hok
      rw [if_neg hown] at hok
      have hown1 : d.owner = from_ := not_not.1 hown
      obtain ⟨h1, h2⟩ := ih _ _ drops1 m1 hok
      constructor
      · intro A
        have hc := countP_modify (fun r : drop_row => r.drops == id) (fun r => r.owner == A)
          (fun r => { r with owner := to_ }) drops d hf
        have := h1 A
        unfold tokens_of at this ⊢
        simp only [beq_iff_eq, hown1, @eq_comm _ from_ A, @eq_comm _ to_ A] at hc
        rw [List.length_cons]
        split_ifs at hc this ⊢ <;> omega
      · intro A e
        have hc := countP_modify (fun r : drop_row => r.drops == id)
          (fun r => r.owner == A && r.epoch == e)
          (fun r => { r with owner := to_ }) drops d hf
        have := h2 A e
        rw [listed_in_modify (fun r => { r with owner := to_ }) (fun _ => rfl) (fun _ => rfl)]
          at this
        have hl : listed_in drops (id :: ids) e
            = listed_in drops ids e + (if d.epoch = e then 1 else 0) := by
          unfold listed_in
          rw [List.countP_cons, hf]
          simp
        rw [hl]
        unfold tokens_in at this ⊢
        simp only [Bool.and_eq_true, beq_iff_eq, hown1, @eq_comm _ from_ A, @eq_comm _ to_ A]
          at hc
        split_ifs at hc this ⊢ <;> simp_all <;> omega

/-! ## Transfer: the balances -/

/-- In a storage with the ledger invariant and fewer than `2^64` drops the
total in the account row of an account is the number of drops it owns. -/
theorem account_total_eq (s : State) (hi : ledger_inv s) (hcap : s.drops.length < 2 ^ 64)
    (A : name) : account_total s.accounts A = tokens_of s.drops A := by
  have hlt : tokens_of s.drops A < 2 ^ 64 := lt_of_le_of_lt (List.countP_le_length _) hcap
  have h1 := hi.accounts A
  unfold account_total
  cases hf : s.accounts.find? (fun r => r.account == A) with
  | none =>
    rw [hf] at h1
    simp only [] at h1
    have h2 : ((tokens_of s.drops A : Nat) : ZMod (2 ^ 64)) = ((0 : Nat) : ZMod (2 ^ 64)) := by
      rw [h1, Nat.cast_zero]
    exact (eq_of_cast_eq _ _ hlt (by norm_num) h2).symm
  | some a =>
    rw [hf] at h1
    simp only [] at h1
    exact eq_of_cast_eq _ _ h1.1 hlt h1.2

/-- In a storage with the ledger invariant and fewer than `2^64` drops the
count in the stat row found for an account and an epoch is the number of
drops the account owns that were created in the epoch. -/
theorem stat_total_eq (s : State) (hi : ledger_inv s) (hcap : s.drops.length < 2 ^ 64)
    (A : name) (e : Nat) : stat_total s.stats A e = tokens_in s.drops A e := by
  have hlt : tokens_in s.drops A e < 2 ^ 64 := lt_of_le_of_lt (List.countP_le_length _) hcap
  have h1 := hi.stats A e
  unfold stat_total
  rw [find?_eq_head?_filter]
  unfold stat_counts at h1
  rcases h1 with ⟨h2, h3⟩ | ⟨x, k, h2, hx, h3⟩
  · rw [List.map_eq_nil_iff] at h2
    rw [h2]
    have h4 : ((tokens_in s.drops A e : Nat) : ZMod (2 ^ 64)) = ((0 : Nat) : ZMod (2 ^ 64)) := by
      rw [Nat.cast_zero]; exact h3
    exact (eq_of_cast_eq _ _ hlt (by norm_num) h4).symm
  · cases hflt : s.stats.filter (fun r => r.account == A && r.epoch == e) with
    | nil => rw [hflt] at h2; cases h2
    | cons y t =>
      rw [hflt] at h2
      simp only [List.map_cons, List.cons.injEq] at h2
      simp only [List.head?_cons, Option.map_some', Option.getD_some]
      rw [h2.1]
      exact eq_of_cast_eq _ _ hx hlt h3

theorem move_balance_find (accounts accounts1 : List account_row) (from_ to_ : name) (n : Nat)
    (hm : move_balance accounts from_ to_ n = .ok accounts1) :
    ∃ a, accounts1.find? (fun r => r.account == to_) = some a := by
  unfold move_balance at hm
  cases hf : accounts.find? (fun r => r.account == from_) with
  | none => rw [hf] at hm; cases hm
  | some a =>
    rw [hf] at hm
    simp only [] at hm
    cases ht : (debit_account accounts from_ n).find? (fun r => r.account == to_) with
    | some b =>
      rw [ht] at hm
      simp only [] at hm
      injection hm with hm
      rw [← hm]
      exact ⟨_, find?_modify_same _ _ _ b (fun x hx => hx) ht⟩
    | none =>
      rw [ht] at hm
      simp only [] at hm
      cases he : emplace (fun r : account_row => r.account) { account := to_, drops := n % 2 ^ 64 }
          (debit_account accounts from_ n) with
      | none => rw [he] at hm; cases hm
      | some t =>
        rw [he] at hm
        injection hm with hm
        obtain ⟨hfresh, hins⟩ := (emplace_eq_some _ _ _ _).1 he
        rw [← hm, hins]
        exact ⟨_, find?_insert_row_self (fun r : account_row => r.account) _ _ hfresh⟩

/-- C20: in a reachable storage with fewer than `2^64` drops, a `transfer` of
the drops `ids` from `from` to another account `to` fails, leaving the
storage as it was, when one of the ids is not in the drop table or belongs to
an account other than `from`. When it succeeds, every listed id was found
with the owner `from` and is now found with the owner `to`, its creation
epoch and id unchanged; the rows of the other ids are the same as before; the
total of `from` is down by the number of ids and the total of `to`, who has
an account row now, is up by it; and for every epoch the count of `from` is
down, and the count of `to` up, by the number of listed drops created in that
epoch (totals and counts of missing rows read as zero). -/
theorem transfer_moves_drops (h : Host) (c : Ctx) (s : State) (hr : Reachable h s)
    (hcap : s.drops.length < 2 ^ 64) (from_ to_ : name) (hne : from_ ≠ to_) (ids : List Nat) :
    ((∃ id ∈ ids, ∀ d, s.drops.find? (fun r => r.drops == id) = some d → d.owner ≠ from_) →
      (∃ msg, transfer c s from_ to_ ids = .error msg) ∧
      commit_or_rollback s ((transfer c s from_ to_ ids).map (fun r => r.1)) = s) ∧
    ∀ r, transfer c s from_ to_ ids = .ok r →
      (∀ id ∈ ids, ∃ d, s.drops.find? (fun r => r.drops == id) = some d ∧ d.owner = from_ ∧
        r.1.drops.find? (fun r => r.drops == id) = some { d with owner := to_ }) ∧
      (∀ d : drop_row, d.drops ∉ ids → (d ∈ r.1.drops ↔ d ∈ s.drops)) ∧
      account_total r.1.accounts from_ + ids.length = account_total s.accounts from_ ∧
      account_total r.1.accounts to_ = account_total s.accounts to_ + ids.length ∧
      (∃ a, r.1.accounts.find? (fun r => r.account == to_) = some a) ∧
      ∀ e, stat_total r.1.stats from_ e + listed_in s.drops ids e = stat_total s.stats from_ e ∧
        stat_total r.1.stats to_ e = stat_total s.stats to_ e + listed_in s.drops ids e := by
  have hi := reachable_ledger_inv h s hr
  have key : ∀ r, transfer c s from_ to_ ids = .ok r →
      ∃ drops1 m, transfer_drops from_ to_ ids s.drops [] = .ok (drops1, m) ∧
        r.1.drops = drops1 ∧
        ∃ a, r.1.accounts.find? (fun r => r.account == to_) = some a := by
    intro r hok
    obtain ⟨st, drops1, m, accounts1, stats1, stats2, -, -, htd, hmb, -, -, h1⟩ :=
      transfer_ok c s from_ to_ ids r hok
    refine ⟨drops1, m, htd, by rw [h1], ?_⟩
    rw [h1]
    exact move_balance_find s.accounts accounts1 from_ to_ ids.length hmb
  constructor
  · rintro ⟨id, hid, hbad⟩
    cases hres : transfer c s from_ to_ ids with
    | error msg => exact ⟨⟨msg, rfl⟩, rfl⟩
    | ok r =>
      obtain ⟨drops1, m, htd, -, -⟩ := key r hres
      obtain ⟨-, hlisted, -⟩ := transfer_drops_rows from_ to_ hne ids s.drops [] drops1 m htd
      obtain ⟨d, hd, hown, -⟩ := hlisted id hid
      exact absurd hown (hbad d hd)
  · intro r hok
    obtain ⟨drops1, m, htd, hdrops, hto⟩ := key r hok
    obtain ⟨-, hlisted, -, hrows, hkeys⟩ :=
      transfer_drops_rows from_ to_ hne ids s.drops [] drops1 m htd
    obtain ⟨htot, hin⟩ := transfer_drops_tokens from_ to_ ids s.drops [] drops1 m htd
    have hi1 := ledger_inv_transfer c s from_ to_ ids r hi hok
    have hcap1 : r.1.drops.length < 2 ^ 64 := by
      rw [hdrops, ← List.length_map drops1 (fun r => r.drops), hkeys, List.length_map]
      exact hcap
    have hne1 : ¬ to_ = from_ := fun hc => hne hc.symm
    refine ⟨?_, ?_, ?_, ?_, hto, ?_⟩
    · rw [hdrops]; exact hlisted
    · rw [hdrops]; exact hrows
    · rw [account_total_eq r.1 hi1 hcap1, account_total_eq s hi hcap, hdrops]
      have := htot from_
      rw [if_pos rfl, if_neg hne, Nat.add_zero] at this
      exact this
    · rw [account_total_eq r.1 hi1 hcap1, account_total_eq s hi hcap, hdrops]
      have := htot to_
      rw [if_pos rfl, if_neg hne1, Nat.add_zero] at this
      exact this
    · intro e
      rw [stat_total_eq r.1 hi1 hcap1, stat_total_eq s hi hcap, stat_total_eq r.1 hi1 hcap1,
        stat_total_eq s hi hcap, hdrops]
      constructor
      · have := hin from_ e
        rw [if_pos rfl, if_neg hne, Nat.add_zero] at this
        exact this
      · have := hin to_ e
        rw [if_pos rfl, if_neg hne1, Nat.add_zero] at this
        exact this

set_option maxRecDepth 100000 in
theorem transfer_moves_drops_witness :
    account_total traded.accounts alice + 1 = account_total minted.accounts alice ∧
    account_total traded.accounts bob = account_total minted.accounts bob + 1 ∧
    traded.drops.find? (fun r => r.drops == 16049534613270587057)
      = some { drops := 16049534613270587057, owner := bob, epoch := 1 } :=
  have hw := (transfer_moves_drops example_host (example_ctx 1000000000) minted reachable_minted
    (by decide) alice bob (by decide)
    [drop_id example_host 0 "0123456789abcdef0123456789abcdefg"]).2
    (traded, [effect.require_recipient alice, effect.require_recipient bob]) rfl
  ⟨hw.2.2.1, hw.2.2.2.1, rfl⟩

/-! ## The drop table is kept in the order of its primary key -/

theorem pairwise_lt_insert_row {α : Type} (key : α → Nat) (r : α) (t : List α)
    (ht : t.Pairwise (fun a b => key a < key b)) (hfresh : ∀ x ∈ t, key x ≠ key r) :
    (insert_row key r t).Pairwise (fun a b => key a < key b) := by
  induction t with
  | nil => simp [insert_row]
  | cons x t ih =>
    obtain ⟨hx, ht1⟩ := List.pairwise_cons.1 ht
    simp only [insert_row]
    by_cases hlt : key r < key x
    · rw [if_pos hlt]
      refine List.pairwise_cons.2 ⟨?_, ht⟩
      intro y hy
      rcases List.mem_cons.1 hy with rfl | hy
      · exact hlt
      · exact lt_trans hlt (hx y hy)
    · rw [if_neg hlt]
      have hne := hfresh x (List.mem_cons_self _ _)
      refine List.pairwise_cons.2 ⟨?_, ih ht1 (fun y hy => hfresh y (List.mem_cons_of_mem _ hy))⟩
      intro y hy
      rcases (mem_insert_row key r y t).1 hy with rfl | hy
      · omega
      · exact hx y hy

theorem pairwise_lt_emplace {α : Type} (key : α → Nat) (r : α) (t t1 : List α)
    (ht : t.Pairwise (fun a b => key a < key b)) (hem : emplace key r t = some t1) :
    t1.Pairwise (fun a b => key a < key b) := by
  obtain ⟨hfresh, rfl⟩ := (emplace_eq_some _ _ _ _).1 hem
  exact pairwise_lt_insert_row key r t ht hfresh

theorem pairwise_lt_modify {α : Type} (key : α → Nat) (p : α → Bool) (f : α → α) (t : List α)
    (hf : ∀ x, key (f x) = key x) (ht : t.Pairwise (fun a b => key a < key b)) :
    (modify p f t).Pairwise (fun a b => key a < key b) := by
  have h1 : (t.map key).Pairwise (fun a b => a < b) := List.pairwise_map.2 ht
  rw [← map_modify key p f t hf] at h1
  exact List.pairwise_map.1 h1

theorem pairwise_ne_of_lt {α : Type} (key : α → Nat) (t : List α)
    (ht : t.Pairwise (fun a b => key a < key b)) : t.Pairwise (fun a b => key a ≠ key b) :=
  ht.imp (fun hab => Nat.ne_of_lt hab)

/-- Two tables in primary-key order with the same rows are the same table. -/
theorem eq_of_pairwise_lt_of_mem {α : Type} (key : α → Nat) (t u : List α)
    (ht : t.Pairwise (fun a b => key a < key b)) (hu : u.Pairwise (fun a b => key a < key b))
    (hmem : ∀ x, x ∈ t ↔ x ∈ u) : t = u := by
  induction t generalizing u with
  | nil =>
    cases u with
    | nil => rfl
    | cons y u => exact absurd ((hmem y).2 (List.mem_cons_self _ _)) (List.not_mem_nil _)
  | cons x t ih =>
    cases u with
    | nil => exact absurd ((hmem x).1 (List.mem_cons_self _ _)) (List.not_mem_nil _)
    | cons y u =>
      obtain ⟨hx, ht1⟩ := List.pairwise_cons.1 ht
      obtain ⟨hy, hu1⟩ := List.pairwise_cons.1 hu
      have hxy : x = y := by
        rcases List.mem_cons.1 ((hmem x).1 (List.mem_cons_self _ _)) with h1 | h1
        · exact h1
        · rcases List.mem_cons.1 ((hmem y).2 (List.mem_cons_self _ _)) with h2 | h2
          · exact h2.symm
          · have := hy x h1
            have := hx y h2
            omega
      subst hxy
      congr 1
      apply ih u ht1 hu1
      intro z
      constructor
      · intro hz
        rcases List.mem_cons.1 ((hmem z).1 (List.mem_cons_of_mem _ hz)) with h1 | h1
        · have := hx z hz
          rw [h1] at this
          omega
        · exact h1
      · intro hz
        rcases List.mem_cons.1 ((hmem z).2 (List.mem_cons_of_mem _ hz)) with h1 | h1
        · have := hy z hz
          rw [h1] at this
          omega
        · exact h1

theorem generate_drops_sorted (h : Host) (from_ : name) (epoch : Nat) (data : String) :
    ∀ (n i : Nat) (drops drops1 : List drop_row),
      generate_drops h from_ epoch data i n drops = some drops1 →
      drops.Pairwise (fun a b => a.drops < b.drops) →
      drops1.Pairwise (fun a b => a.drops < b.drops) := by
  intro n
  induction n with
  | zero =>
    intro i drops drops1 hg hs
    simp only [generate_drops] at hg
    injection hg with hg
    rw [← hg]; exact hs
  | succ n ih =>
    intro i drops drops1 hg hs
    simp only [generate_drops] at hg
    cases he : emplace (fun r : drop_row => r.drops)
        { drops := drop_id h i data, owner := from_, epoch := epoch } drops with
    | none => rw [he] at hg; cases hg
    | some drops0 =>
      rw [he] at hg
      exact ih (i + 1) drops0 drops1 hg (pairwise_lt_emplace _ _ _ _ hs he)

theorem transfer_drops_keys (from_ to_ : name) :
    ∀ (ids : List Nat) (drops : List drop_row) (m : List (Nat × Nat)) (drops1 : List drop_row)
      (m1 : List (Nat × Nat)),
      transfer_drops from_ to_ ids drops m = .ok (drops1, m1) →
      drops1.map (fun r => r.drops) = drops.map (fun r => r.drops) := by
  intro ids
  induction ids with
  | nil =>
    intro drops m drops1 m1 hok
    simp only [transfer_drops] at hok
    injection hok with hok
    injection hok with h1 h2
    rw [h1]
  | cons id ids ih =>
    intro drops m drops1 m1 hok
    simp only [transfer_drops] at hok
    cases hf : drops.find? (fun r => r.drops == id) with
    | none => rw [hf] at hok; cases hok
    | some d =>
      rw [hf] at hok
      simp only [] at hok
      by_cases hown : d.owner ≠ from_
      · rw [if_pos hown] at hok; cases hok
      rw [if_neg hown] at hok
      rw [ih _ _ drops1 m1 hok]
      exact map_modify _ _ _ _ (fun _ => rfl)

theorem destroy_drops_sublist (owner : name) :
    ∀ (ids : List Nat) (drops : List drop_row) (m : List (Nat × Nat)) (drops1 : List drop_row)
      (m1 : List (Nat × Nat)),
      destroy_drops owner ids drops m = .ok (drops1, m1) → drops1.Sublist drops := by
  intro ids
  induction ids with
  | nil =>
    intro drops m drops1 m1 hok
    simp only [destroy_drops] at hok
    injection hok with hok
    injection hok with h1 h2
    rw [h1]
  | cons id ids ih =>
    intro drops m drops1 m1 hok
    simp only [destroy_drops] at hok
    cases hf : drops.find? (fun r => r.drops == id) with
    | none => rw [hf] at hok; cases hok
    | some d =>
      rw [hf] at hok
      simp only [] at hok
      by_cases hown : d.owner ≠ owner
      · rw [if_pos hown] at hok; cases hok
      rw [if_neg hown] at hok
      exact (ih _ _ drops1 m1 hok).trans (List.eraseP_sublist _)

/-- Every successful call keeps the drop table in the order of its primary
key, without two rows of one id. -/
theorem drops_sorted_step (h : Host) (c : Ctx) (a : call) (s s1 : State)
    (hi : s.drops.Pairwise (fun a b => a.drops < b.drops))
    (hok : exec h c s a = .ok s1) : s1.drops.Pairwise (fun a b => a.drops < b.drops) := by
  cases a with
  | init =>
    obtain ⟨accounts1, epochs1, drops1, stats1, -, -, -, hd, -, rfl⟩ := init_ok h c s s1 hok
    exact pairwise_lt_emplace _ _ _ _ hi hd
  | enable enabled =>
    simp only [exec, enable] at hok
    split at hok
    · cases hok
    · injection hok with hok
      subst hok
      exact hi
  | addoracle oracle =>
    simp only [exec, addoracle] at hok
    split at hok
    · cases hok
    · split at hok
      · cases hok
      · injection hok with hok
        subst hok
        exact hi
  | removeoracle oracle =>
    simp only [exec, removeoracle] at hok
    split at hok
    · cases hok
    · injection hok with hok
      subst hok
      exact hi
  | subscribe subscriber =>
    simp only [exec, subscribe] at hok
    split at hok
    · cases hok
    · split at hok
      · cases hok
      · injection hok with hok
        subst hok
        exact hi
  | unsubscribe subscriber =>
    simp only [exec, unsubscribe] at hok
    split at hok
    · cases hok
    · injection hok with hok
      subst hok
      exact hi
  | advance =>
    obtain ⟨r, hr, rfl⟩ := map_eq_ok _ _ _ hok
    refine advance_keeps h c (fun t => t.drops.Pairwise (fun a b => a.drops < b.drops))
      ?_ s r hi hr
    intro t t1 out row ht hstep
    obtain ⟨st, cur, -, -, -, -, -, -, -, -, rfl⟩ := advance_epoch_ok h c t t1 out row hstep
    exact ht
  | generate from_ to_ quantity memo =>
    obtain ⟨r, hr, rfl⟩ := map_eq_ok _ _ _ hok
    rcases generate_ok h c s from_ to_ quantity memo r hr with
      h1 | ⟨epoch, amount, data, drops1, _, _, -, hgd, -, -, h1⟩
    · rw [h1]; exact hi
    · rw [h1]; exact generate_drops_sorted h from_ epoch data amount 0 s.drops drops1 hgd hi
  | transfer from_ to_ ids =>
    obtain ⟨r, hr, rfl⟩ := map_eq_ok _ _ _ hok
    obtain ⟨_, drops1, m, _, _, _, -, -, htd, -, -, -, h1⟩ := transfer_ok c s from_ to_ ids r hr
    rw [h1]
    have hk := transfer_drops_keys from_ to_ ids s.drops [] drops1 m htd
    have h2 : (s.drops.map (fun r => r.drops)).Pairwise (fun a b => a < b) :=
      List.pairwise_map.2 hi
    rw [← hk] at h2
    exact List.pairwise_map.1 h2
  | destroy owner ids =>
    obtain ⟨r, hr, rfl⟩ := map_eq_ok _ _ _ hok
    obtain ⟨_, drops1, m, _, _, -, -, hdd, -, -, h1⟩ := destroy_ok h c s owner ids r hr
    rw [h1]
    exact hi.sublist (destroy_drops_sublist owner ids s.drops [] drops1 m hdd)
  | destroyall =>
    simp only [exec, destroyall, Except.map] at hok
    injection hok with hok
    subst hok
    exact List.Pairwise.nil
  | enroll account epoch =>
    obtain ⟨_, _, -, -, rfl⟩ := enroll_ok s s1 account epoch hok
    exact hi
  | commit oracle epoch cm =>
    obtain ⟨st, e, -, -, -, -, -, -, -, rfl⟩ := commit_ok c s s1 oracle epoch cm hok
    exact hi
  | reveal oracle epoch rv =>
    obtain ⟨st, e, cm, -, -, -, -, -, -, -, -, hcomp⟩ := reveal_ok h c s s1 oracle epoch rv hok
    rcases complete_if_revealed_ok h _ s1 e epoch hcomp with ⟨-, rfl⟩ | ⟨-, v, -, -, rfl⟩
    · exact hi
    · exact hi
  | finishreveal epoch =>
    obtain ⟨e, -, -, hcomp⟩ := finishreveal_ok h s s1 epoch hok
    rcases complete_if_revealed_ok h s s1 e epoch hcomp with ⟨-, rfl⟩ | ⟨-, v, -, -, rfl⟩
    · exact hi
    · exact hi

/-- In every reachable storage the drop table is in the order of its primary
key, without two rows of one id. -/
theorem reachable_drops_sorted (h : Host) (s : State) (hr : Reachable h s) :
    s.drops.Pairwise (fun a b => a.drops < b.drops) := by
  induction hr with
  | empty => exact List.Pairwise.nil
  | step c a _ hok ih => exact drops_sorted_step h c a _ _ ih hok

/-! ## Destruction: the drop rows -/

theorem mem_eraseP_key {α : Type} (key : α → Nat) (id : Nat) (t : List α) (x : α)
    (ht : t.Pairwise (fun a b => key a ≠ key b)) :
    x ∈ t.eraseP (fun r => key r == id) ↔ x ∈ t ∧ key x ≠ id := by
  induction t with
  | nil => simp
  | cons y t ih =>
    obtain ⟨hy, ht1⟩ := List.pairwise_cons.1 ht
    by_cases hp : key y = id
    · rw [List.eraseP_cons_of_pos (by simpa using hp)]
      constructor
      · intro hx
        exact ⟨List.mem_cons_of_mem _ hx, fun hc => hy x hx (hp.trans hc.symm)⟩
      · rintro ⟨hx, hne⟩
        rcases List.mem_cons.1 hx with rfl | hx
        · exact absurd hp hne
        · exact hx
    · rw [List.eraseP_cons_of_neg (by simpa using hp), List.mem_cons, ih ht1, List.mem_cons]
      constructor
      · rintro (rfl | ⟨h1, h2⟩)
        · exact ⟨Or.inl rfl, hp⟩
        · exact ⟨Or.inr h1, h2⟩
      · rintro ⟨rfl | h1, h2⟩
        · exact Or.inl rfl
        · exact Or.inr ⟨h1, h2⟩

theorem find?_eraseP_key {α : Type} (key : α → Nat) (a b : Nat) (hab : a ≠ b) (t : List α) :
    (t.eraseP (fun r => key r == a)).find? (fun r => key r == b)
      = t.find? (fun r => key r == b) := by
  induction t with
  | nil => rfl
  | cons y t ih =>
    by_cases hp : key y = a
    · rw [List.eraseP_cons_of_pos (by simpa using hp),
        List.find?_cons_of_neg _ (by simpa [hp] using hab)]
    · rw [List.eraseP_cons_of_neg (by simpa using hp)]
      by_cases hq : key y = b
      · rw [List.find?_cons_of_pos _ (by simpa using hq),
          List.find?_cons_of_pos _ (by simpa using hq)]
      · rw [List.find?_cons_of_neg _ (by simpa using hq),
          List.find?_cons_of_neg _ (by simpa using hq), ih]

/-- What the first loop of a successful `destroy` has done to a drop table
without two rows of one id: the ids are distinct, every listed id was found
with the owner `owner`, and the rows left are the rows of the other ids. -/
theorem destroy_drops_rows (owner : name) :
    ∀ (ids : List Nat) (drops : List drop_row) (m : List (Nat × Nat)) (drops1 : List drop_row)
      (m1 : List (Nat × Nat)),
      destroy_drops owner ids drops m = .ok (drops1, m1) →
      drops.Pairwise (fun a b => a.drops ≠ b.drops) →
      ids.Nodup ∧
      (∀ id ∈ ids, ∃ d, drops.find? (fun r => r.drops == id) = some d ∧ d.owner = owner) ∧
      (∀ d : drop_row, d ∈ drops1 ↔ d ∈ drops ∧ d.drops ∉ ids) := by
  intro ids
  induction ids with
  | nil =>
    intro drops m drops1 m1 hok _
    simp only [destroy_drops] at hok
    injection hok with hok
    injection hok with h1 h2
    subst h1
    exact ⟨List.nodup_nil, fun id hid => absurd hid (List.not_mem_nil _),
      fun d => by simp⟩
  | cons id ids ih =>
    intro drops m drops1 m1 hok hu
    simp only [destroy_drops] at hok
    cases hf : drops.find? (fun r => r.drops == id) with
    | none => rw [hf] at hok; cases hok
    | some d =>
      rw [hf] at hok
      simp only [] at hok
      by_cases hown : d.owner ≠ owner
      · rw [if_pos hown] at hok; cases hok
      rw [if_neg hown] at hok
      have hown1 : d.owner = owner := not_not.1 hown
      have hu1 : (drops.eraseP (fun r => r.drops == id)).Pairwise
          (fun a b => a.drops ≠ b.drops) := hu.sublist (List.eraseP_sublist _)
      obtain ⟨hnd, hlisted, hrows⟩ := ih _ _ drops1 m1 hok hu1
      have hmem := fun x => mem_eraseP_key (fun r : drop_row => r.drops) id drops x hu
      have hnot : id ∉ ids := by
        intro hin
        obtain ⟨d1, h1, -⟩ := hlisted id hin
        have h2 := List.mem_of_find?_eq_some h1
        have h3 : d1.drops = id := by simpa using List.find?_some h1
        exact ((hmem d1).1 h2).2 h3
      refine ⟨List.nodup_cons.2 ⟨hnot, hnd⟩, ?_, ?_⟩
      · intro id1 hid1
        rcases List.mem_cons.1 hid1 with rfl | hin
        · exact ⟨d, hf, hown1⟩
        · obtain ⟨d1, h1, h2⟩ := hlisted id1 hin
          have hne : id ≠ id1 := fun hc => hnot (hc ▸ hin)
          rw [find?_eraseP_key (fun r : drop_row => r.drops) id id1 hne] at h1
          exact ⟨d1, h1, h2⟩
      · intro x
        rw [hrows x, hmem x, List.mem_cons, not_or]
        constructor
        · rintro ⟨⟨h1, h2⟩, h3⟩
          exact ⟨h1, h2, h3⟩
        · rintro ⟨h1, h2, h3⟩
          exact ⟨⟨h1, h2⟩, h3⟩

theorem listed_in_eraseP (id : Nat) (drops : List drop_row) (ids : List Nat) (hnot : id ∉ ids)
    (e : Nat) :
    listed_in (drops.eraseP (fun r => r.drops == id)) ids e = listed_in drops ids e := by
  unfold listed_in
  apply List.countP_congr
  intro id1 hid1
  have hne : id ≠ id1 := fun hc => hnot (hc ▸ hid1)
  rw [find?_eraseP_key (fun r : drop_row => r.drops) id id1 hne]

/-- The number of drops an account owns, in all and per epoch, before and
after the first loop of a successful `destroy`. -/
theorem destroy_drops_tokens (owner : name) :
    ∀ (ids : List Nat) (drops : List drop_row) (m : List (Nat × Nat)) (drops1 : List drop_row)
      (m1 : List (Nat × Nat)),
      destroy_drops owner ids drops m = .ok (drops1, m1) →
      drops.Pairwise (fun a b => a.drops ≠ b.drops) →
      (∀ A, tokens_of drops1 A + (if A = owner then ids.length else 0) = tokens_of drops A) ∧
      (∀ A e, tokens_in drops1 A e + (if A = owner then listed_in drops ids e else 0)
          = tokens_in drops A e) ∧
      drops1.length + ids.length = drops.length := by
  intro ids
  induction ids with
  | nil =>
    intro drops m drops1 m1 hok _
    simp only [destroy_drops] at hok
    injection hok with hok
    injection hok with h1 h2
    subst h1
    simp [listed_in]
  | cons id ids ih =>
    intro drops m drops1 m1 hok hu
    obtain ⟨hnd, -, -⟩ := destroy_drops_rows owner (id :: ids) drops m drops1 m1 hok hu
    have hnot : id ∉ ids := (List.nodup_cons.1 hnd).1
    simp only [destroy_drops] at hok
    cases hf : drops.find? (fun r => r.drops == id) with
    | none => rw [hf] at hok; cases hok
    | some d =>
      rw [hf] at hok
      simp only [] at hok
      by_cases hown : d.owner ≠ owner
      · rw [if_pos hown] at hok; cases hok
      rw [if_neg hown] at hok
      have hown1 : d.owner = owner := not_not.1 hown
      obtain ⟨h1, h2, h3⟩ := ih _ _ drops1 m1 hok (hu.sublist (List.eraseP_sublist _))
      refine ⟨?_, ?_, ?_⟩
      · intro A
        have hc := countP_eraseP (fun r : drop_row => r.drops == id) (fun r => r.owner == A)
          drops d hf
        have := h1 A
        unfold tokens_of at this ⊢
        simp only [beq_iff_eq, hown1, @eq_comm _ owner A] at hc
        rw [List.length_cons]
        split_ifs at hc this ⊢ <;> omega
      · intro A e
        have hc := countP_eraseP (fun r : drop_row => r.drops == id)
          (fun r => r.owner == A && r.epoch == e) drops d hf
        have := h2 A e
        rw [listed_in_eraseP id drops ids hnot] at this
        have hl : listed_in drops (id :: ids) e
            = listed_in drops ids e + (if d.epoch = e then 1 else 0) := by
          unfold listed_in
          rw [List.countP_cons, hf]
          simp
        rw [hl]
        unfold tokens_in at this ⊢
        simp only [Bool.and_eq_true, beq_iff_eq, hown1, @eq_comm _ owner A] at hc
        split_ifs at hc this ⊢
        all_goals simp_all
        all_goals omega
      · have hlen := List.length_eraseP_of_mem (List.mem_of_find?_eq_some hf)
          (List.find?_some hf)
        have hpos : 0 < drops.length :=
          List.length_pos_of_mem (List.mem_of_find?_eq_some hf)
        rw [List.length_cons]
        omega

/-- The actions a successful `destroy` sends and the record it returns. -/
theorem destroy_outputs (h : Host) (c : Ctx) (s : State) (owner : name) (ids : List Nat)
    (r : State × List effect × destroy_return_value)
    (hok : destroy h c s owner ids = .ok r) :
    r.2.1 = [effect.sellram h.self (ids.length * h.record_size % 2 ^ 64),
             effect.token_transfer h.self owner
               ⟨c.ramproceedstminusfee (ids.length * h.record_size % 2 ^ 64), h.EOS⟩
               ("Reclaimed RAM value of " ++ Nat.repr ids.length ++ " drops(s)")] ∧
    r.2.2 = { ram_sold := ids.length * h.record_size % 2 ^ 64,
              redeemed := ⟨c.ramproceedstminusfee (ids.length * h.record_size % 2 ^ 64),
                h.EOS⟩ } := by
  unfold destroy at hok
  cases hst : s.state with
  | none => rw [hst] at hok; cases hok
  | some st =>
    rw [hst] at hok
    simp only [] at hok
    by_cases hen : st.enabled = false
    · rw [if_pos hen] at hok; cases hok
    rw [if_neg hen] at hok
    by_cases hl : ids.length = 0
    · rw [if_pos hl] at hok; cases hok
    rw [if_neg hl] at hok
    cases htd : destroy_drops owner ids s.drops [] with
    | error e => rw [htd] at hok; cases hok
    | ok v =>
      obtain ⟨drops1, m⟩ := v
      rw [htd] at hok
      simp only [] at hok
      cases hds : decrement_stats owner m s.stats with
      | error e => rw [hds] at hok; cases hok
      | ok stats1 =>
        rw [hds] at hok
        simp only [] at hok
        cases hac : s.accounts.find? (fun r => r.account == owner) with
        | none => rw [hac] at hok; cases hok
        | some a =>
          rw [hac] at hok
          injection hok with hok
          rw [← hok]
          exact ⟨rfl, rfl⟩

/-- C21: in a reachable storage with fewer than `2^64` drops, a `destroy` of
the drops `ids` of `owner` fails, leaving the storage as it was, when one of
the ids is not in the drop table or belongs to another account. When it
succeeds, every listed id was found with the owner `owner`, the rows left are
exactly the rows of the other ids, unchanged; the total of `owner` is down by
the number of ids and, for every epoch, the count of `owner` is down by the
number of listed drops created in that epoch; the record returned carries
`|ids| * record_size` bytes (as a `uint64_t`) and the proceeds of selling that
many bytes, and these are the amounts of the `sellram` action and of the
transfer to `owner`. -/
theorem destroy_removes_drops (h : Host) (c : Ctx) (s : State) (hr : Reachable h s)
    (hcap : s.drops.length < 2 ^ 64) (owner : name) (ids : List Nat) :
    ((∃ id ∈ ids, ∀ d, s.drops.find? (fun r => r.drops == id) = some d → d.owner ≠ owner) →
      (∃ msg, destroy h c s owner ids = .error msg) ∧
      commit_or_rollback s ((destroy h c s owner ids).map (fun r => r.1)) = s) ∧
    ∀ r, destroy h c s owner ids = .ok r →
      (∀ id ∈ ids, ∃ d, s.drops.find? (fun r => r.drops == id) = some d ∧ d.owner = owner) ∧
      (∀ d : drop_row, d ∈ r.1.drops ↔ d ∈ s.drops ∧ d.drops ∉ ids) ∧
      r.1.drops.length + ids.length = s.drops.length ∧
      account_total r.1.accounts owner + ids.length = account_total s.accounts owner ∧
      (∀ e, stat_total r.1.stats owner e + listed_in s.drops ids e
        = stat_total s.stats owner e) ∧
      r.2.2.ram_sold = ids.length * h.record_size % 2 ^ 64 ∧
      (ids.length * h.record_size < 2 ^ 64 → r.2.2.ram_sold = ids.length * h.record_size) ∧
      r.2.2.redeemed = ⟨c.ramproceedstminusfee r.2.2.ram_sold, h.EOS⟩ ∧
      r.2.1 = [effect.sellram h.self r.2.2.ram_sold,
               effect.token_transfer h.self owner r.2.2.redeemed
                 ("Reclaimed RAM value of " ++ Nat.repr ids.length ++ " drops(s)")] := by
  have hi := reachable_ledger_inv h s hr
  have hu := pairwise_ne_of_lt (fun r : drop_row => r.drops) s.drops
    (reachable_drops_sorted h s hr)
  have key : ∀ r, destroy h c s owner ids = .ok r →
      ∃ drops1 m, destroy_drops owner ids s.drops [] = .ok (drops1, m) ∧ r.1.drops = drops1 := by
    intro r hok
    obtain ⟨st, drops1, m, stats1, a, -, -, hdd, -, -, h1⟩ := destroy_ok h c s owner ids r hok
    exact ⟨drops1, m, hdd, by rw [h1]⟩
  constructor
  · rintro ⟨id, hid, hbad⟩
    cases hres : destroy h c s owner ids with
    | error msg => exact ⟨⟨msg, rfl⟩, rfl⟩
    | ok r =>
      obtain ⟨drops1, m, hdd, -⟩ := key r hres
      obtain ⟨-, hlisted, -⟩ := destroy_drops_rows owner ids s.drops [] drops1 m hdd hu
      obtain ⟨d, hd, hown⟩ := hlisted id hid
      exact absurd hown (hbad d hd)
  · intro r hok
    obtain ⟨drops1, m, hdd, hdrops⟩ := key r hok
    obtain ⟨-, hlisted, hrows⟩ := destroy_drops_rows owner ids s.drops [] drops1 m hdd hu
    obtain ⟨htot, hin, hlen⟩ := destroy_drops_tokens owner ids s.drops [] drops1 m hdd hu
    obtain ⟨hout, hret⟩ := destroy_outputs h c s owner ids r hok
    have hi1 := ledger_inv_destroy h c s owner ids r hi hok
    have hcap1 : r.1.drops.length < 2 ^ 64 := by rw [hdrops]; omega
    refine ⟨hlisted, ?_, ?_, ?_, ?_, ?_, ?_, ?_, ?_⟩
    · rw [hdrops]; exact hrows
    · rw [hdrops]; exact hlen
    · rw [account_total_eq r.1 hi1 hcap1, account_total_eq s hi hcap, hdrops]
      have := htot owner
      rw [if_pos rfl] at this
      exact this
    · intro e
      rw [stat_total_eq r.1 hi1 hcap1, stat_total_eq s hi hcap, hdrops]
      have := hin owner e
      rw [if_pos rfl] at this
      exact this
    · rw [hret]
    · intro hlt
      rw [hret]
      exact Nat.mod_eq_of_lt hlt
    · rw [hret]
    · rw [hout, hret]

set_option maxRecDepth 100000 in
theorem destroy_removes_drops_witness :
    account_total burned.accounts alice + 1 = account_total settled.accounts alice ∧
    stat_total burned.stats alice 1 + 1 = stat_total settled.stats alice 1 ∧
    burned.drops.length + 1 = settled.drops.length :=
  have hw := (destroy_removes_drops example_host (example_ctx 1020000002) settled
    reachable_settled (by decide) alice
    [drop_id example_host 0 "0123456789abcdef0123456789abcdefg"]).2
    (burned,
      [effect.sellram 7 277,
       effect.token_transfer 7 alice ⟨277, 1⟩ "Reclaimed RAM value of 1 drops(s)"],
      { ram_sold := 277, redeemed := ⟨277, 1⟩ }) rfl
  ⟨hw.2.2.2.1, hw.2.2.2.2.1 1, hw.2.2.1⟩

/-- C27: on a drop table without two rows of one id (the primary key of the
table), a list of ids that holds one id twice makes `destroy` fail for every
owner, and makes `transfer` fail between any two different accounts. Every
reachable storage has such a drop table. -/
theorem repeated_id_rejected (h : Host) (c : Ctx) (s : State)
    (hkeys : s.drops.Pairwise (fun a b => a.drops ≠ b.drops)) (ids : List Nat)
    (hdup : ¬ ids.Nodup) :
    (∀ owner, ∃ msg, destroy h c s owner ids = .error msg) ∧
    (∀ from_ to_, from_ ≠ to_ → ∃ msg, transfer c s from_ to_ ids = .error msg) := by
  constructor
  · intro owner
    cases hres : destroy h c s owner ids with
    | error msg => exact ⟨msg, rfl⟩
    | ok r =>
      obtain ⟨st, drops1, m, stats1, a, -, -, hdd, -, -, -⟩ := destroy_ok h c s owner ids r hres
      exact absurd (destroy_drops_rows owner ids s.drops [] drops1 m hdd hkeys).1 hdup
  · intro from_ to_ hne
    cases hres : transfer c s from_ to_ ids with
    | error msg => exact ⟨msg, rfl⟩
    | ok r =>
      obtain ⟨st, drops1, m, _, _, _, -, -, htd, -, -, -, -⟩ :=
        transfer_ok c s from_ to_ ids r hres
      exact absurd (transfer_drops_rows from_ to_ hne ids s.drops [] drops1 m htd).1 hdup

set_option maxRecDepth 100000 in
theorem repeated_id_rejected_witness :
    (∃ msg, destroy example_host (example_ctx 1000000000) minted alice
      [5822345759917624829, 5822345759917624829] = .error msg) ∧
    (∃ msg, transfer (example_ctx 1000000000) minted alice bob
      [5822345759917624829, 5822345759917624829] = .error msg) :=
  have hw := repeated_id_rejected example_host (example_ctx 1000000000) minted
    (pairwise_ne_of_lt (fun r : drop_row => r.drops) minted.drops
      (reachable_drops_sorted example_host minted reachable_minted))
    [5822345759917624829, 5822345759917624829] (by decide)
  ⟨hw.1 alice, hw.2 alice bob (by decide)⟩

/-! ## Issue, then destroy -/

/-- C22: from a reachable storage with fewer than `2^64` drops, a successful
issuance of `N` drops (an `N` accepted by the checks is positive) followed by
a successful `destroy` by the payer of exactly the `N` ids minted, listed in
any order, gives back the drop table as it was before the issuance, the total
of the payer and the count of the payer in the current epoch as they were
before it (zero when the row was missing), and the `destroy` reports
`N * record_size` bytes released (as a `uint64_t`). -/
theorem issue_then_destroy_round_trip (h : Host) (c c2 : Ctx) (s : State) (hr : Reachable h s)
    (hcap : s.drops.length < 2 ^ 64) (from_ to_ : name) (quantity : asset) (memo : String)
    (epoch amount : Nat) (data : String)
    (hb : ¬ (from_ = eosio_ram ∨ to_ ≠ h.self ∨ from_ = h.self ∨ memo = "bypass"))
    (hparse : generate_parse h s quantity memo = .ok (epoch, amount, data))
    (r1 : State × List effect × generate_return_value)
    (hgen : generate h c s from_ to_ quantity memo = .ok r1)
    (ids : List Nat) (hids : ids.Perm ((List.range amount).map (fun i => drop_id h i data)))
    (r2 : State × List effect × destroy_return_value)
    (hdes : destroy h c2 r1.1 from_ ids = .ok r2) :
    0 < amount ∧
    (∃ st, s.state = some st ∧ epoch = st.epoch) ∧
    r2.1.drops = s.drops ∧
    account_total r2.1.accounts from_ = account_total s.accounts from_ ∧
    stat_total r2.1.stats from_ epoch = stat_total s.stats from_ epoch ∧
    r2.2.2.ram_sold = amount * h.record_size % 2 ^ 64 ∧
    (amount * h.record_size < 2 ^ 64 → r2.2.2.ram_sold = amount * h.record_size) := by
  obtain ⟨st, hst, -, he, hpos, -, -, -⟩ :=
    generate_parse_ok h s quantity memo epoch amount data hparse
  have hr1 : Reachable h r1.1 :=
    Reachable.step c (.generate from_ to_ quantity memo) hr (by
      show (generate h c s from_ to_ quantity memo).map (fun r => r.1) = .ok r1.1
      rw [hgen]; rfl)
  have hr2 : Reachable h r2.1 :=
    Reachable.step c2 (.destroy from_ ids) hr1 (by
      show (destroy h c2 r1.1 from_ ids).map (fun r => r.1) = .ok r2.1
      rw [hdes]; rfl)
  obtain ⟨drops1, _, _, hgd, -, -, -, hr1eq⟩ :=
    generate_result h c s from_ to_ quantity memo epoch amount data hb hparse r1 hgen
  have hd1 : r1.1.drops = drops1 := by rw [hr1eq]
  have hperm := generate_drops_perm h from_ epoch data amount 0 s.drops drops1 hgd
  simp only [Nat.zero_add] at hperm
  have hfresh := (generate_drops_some_iff h from_ epoch data amount 0 s.drops).1 ⟨drops1, hgd⟩
  simp only [Nat.zero_add] at hfresh
  obtain ⟨_, drops2, m, _, _, -, -, hdd, -, -, hr2eq⟩ := destroy_ok h c2 r1.1 from_ ids r2 hdes
  have hd2 : r2.1.drops = drops2 := by rw [hr2eq]
  have hu1 := pairwise_ne_of_lt (fun r : drop_row => r.drops) r1.1.drops
    (reachable_drops_sorted h r1.1 hr1)
  obtain ⟨-, -, hrows⟩ := destroy_drops_rows from_ ids r1.1.drops [] drops2 m hdd hu1
  have hmemids : ∀ id, id ∈ ids ↔ ∃ i, i < amount ∧ drop_id h i data = id := by
    intro id
    rw [hids.mem_iff, List.mem_map]
    constructor
    · rintro ⟨i, hi, rfl⟩
      exact ⟨i, List.mem_range.1 hi, rfl⟩
    · rintro ⟨i, hi, rfl⟩
      exact ⟨i, List.mem_range.2 hi, rfl⟩
  have hmem : ∀ d, d ∈ r2.1.drops ↔ d ∈ s.drops := by
    intro d
    rw [hd2, hrows d, hd1, hperm.mem_iff, List.mem_append, List.mem_map]
    constructor
    · rintro ⟨⟨i, hi, rfl⟩ | hd, hnot⟩
      · exact absurd ((hmemids _).2 ⟨i, List.mem_range.1 hi, rfl⟩) hnot
      · exact hd
    · intro hd
      refine ⟨Or.inr hd, ?_⟩
      intro hin
      obtain ⟨i, hi, hid⟩ := (hmemids _).1 hin
      exact hfresh.1 i hi d hd hid.symm
  have hdrops : r2.1.drops = s.drops :=
    eq_of_pairwise_lt_of_mem (fun r : drop_row => r.drops) _ _
      (reachable_drops_sorted h r2.1 hr2) (reachable_drops_sorted h s hr) hmem
  obtain ⟨-, hret⟩ := destroy_outputs h c2 r1.1 from_ ids r2 hdes
  have hlen : ids.length = amount := by
    rw [hids.length_eq, List.length_map, List.length_range]
  have hi := reachable_ledger_inv h s hr
  have hi2 := reachable_ledger_inv h r2.1 hr2
  have hcap2 : r2.1.drops.length < 2 ^ 64 := by rw [hdrops]; exact hcap
  refine ⟨hpos, ⟨st, hst, he⟩, hdrops, ?_, ?_, ?_, ?_⟩
  · rw [account_total_eq r2.1 hi2 hcap2, account_total_eq s hi hcap, hdrops]
  · rw [stat_total_eq r2.1 hi2 hcap2, stat_total_eq s hi hcap, hdrops]
  · rw [hret, hlen]
  · intro hlt
    rw [hret, hlen]
    exact Nat.mod_eq_of_lt hlt

set_option maxRecDepth 100000 in
theorem issue_then_destroy_round_trip_witness :
    (∃ r2, destroy example_host (example_ctx 1000000001) minted alice
      ((List.range 3).map (fun i => drop_id example_host i "0123456789abcdef0123456789abcdefg"))
      = .ok r2) ∧
    ∀ r2, destroy example_host (example_ctx 1000000001) minted alice
      ((List.range 3).map (fun i => drop_id example_host i "0123456789abcdef0123456789abcdefg"))
      = .ok r2 →
      r2.1.drops = genesis.drops ∧
      account_total r2.1.accounts alice = account_total genesis.accounts alice ∧
      r2.2.2.ram_sold = 3 * 277 :=
  ⟨⟨_, rfl⟩, fun r2 h2 =>
    have hw := issue_then_destroy_round_trip example_host (example_ctx 1000000000)
      (example_ctx 1000000001) genesis reachable_genesis (by decide) alice example_host.self
      ⟨100000, example_host.EOS⟩ "3,0123456789abcdef0123456789abcdefg"
      1 3 "0123456789abcdef0123456789abcdefg" (by decide) rfl
      (minted, [effect.buyrambytes 7 7 1370, effect.token_transfer 7 alice ⟨98630, 1⟩ ""],
        { drops := 3, epoch := 1, cost := ⟨1370, 1⟩, refund := ⟨98630, 1⟩,
          total_drops := 3, epoch_drops := 3 }) rfl
      ((List.range 3).map (fun i => drop_id example_host i "0123456789abcdef0123456789abcdefg"))
      (List.Perm.refl _) r2 h2
    ⟨hw.2.2.1, hw.2.2.2.1, hw.2.2.2.2.2.2 (by decide)⟩⟩

/-! ## The enabled flag -/

/-- While the contract is disabled, `generate` (outside its bypass cases),
`transfer`, `destroy`, `commit`, `reveal` and `advance` fail. -/
theorem disabled_blocks (h : Host) (c : Ctx) (s : State) (st : state_row)
    (hst : s.state = some st) (hen : st.enabled = false) :
    (∀ from_ to_ quantity memo,
      ¬ (from_ = eosio_ram ∨ to_ ≠ h.self ∨ from_ = h.self ∨ memo = "bypass") →
      ∃ msg, generate h c s from_ to_ quantity memo = .error msg) ∧
    (∀ from_ to_ ids, ∃ msg, transfer c s from_ to_ ids = .error msg) ∧
    (∀ owner ids, ∃ msg, destroy h c s owner ids = .error msg) ∧
    (∀ oracle epoch digest, ∃ msg, commit c s oracle epoch digest = .error msg) ∧
    (∀ oracle epoch payload, ∃ msg, reveal h c s oracle epoch payload = .error msg) ∧
    (∃ msg, advance_epoch h c s = .error msg) ∧
    (∃ msg, advance h c s = .error msg) := by
  have hne : ∀ st1, s.state = some st1 → st1.enabled = true → False := by
    intro st1 h1 h2
    rw [hst] at h1
    injection h1 with h1
    rw [← h1, hen] at h2
    cases h2
  have hadv : ∃ msg, advance_epoch h c s = .error msg := by
    cases hres : advance_epoch h c s with
    | error msg => exact ⟨msg, rfl⟩
    | ok r =>
      obtain ⟨s1, out, row⟩ := r
      obtain ⟨st1, _, h1, h2, -⟩ := advance_epoch_ok h c s s1 out row hres
      exact absurd h2 (fun h2 => hne st1 h1 h2)
  refine ⟨?_, ?_, ?_, ?_, ?_, hadv, ?_⟩
  · intro from_ to_ quantity memo hb
    cases hres : generate h c s from_ to_ quantity memo with
    | error msg => exact ⟨msg, rfl⟩
    | ok r =>
      unfold generate at hres
      rw [if_neg hb] at hres
      cases hp : generate_parse h s quantity memo with
      | error e => rw [hp] at hres; cases hres
      | ok v =>
        obtain ⟨epoch, amount, data⟩ := v
        obtain ⟨st1, h1, h2, -⟩ := generate_parse_ok h s quantity memo epoch amount data hp
        exact absurd h2 (fun h2 => hne st1 h1 h2)
  · intro from_ to_ ids
    cases hres : transfer c s from_ to_ ids with
    | error msg => exact ⟨msg, rfl⟩
    | ok r =>
      obtain ⟨st1, _, _, _, _, _, h1, h2, -⟩ := transfer_ok c s from_ to_ ids r hres
      exact absurd h2 (fun h2 => hne st1 h1 h2)
  · intro owner ids
    cases hres : destroy h c s owner ids with
    | error msg => exact ⟨msg, rfl⟩
    | ok r =>
      obtain ⟨st1, _, _, _, _, h1, h2, -⟩ := destroy_ok h c s owner ids r hres
      exact absurd h2 (fun h2 => hne st1 h1 h2)
  · intro oracle epoch digest
    cases hres : commit c s oracle epoch digest with
    | error msg => exact ⟨msg, rfl⟩
    | ok s1 =>
      obtain ⟨st1, _, h1, h2, -⟩ := commit_ok c s s1 oracle epoch digest hres
      exact absurd h2 (fun h2 => hne st1 h1 h2)
  · intro oracle epoch payload
    cases hres : reveal h c s oracle epoch payload with
    | error msg => exact ⟨msg, rfl⟩
    | ok s1 =>
      obtain ⟨st1, _, _, h1, h2, -⟩ := reveal_ok h c s s1 oracle epoch payload hres
      exact absurd h2 (fun h2 => hne st1 h1 h2)
  · obtain ⟨msg, hmsg⟩ := hadv
    unfold advance
    rw [hmsg]
    exact ⟨msg, rfl⟩

set_option maxRecDepth 100000 in
theorem reachable_paused : Reachable example_host paused :=
  Reachable.step (example_ctx 1000000000) (.enable false) reachable_minted rfl

set_option maxRecDepth 100000 in
/-- C23 (the code at the failing input): in the reachable storage `paused` the
contract is disabled, and `enroll` for the account `alice` and epoch 1 goes
through all the same and adds a stat row. -/
theorem enroll_ignores_enabled_flag :
    paused.state = some { epoch := 1, enabled := false } ∧
    Reachable example_host paused ∧
    (enroll paused alice 1).map (fun s => s.stats)
      = .ok [{ id := 1, account := eosio, epoch := 1, drops := 1 },
             { id := 2, account := alice, epoch := 1, drops := 3 },
             { id := 3, account := alice, epoch := 1, drops := 0 }] ∧
    commit_or_rollback paused (enroll paused alice 1) ≠ paused :=
  ⟨rfl, reachable_paused, rfl, by decide⟩

/-! ## The counting maps as numbers -/

theorem map_sum_sorted_mem (m : List (Nat × Nat)) (hs : m.Pairwise (fun a b => a.1 < b.1))
    (p : Nat × Nat) (hp : p ∈ m) : map_sum m p.1 = p.2 := by
  induction m with
  | nil => cases hp
  | cons q m ih =>
    obtain ⟨k, v⟩ := q
    obtain ⟨hq, hs1⟩ := List.pairwise_cons.1 hs
    rw [map_sum_cons]
    rcases List.mem_cons.1 hp with rfl | hp1
    · have hz : map_sum m k = 0 := by
        unfold map_sum
        have : m.filter (fun p => p.1 == k) = [] := by
          rw [List.filter_eq_nil_iff]
          intro x hx hxk
          have h1 := hq x hx
          have h2 : x.1 = k := by simpa using hxk
          simp only at h1
          omega
        rw [this]; rfl
      simp [hz]
    · have h1 := hq p hp1
      simp only at h1
      rw [if_neg (by omega), zero_add]
      exact ih hs1 hp1

theorem map_sum_pos_mem (m : List (Nat × Nat)) (k : Nat) (hpos : 0 < map_sum m k) :
    ∃ p ∈ m, p.1 = k := by
  unfold map_sum at hpos
  cases hf : m.filter (fun p => p.1 == k) with
  | nil => rw [hf] at hpos; simp at hpos
  | cons p t =>
    have hp : p ∈ m.filter (fun p => p.1 == k) := by rw [hf]; exact List.mem_cons_self _ _
    rw [List.mem_filter] at hp
    exact ⟨p, hp.1, by simpa using hp.2⟩

theorem le_sum_of_mem_values (m : List (Nat × Nat)) (p : Nat × Nat) (hp : p ∈ m) :
    p.2 ≤ (m.map (fun q => q.2)).sum :=
  List.single_le_sum (fun _ _ => Nat.zero_le _) _ (List.mem_map_of_mem _ hp)

/-- One more key counted in a counting map whose counts are far from
`2^64`: the map stays in key order with positive counts, the count of the
key goes up by one and so does the sum of all counts. -/
theorem map_incr_spec (e : Nat) (m : List (Nat × Nat))
    (hs : m.Pairwise (fun a b => a.1 < b.1)) (hpos : ∀ p ∈ m, 0 < p.2)
    (hb : (m.map (fun q => q.2)).sum + 1 < 2 ^ 64) :
    (map_incr e m).Pairwise (fun a b => a.1 < b.1) ∧
    (∀ p ∈ map_incr e m, 0 < p.2) ∧
    (∀ p ∈ map_incr e m, p.1 = e ∨ ∃ q ∈ m, q.1 = p.1) ∧
    ((map_incr e m).map (fun q => q.2)).sum = (m.map (fun q => q.2)).sum + 1 ∧
    ∀ k, map_sum (map_incr e m) k = map_sum m k + (if e = k then 1 else 0) := by
  induction m with
  | nil =>
    refine ⟨by simp [map_incr], ?_, ?_, by simp [map_incr], ?_⟩
    · intro p hp
      simp only [map_incr, List.mem_singleton] at hp
      rw [hp]; norm_num
    · intro p hp
      simp only [map_incr, List.mem_singleton] at hp
      rw [hp]; exact Or.inl rfl
    · intro k
      simp only [map_incr, map_sum_cons, map_sum_nil]
      omega
  | cons q m ih =>
    obtain ⟨k0, v⟩ := q
    obtain ⟨hq, hs1⟩ := List.pairwise_cons.1 hs
    simp only [List.map_cons, List.sum_cons] at hb
    simp only [map_incr]
    by_cases h1 : e < k0
    · rw [if_pos h1]
      refine ⟨?_, ?_, ?_, ?_, ?_⟩
      · refine List.pairwise_cons.2 ⟨?_, hs⟩
        intro y hy
        rcases List.mem_cons.1 hy with rfl | hy
        · exact h1
        · exact lt_trans h1 (hq y hy)
      · intro p hp
        rcases List.mem_cons.1 hp with rfl | hp
        · norm_num
        · exact hpos p hp
      · intro p hp
        rcases List.mem_cons.1 hp with rfl | hp
        · exact Or.inl rfl
        · exact Or.inr ⟨p, hp, rfl⟩
      · simp only [List.map_cons, List.sum_cons]
        omega
      · intro k
        rw [map_sum_cons e 1]
        split <;> omega
    · rw [if_neg h1]
      by_cases h2 : e = k0
      · subst h2
        rw [if_pos rfl]
        have hv : add64 v 1 = v + 1 := by
          rw [add64, Nat.mod_eq_of_lt (by omega)]
        rw [hv]
        refine ⟨?_, ?_, ?_, ?_, ?_⟩
        · exact List.pairwise_cons.2 ⟨hq, hs1⟩
        · intro p hp
          rcases List.mem_cons.1 hp with rfl | hp
          · exact Nat.succ_pos _
          · exact hpos p (List.mem_cons_of_mem _ hp)
        · intro p hp
          rcases List.mem_cons.1 hp with rfl | hp
          · exact Or.inl rfl
          · exact Or.inr ⟨p, List.mem_cons_of_mem _ hp, rfl⟩
        · simp only [List.map_cons, List.sum_cons]
          omega
        · intro k
          rw [map_sum_cons, map_sum_cons]
          split <;> omega
      · rw [if_neg h2]
        obtain ⟨i1, i2, i3, i4, i5⟩ := ih hs1 (fun p hp => hpos p (List.mem_cons_of_mem _ hp))
          (by omega)
        refine ⟨?_, ?_, ?_, ?_, ?_⟩
        · refine List.pairwise_cons.2 ⟨?_, i1⟩
          intro y hy
          rcases i3 y hy with h3 | ⟨q, hq1, hq2⟩
          · show k0 < y.1
            omega
          · have := hq q hq1
            show k0 < y.1
            simp only at this
            omega
        · intro p hp
          rcases List.mem_cons.1 hp with rfl | hp
          · exact hpos _ (List.mem_cons_self _ _)
          · exact i2 p hp
        · intro p hp
          rcases List.mem_cons.1 hp with rfl | hp
          · exact Or.inr ⟨_, List.mem_cons_self _ _, rfl⟩
          · rcases i3 p hp with h3 | ⟨q, hq1, hq2⟩
            · exact Or.inl h3
            · exact Or.inr ⟨q, List.mem_cons_of_mem _ hq1, hq2⟩
        · simp only [List.map_cons, List.sum_cons, i4]
          omega
        · intro k
          rw [map_sum_cons, map_sum_cons k0 v, i5]
          omega

/-- A list of keys counted into a counting map, one after the other. -/
theorem map_incr_fold_spec :
    ∀ (ks : List Nat) (m : List (Nat × Nat)),
      m.Pairwise (fun a b => a.1 < b.1) → (∀ p ∈ m, 0 < p.2) →
      (m.map (fun q => q.2)).sum + ks.length < 2 ^ 64 →
      (ks.foldl (fun m k => map_incr k m) m).Pairwise (fun a b => a.1 < b.1) ∧
      (∀ p ∈ ks.foldl (fun m k => map_incr k m) m, 0 < p.2) ∧
      (∀ p ∈ ks.foldl (fun m k => map_incr k m) m, p.1 ∈ ks ∨ ∃ q ∈ m, q.1 = p.1) ∧
      ((ks.foldl (fun m k => map_incr k m) m).map (fun q => q.2)).sum
        = (m.map (fun q => q.2)).sum + ks.length ∧
      ∀ k, map_sum (ks.foldl (fun m k => map_incr k m) m) k = map_sum m k + ks.count k := by
  intro ks
  induction ks with
  | nil =>
    intro m hs hpos _
    exact ⟨hs, hpos, fun p hp => Or.inr ⟨p, hp, rfl⟩, by simp, by simp⟩
  | cons e ks ih =>
    intro m hs hpos hb
    rw [List.length_cons] at hb
    obtain ⟨i1, i2, i3, i4, i5⟩ := map_incr_spec e m hs hpos (by omega)
    obtain ⟨j1, j2, j3, j4, j5⟩ := ih (map_incr e m) i1 i2 (by rw [i4]; omega)
    rw [List.foldl_cons]
    refine ⟨j1, j2, ?_, ?_, ?_⟩
    · intro p hp
      rcases j3 p hp with h1 | ⟨q, hq1, hq2⟩
      · exact Or.inl (List.mem_cons_of_mem _ h1)
      · rcases i3 q hq1 with h2 | ⟨q0, h3, h4⟩
        · exact Or.inl (by rw [← hq2, h2]; exact List.mem_cons_self _ _)
        · exact Or.inr ⟨q0, h3, h4.trans hq2⟩
    · rw [j4, i4, List.length_cons]
      omega
    · intro k
      rw [j5, i5, List.count_cons]
      by_cases hk : e = k
      · simp [hk]; omega
      · simp [hk]

/-! ## The bulk eraser `destroyall` -/

theorem drops_destroyed_eq (drops : List drop_row) :
    drops_destroyed drops = drops.length % 2 ^ 64 := by
  have hgen : ∀ (l : List drop_row) (a : Nat),
      l.foldl (fun n _ => add64 n 1) a = if l = [] then a else (a + l.length) % 2 ^ 64 := by
    intro l
    induction l with
    | nil => intro a; rfl
    | cons d l ih =>
      intro a
      rw [List.foldl_cons, ih, if_neg (List.cons_ne_nil _ _), List.length_cons]
      by_cases hl : l = []
      · rw [if_pos hl, hl]; rfl
      · rw [if_neg hl, add64, Nat.mod_add_mod]
        congr 1
        omega
  unfold drops_destroyed
  rw [hgen]
  split
  · rename_i hl
    rw [hl]; rfl
  · rw [Nat.zero_add]

/-- The per-owner counts of `destroyall` on a table of fewer than `2^64`
drops: one entry for every account that owns a drop, in the order of the
account names, with the number of drops the account owns. -/
theorem destroyall_count_spec (drops : List drop_row) (hcap : drops.length < 2 ^ 64) :
    (destroyall_count drops).Pairwise (fun a b => a.1 < b.1) ∧
    (∀ o c, (o, c) ∈ destroyall_count drops ↔ 0 < c ∧ c = tokens_of drops o) ∧
    ((destroyall_count drops).map (fun q => q.2)).sum = drops.length := by
  have hfold : destroyall_count drops
      = (drops.map (fun d => d.owner)).foldl (fun m k => map_incr k m) [] := by
    unfold destroyall_count
    rw [List.foldl_map]
  obtain ⟨h1, h2, -, h4, h5⟩ := map_incr_fold_spec (drops.map (fun d => d.owner)) []
    List.Pairwise.nil (fun p hp => absurd hp (List.not_mem_nil _))
    (by simpa using hcap)
  rw [← hfold] at h1 h2 h4 h5
  have hcount : ∀ o, map_sum (destroyall_count drops) o = tokens_of drops o := by
    intro o
    rw [h5, map_sum_nil, Nat.zero_add, List.count, List.countP_map]
    rfl
  refine ⟨h1, ?_, by simpa using h4⟩
  intro o c
  constructor
  · intro hm
    have := map_sum_sorted_mem _ h1 (o, c) hm
    exact ⟨h2 _ hm, by rw [← hcount o]; exact this.symm⟩
  · rintro ⟨hpos, hc⟩
    obtain ⟨p, hp, hp1⟩ := map_sum_pos_mem (destroyall_count drops) o
      (by rw [hcount o, ← hc]; exact hpos)
    have := map_sum_sorted_mem _ h1 p hp
    rw [hp1, hcount o, ← hc] at this
    have hpe : p = (o, c) := Prod.ext hp1 this.symm
    rw [← hpe]; exact hp

/-- C24: `destroyall` on a storage with fewer than `2^64` drops leaves the
drop, account and stat tables empty and sends a `sellram` of
`(number of drops) * record_size` bytes (as a `uint64_t`), followed by one
transfer per entry of its per-owner counts. These counts have one entry for
every account that owned a drop, with the number `c > 0` of the drops it
owned, and no other entry, so every such account gets exactly one transfer,
of the proceeds of `c * record_size` bytes; the counts add up to the number
of drops, so the bytes of the owners add up to the bytes released. -/
theorem destroyall_spec (h : Host) (c : Ctx) (s : State) (hcap : s.drops.length < 2 ^ 64) :
    destroyall h c s
      = .ok ({ s with drops := [], accounts := [], stats := [] },
          effect.sellram h.self (s.drops.length * h.record_size % 2 ^ 64) ::
            (destroyall_count s.drops).map (fun it =>
              effect.token_transfer h.self it.1
                ⟨c.ramproceedstminusfee (it.2 * h.record_size % 2 ^ 64), h.EOS⟩
                ("Testnet Reset - Reclaimed RAM value of " ++ Nat.repr it.2 ++ " drops(s)"))) ∧
    ((destroyall_count s.drops).map (fun it => it.1)).Nodup ∧
    (∀ o n, (o, n) ∈ destroyall_count s.drops ↔ 0 < n ∧ n = tokens_of s.drops o) ∧
    ((destroyall_count s.drops).map (fun it => it.2)).sum = s.drops.length ∧
    ((destroyall_count s.drops).map (fun it => it.2 * h.record_size)).sum
      = s.drops.length * h.record_size := by
  obtain ⟨h1, h2, h3⟩ := destroyall_count_spec s.drops hcap
  refine ⟨?_, ?_, h2, h3, ?_⟩
  · unfold destroyall
    rw [drops_destroyed_eq, Nat.mod_eq_of_lt hcap]
  · have : ((destroyall_count s.drops).map (fun it => it.1)).Pairwise (fun a b => a < b) :=
      List.pairwise_map.2 h1
    exact this.imp (fun hab => Nat.ne_of_lt hab)
  · rw [← h3, List.sum_map_mul_right]

set_option maxRecDepth 100000 in
theorem destroyall_spec_witness :
    destroyall_count traded.drops = [(alice, 2), (bob, 1), (eosio, 1)] ∧
    ((destroyall_count traded.drops).map (fun it => it.2)).sum = traded.drops.length ∧
    ((alice, 2) ∈ destroyall_count traded.drops ↔ 0 < 2 ∧ 2 = tokens_of traded.drops alice) :=
  have hw := destroyall_spec example_host (example_ctx 1000000000) traded (by decide)
  ⟨rfl, hw.2.2.2.1, hw.2.2.1 alice 2⟩

/-! ## Epoch rows: numbering, chaining, frozen fields -/

/-- A successful call other than `init` and `advance` leaves the pointer
where it was and does not touch the number, the start, the end or the
oracles of an epoch row. -/
theorem exec_epochs_frame (h : Host) (c : Ctx) (a : call) (s s1 : State)
    (hok : exec h c s a = .ok s1) (hinit : a ≠ .init) (hadv : a ≠ .advance) :
    s1.state.map (fun st => st.epoch) = s.state.map (fun st => st.epoch) ∧
    s1.epochs.map epoch_row.frozen = s.epochs.map epoch_row.frozen := by
  have hcomp : ∀ (t t1 : State) (e : epoch_row) (epoch : Nat),
      complete_if_revealed h t e epoch = .ok t1 →
      t1.state.map (fun st => st.epoch) = t.state.map (fun st => st.epoch) ∧
      t1.epochs.map epoch_row.frozen = t.epochs.map epoch_row.frozen := by
    intro t t1 e epoch hc
    rcases complete_if_revealed_ok h t t1 e epoch hc with ⟨-, rfl⟩ | ⟨-, v, -, -, rfl⟩
    · exact ⟨rfl, rfl⟩
    · exact ⟨rfl, map_modify _ _ _ _ (fun _ => rfl)⟩
  cases a with
  | init => exact absurd rfl hinit
  | advance => exact absurd rfl hadv
  | enable enabled =>
    simp only [exec, enable] at hok
    cases hst : s.state with
    | none => rw [hst] at hok; cases hok
    | some st =>
      rw [hst] at hok
      injection hok with hok
      subst hok
      exact ⟨rfl, rfl⟩
  | addoracle oracle =>
    simp only [exec, addoracle] at hok
    split at hok
    · cases hok
    · split at hok
      · cases hok
      · injection hok with hok
        subst hok
        exact ⟨rfl, rfl⟩
  | removeoracle oracle =>
    simp only [exec, removeoracle] at hok
    split at hok
    · cases hok
    · injection hok with hok
      subst hok
      exact ⟨rfl, rfl⟩
  | subscribe subscriber =>
    simp only [exec, subscribe] at hok
    split at hok
    · cases hok
    · split at hok
      · cases hok
      · injection hok with hok
        subst hok
        exact ⟨rfl, rfl⟩
  | unsubscribe subscriber =>
    simp only [exec, unsubscribe] at hok
    split at hok
    · cases hok
    · injection hok with hok
      subst hok
      exact ⟨rfl, rfl⟩
  | generate from_ to_ quantity memo =>
    obtain ⟨r, hr, rfl⟩ := map_eq_ok _ _ _ hok
    rcases generate_ok h c s from_ to_ quantity memo r hr with h1 | ⟨_, _, _, _, _, _, -, -, -, -, h1⟩
    · rw [h1]; exact ⟨rfl, rfl⟩
    · rw [h1]; exact ⟨rfl, rfl⟩
  | transfer from_ to_ ids =>
    obtain ⟨r, hr, rfl⟩ := map_eq_ok _ _ _ hok
    obtain ⟨_, _, _, _, _, _, -, -, -, -, -, -, h1⟩ := transfer_ok c s from_ to_ ids r hr
    rw [h1]; exact ⟨rfl, rfl⟩
  | destroy owner ids =>
    obtain ⟨r, hr, rfl⟩ := map_eq_ok _ _ _ hok
    obtain ⟨_, _, _, _, _, -, -, -, -, -, h1⟩ := destroy_ok h c s owner ids r hr
    rw [h1]; exact ⟨rfl, rfl⟩
  | destroyall =>
    simp only [exec, destroyall, Except.map] at hok
    injection hok with hok
    subst hok
    exact ⟨rfl, rfl⟩
  | enroll account epoch =>
    obtain ⟨_, _, -, -, rfl⟩ := enroll_ok s s1 account epoch hok
    exact ⟨rfl, rfl⟩
  | commit oracle epoch cm =>
    obtain ⟨st, e, -, -, -, -, -, -, -, rfl⟩ := commit_ok c s s1 oracle epoch cm hok
    exact ⟨rfl, rfl⟩
  | reveal oracle epoch rv =>
    obtain ⟨st, e, cm, -, -, -, -, -, -, -, -, hc⟩ := reveal_ok h c s s1 oracle epoch rv hok
    exact hcomp
      { s with reveals := s.reveals ++
          [{ id := available_primary_key (fun r => r.id) s.reveals,
             epoch := epoch, oracle := oracle, reveal := rv }] } s1 e epoch hc
  | finishreveal epoch =>
    obtain ⟨e, -, -, hc⟩ := finishreveal_ok h s s1 epoch hok
    exact hcomp s s1 e epoch hc

theorem mem_frozen {t : List epoch_row} {a : epoch_row} (ha : a ∈ t) :
    a.frozen ∈ t.map epoch_row.frozen := List.mem_map_of_mem _ ha

theorem epoch_chain_iff (s : State) :
    epoch_chain s ↔ ∀ st, s.state = some st → st.epoch ≠ 0 →
      ∀ p ∈ s.epochs.map epoch_row.frozen, ∀ q ∈ s.epochs.map epoch_row.frozen,
        q.1 = p.1 + 1 → q.2.1 = p.2.2.1 := by
  unfold epoch_chain
  constructor
  · intro hc st hst hne p hp q hq hpq
    obtain ⟨a, ha, rfl⟩ := List.mem_map.1 hp
    obtain ⟨b, hb, rfl⟩ := List.mem_map.1 hq
    exact hc st hst hne a ha b hb hpq
  · intro hc st hst hne a ha b hb hab
    exact hc st hst hne a.frozen (mem_frozen ha) b.frozen (mem_frozen hb) hab

theorem epoch_chain_of_frame (s s1 : State) (hc : epoch_chain s)
    (hst : s1.state.map (fun st => st.epoch) = s.state.map (fun st => st.epoch))
    (hk : s1.epochs.map epoch_row.frozen = s.epochs.map epoch_row.frozen) :
    epoch_chain s1 := by
  rw [epoch_chain_iff] at hc ⊢
  intro st1 h1 hne
  rw [h1] at hst
  cases h0 : s.state with
  | none => rw [h0] at hst; cases hst
  | some st =>
    rw [h0] at hst
    simp only [Option.map_some', Option.some.injEq] at hst
    rw [hk]
    exact hc st h0 (hst ▸ hne)

theorem epoch_chain_advance_epoch (h : Host) (c : Ctx) (s s1 : State) (out : List effect)
    (row : epoch_row) (hp : pointer_inv s)
    (hu : s.epochs.Pairwise (fun a b => a.epoch ≠ b.epoch)) (hc : epoch_chain s)
    (hok : advance_epoch h c s = .ok (s1, out, row)) : epoch_chain s1 := by
  obtain ⟨st, cur, hst, -, hcur, -, -, hrow, hfresh, -, rfl⟩ :=
    advance_epoch_ok h c s s1 out row hok
  have hre : row.epoch = add64 st.epoch 1 := by rw [hrow]
  obtain ⟨hne, hle⟩ := pointer_inv_le s hp st hst (fun x hx => hre ▸ hfresh x hx)
  have hb := hp.bound st hst
  intro st1 h1 hne1 a ha b hb1 hab
  injection h1 with h1
  have hlt : st.epoch + 1 < 2 ^ 64 := by
    by_contra hcon
    have h2 : st.epoch + 1 = 2 ^ 64 := by omega
    apply hne1
    rw [← h1]
    show add64 st.epoch 1 = 0
    rw [add64, h2, Nat.mod_self]
  have hre1 : row.epoch = st.epoch + 1 := by
    rw [hre, add64, Nat.mod_eq_of_lt hlt]
  have hcurm := List.mem_of_find?_eq_some hcur
  have hcure : cur.epoch = st.epoch := by simpa using List.find?_some hcur
  rcases (mem_insert_row _ _ _ _).1 ha with rfl | ha1
  · rcases (mem_insert_row _ _ _ _).1 hb1 with rfl | hb2
    · omega
    · have := hle b hb2
      omega
  · rcases (mem_insert_row _ _ _ _).1 hb1 with rfl | hb2
    · have hae : a.epoch = cur.epoch := by omega
      have hac : a = cur := by
        by_contra hneq
        have h3 := find?_eq_of_mem_unique (fun r : epoch_row => r.epoch) s.epochs a ha1 hu
        have h4 := find?_eq_of_mem_unique (fun r : epoch_row => r.epoch) s.epochs cur hcurm hu
        simp only [hae] at h3
        rw [h3] at h4
        injection h4 with h4
        exact hneq h4
      rw [hac, hrow]
    · exact hc st hst hne a ha1 b hb2 hab

/-- Every successful call keeps the invariants of the epoch table together:
the numbering, the uniqueness of the numbers and the chaining. -/
theorem epoch_chain_step (h : Host) (c : Ctx) (a : call) (s s1 : State)
    (hi : pointer_inv s ∧ oracle_inv h s ∧ epoch_chain s)
    (hok : exec h c s a = .ok s1) : pointer_inv s1 ∧ oracle_inv h s1 ∧ epoch_chain s1 := by
  refine ⟨pointer_inv_step h c a s s1 hi.1 hok, oracle_inv_step h c a s s1 hi.2.1 hok, ?_⟩
  by_cases hinit : a = .init
  · subst hinit
    obtain ⟨accounts1, epochs1, drops1, stats1, hnone, -, hep, -, -, rfl⟩ := init_ok h c s s1 hok
    obtain ⟨-, hins⟩ := (emplace_eq_some _ _ _ _).1 hep
    rw [hi.1.fresh hnone] at hins
    have hk : epochs1 = [first_epoch h c s] := by rw [hins]; rfl
    intro st1 _ _ a ha b hb hab
    rw [hk, List.mem_singleton] at ha hb
    rw [ha, hb] at hab
    omega
  by_cases hadv : a = .advance
  · subst hadv
    obtain ⟨r, hr, rfl⟩ := map_eq_ok _ _ _ hok
    have := advance_keeps h c (fun t => pointer_inv t ∧ oracle_inv h t ∧ epoch_chain t) ?_ s r hi hr
    · exact this.2.2
    · intro t t1 out row ht hstep
      refine ⟨pointer_inv_advance_epoch h c t t1 out row ht.1 hstep, ?_,
        epoch_chain_advance_epoch h c t t1 out row ht.1 ht.2.1.epoch_unique ht.2.2 hstep⟩
      obtain ⟨st, cur, -, -, -, -, -, hrow, hfresh, -, rfl⟩ :=
        advance_epoch_ok h c t t1 out row hstep
      exact oracle_inv_insert_epoch h t _ row ht.2.1 (by rw [hrow]) hfresh rfl rfl rfl rfl
  · obtain ⟨h1, h2⟩ := exec_epochs_frame h c a s s1 hok hinit hadv
    exact epoch_chain_of_frame s s1 hi.2.2 h1 h2

theorem reachable_epoch_chain (h : Host) (s : State) (hr : Reachable h s) :
    pointer_inv s ∧ oracle_inv h s ∧ epoch_chain s := by
  induction hr with
  | empty =>
    refine ⟨pointer_inv_empty, oracle_inv_empty h, ?_⟩
    intro st hst
    cases hst
  | step c a _ hok ih => exact epoch_chain_step h c a _ _ ih hok

/-- No successful call removes an epoch row or changes its number, its
start, its end or its oracles. -/
theorem exec_epochs_frozen (h : Host) (c : Ctx) (a : call) (s s1 : State)
    (hok : exec h c s a = .ok s1) :
    ∀ q ∈ s.epochs.map epoch_row.frozen, q ∈ s1.epochs.map epoch_row.frozen := by
  by_cases hinit : a = .init
  · subst hinit
    obtain ⟨accounts1, epochs1, drops1, stats1, -, -, hep, -, -, rfl⟩ := init_ok h c s s1 hok
    obtain ⟨-, hins⟩ := (emplace_eq_some _ _ _ _).1 hep
    intro q hq
    obtain ⟨x, hx, rfl⟩ := List.mem_map.1 hq
    exact mem_frozen (by rw [hins]; exact (mem_insert_row _ _ _ _).2 (Or.inr hx))
  by_cases hadv : a = .advance
  · subst hadv
    obtain ⟨r, hr, rfl⟩ := map_eq_ok _ _ _ hok
    refine advance_keeps h c
      (fun t => ∀ q ∈ s.epochs.map epoch_row.frozen, q ∈ t.epochs.map epoch_row.frozen)
      ?_ s r (fun q hq => hq) hr
    intro t t1 out row ht hstep
    obtain ⟨st, cur, -, -, -, -, -, -, -, -, rfl⟩ := advance_epoch_ok h c t t1 out row hstep
    intro q hq
    obtain ⟨x, hx, rfl⟩ := List.mem_map.1 (ht q hq)
    exact mem_frozen ((mem_insert_row _ _ _ _).2 (Or.inr hx))
  · obtain ⟨-, h2⟩ := exec_epochs_frame h c a s s1 hok hinit hadv
    rw [h2]
    exact fun q hq => hq

theorem later_epochs_frozen (h : Host) (s s1 : State) (hl : Later h s s1) :
    ∀ q ∈ s.epochs.map epoch_row.frozen, q ∈ s1.epochs.map epoch_row.frozen := by
  induction hl with
  | refl => exact fun q hq => hq
  | step c a _ hok ih => exact fun q hq => exec_epochs_frozen h c a _ _ hok q (ih q hq)

/-- C25: in every reachable storage that has been initialised and whose epoch
numbers have not run out (no epoch row has the number `2^64 - 1`), the epoch
table holds exactly the numbers from 1 to the pointer, each once; the epoch
numbered one more than another epoch starts where that epoch ends; and in
every storage reached later each epoch row is still there under its number
with the start, the end and the oracles it had (only the completed flag may
differ). -/
theorem epochs_numbered_chained_frozen (h : Host) (s : State) (hr : Reachable h s)
    (st : state_row) (hst : s.state = some st)
    (hcap : ∀ x ∈ s.epochs, x.epoch + 1 < 2 ^ 64) :
    (∀ n, (∃ x ∈ s.epochs, x.epoch = n) ↔ 1 ≤ n ∧ n ≤ st.epoch) ∧
    s.epochs.Pairwise (fun a b => a.epoch ≠ b.epoch) ∧
    (∀ a ∈ s.epochs, ∀ b ∈ s.epochs, b.epoch = a.epoch + 1 → b.start = a.end_) ∧
    ∀ s1, Later h s s1 → ∀ x ∈ s.epochs,
      ∃ y, s1.epochs.find? (fun r => r.epoch == x.epoch) = some y ∧
        y.start = x.start ∧ y.end_ = x.end_ ∧ y.oracles = x.oracles := by
  obtain ⟨hp, ho, hc⟩ := reachable_epoch_chain h s hr
  have hne : st.epoch ≠ 0 := by
    intro hz
    obtain ⟨-, h2⟩ := hp.wrapped st hst hz
    obtain ⟨x, hx, hx1⟩ := List.mem_map.1 h2
    have := hcap x hx
    rw [hx1] at this
    norm_num at this
  refine ⟨?_, ho.epoch_unique, hc st hst hne, ?_⟩
  · intro n
    constructor
    · rintro ⟨x, hx, rfl⟩
      exact hp.range st hst hne x.epoch (List.mem_map_of_mem _ hx)
    · rintro ⟨h1, h2⟩
      obtain ⟨x, hx, hx1⟩ := List.mem_map.1 (hp.present st hst hne n h1 h2)
      exact ⟨x, hx, hx1⟩
  · intro s1 hl x hx
    obtain ⟨y, hy, hyx⟩ := List.mem_map.1 (later_epochs_frozen h s s1 hl x.frozen (mem_frozen hx))
    have hu1 := (reachable_oracle_inv h s1 (reachable_later h s s1 hr hl)).epoch_unique
    have hf := find?_eq_of_mem_unique (fun r : epoch_row => r.epoch) s1.epochs y hy hu1
    simp only [epoch_row.frozen, Prod.mk.injEq] at hyx
    simp only [hyx.1] at hf
    exact ⟨y, hf, hyx.2.1, hyx.2.2.1, hyx.2.2.2⟩

theorem epochs_numbered_chained_frozen_witness :
    (∀ n, (∃ x ∈ revealed_a.epochs, x.epoch = n) ↔ 1 ≤ n ∧ n ≤ 1) ∧
    ∃ y, revealed_ab.epochs.find? (fun r => r.epoch == 1) = some y ∧
      y.start = 960000000 ∧ y.end_ = 1020000000 ∧ y.oracles = [oracle_a, oracle_b] :=
  have hw := epochs_numbered_chained_frozen example_host revealed_a reachable_revealed_a
    { epoch := 1, enabled := true } rfl (by decide)
  ⟨hw.1, hw.2.2.2 revealed_ab later_revealed_ab
    { epoch := 1, start := 960000000, end_ := 1020000000,
      oracles := [oracle_a, oracle_b], completed := 0 } (by decide)⟩

/-! ## The counting maps of `transfer` and `destroy` -/

/-- The counting map of the first loop of `transfer`: the creation epochs of
the listed drops, counted one after the other. -/
theorem transfer_drops_map (from_ to_ : name) :
    ∀ (ids : List Nat) (drops : List drop_row) (m : List (Nat × Nat)) (drops1 : List drop_row)
      (m1 : List (Nat × Nat)),
      transfer_drops from_ to_ ids drops m = .ok (drops1, m1) →
      m1 = (ids.map (fun id =>
        ((drops.find? (fun r => r.drops == id)).map (fun d => d.epoch)).getD 0)).foldl
          (fun m k => map_incr k m) m := by
  intro ids
  induction ids with
  | nil =>
    intro drops m drops1 m1 hok
    simp only [transfer_drops] at hok
    injection hok with hok
    injection hok with h1 h2
    rw [← h2]; rfl
  | cons id ids ih =>
    intro drops m drops1 m1 hok
    simp only [transfer_drops] at hok
    cases hf : drops.find? (fun r => r.drops == id) with
    | none => rw [hf] at hok; cases hok
    | some d =>
      rw [hf] at hok
      simp only [] at hok
      by_cases hown : d.owner ≠ from_
      · rw [if_pos hown] at hok; cases hok
      rw [if_neg hown] at hok
      rw [ih _ _ drops1 m1 hok, List.map_cons, List.foldl_cons, hf]
      congr 1
      apply List.map_congr_left
      intro id1 _
      rw [find?_modify_key (fun r : drop_row => r.drops) (fun r => { r with owner := to_ })
        (fun _ => rfl) id id1 drops]
      by_cases hid : id = id1
      · rw [if_pos hid]
        cases drops.find? (fun r => r.drops == id1) <;> rfl
      · rw [if_neg hid]

/-- The counting map of the first loop of `destroy`, on a drop table without
two rows of one id. -/
theorem destroy_drops_map (owner : name) :
    ∀ (ids : List Nat) (drops : List drop_row) (m : List (Nat × Nat)) (drops1 : List drop_row)
      (m1 : List (Nat × Nat)),
      destroy_drops owner ids drops m = .ok (drops1, m1) →
      drops.Pairwise (fun a b => a.drops ≠ b.drops) →
      m1 = (ids.map (fun id =>
        ((drops.find? (fun r => r.drops == id)).map (fun d => d.epoch)).getD 0)).foldl
          (fun m k => map_incr k m) m := by
  intro ids
  induction ids with
  | nil =>
    intro drops m drops1 m1 hok _
    simp only [destroy_drops] at hok
    injection hok with hok
    injection hok with h1 h2
    rw [← h2]; rfl
  | cons id ids ih =>
    intro drops m drops1 m1 hok hu
    obtain ⟨hnd, -, -⟩ := destroy_drops_rows owner (id :: ids) drops m drops1 m1 hok hu
    have hnot : id ∉ ids := (List.nodup_cons.1 hnd).1
    simp only [destroy_drops] at hok
    cases hf : drops.find? (fun r => r.drops == id) with
    | none => rw [hf] at hok; cases hok
    | some d =>
      rw [hf] at hok
      simp only [] at hok
      by_cases hown : d.owner ≠ owner
      · rw [if_pos hown] at hok; cases hok
      rw [if_neg hown] at hok
      rw [ih _ _ drops1 m1 hok (hu.sublist (List.eraseP_sublist _)), List.map_cons,
        List.foldl_cons, hf]
      congr 1
      apply List.map_congr_left
      intro id1 hid1
      have hne : id ≠ id1 := fun hc => hnot (hc ▸ hid1)
      rw [find?_eraseP_key (fun r : drop_row => r.drops) id id1 hne]

/-- The counts of a counting map built from the listed drops, all of which
are in the drop table: in key order, positive, and for every epoch the
number of listed drops created in it. -/
theorem listed_map_spec (drops : List drop_row) (ids : List Nat)
    (hfound : ∀ id ∈ ids, ∃ d, drops.find? (fun r => r.drops == id) = some d)
    (hlen : ids.length < 2 ^ 64) (m1 : List (Nat × Nat))
    (hm : m1 = (ids.map (fun id =>
        ((drops.find? (fun r => r.drops == id)).map (fun d => d.epoch)).getD 0)).foldl
          (fun m k => map_incr k m) []) :
    m1.Pairwise (fun a b => a.1 < b.1) ∧
    ∀ p ∈ m1, 0 < p.2 ∧ p.2 = listed_in drops ids p.1 := by
  obtain ⟨h1, h2, -, -, h5⟩ := map_incr_fold_spec
    (ids.map (fun id => ((drops.find? (fun r => r.drops == id)).map (fun d => d.epoch)).getD 0))
    [] List.Pairwise.nil (fun p hp => absurd hp (List.not_mem_nil _))
    (by simpa using hlen)
  rw [← hm] at h1 h2 h5
  refine ⟨h1, fun p hp => ⟨h2 p hp, ?_⟩⟩
  rw [← map_sum_sorted_mem m1 h1 p hp, h5, map_sum_nil, Nat.zero_add, List.count,
    List.countP_map]
  unfold listed_in
  apply List.countP_congr
  intro id hid
  obtain ⟨d, hd⟩ := hfound id hid
  simp [hd]

/-! ## The rows a decrement needs are there -/

theorem mem_modify_or {α : Type} (p : α → Bool) (f : α → α) (t : List α) (a : α) (ha : a ∈ t) :
    a ∈ modify p f t ∨ f a ∈ modify p f t := by
  induction t with
  | nil => cases ha
  | cons y t ih =>
    simp only [modify]
    by_cases hy : p y = true
    · rw [if_pos hy]
      rcases List.mem_cons.1 ha with rfl | ha1
      · exact Or.inr (List.mem_cons_self _ _)
      · exact Or.inl (List.mem_cons_of_mem _ ha1)
    · rw [if_neg hy]
      rcases List.mem_cons.1 ha with rfl | ha1
      · exact Or.inl (List.mem_cons_self _ _)
      · rcases ih ha1 with h1 | h1
        · exact Or.inl (List.mem_cons_of_mem _ h1)
        · exact Or.inr (List.mem_cons_of_mem _ h1)

theorem find?_modify_some {α : Type} (p q : α → Bool) (f : α → α) (t : List α)
    (hq : ∀ x, q (f x) = q x) (a : α) (ha : t.find? q = some a) :
    ∃ b, (modify p f t).find? q = some b := by
  have hqa := List.find?_some ha
  rcases mem_modify_or p f t a (List.mem_of_find?_eq_some ha) with h1 | h1
  · exact find?_isSome_of_mem q _ a h1 hqa
  · exact find?_isSome_of_mem q _ (f a) h1 (by rw [hq]; exact hqa)

/-- The loop that takes counted drops off stat rows goes through when every
stat row it looks up is there. -/
theorem decrement_stats_some (account : name) :
    ∀ (m : List (Nat × Nat)) (stats : List stat_row),
      (∀ p ∈ m, ∃ x, stats.find? (fun r => r.account == account && r.epoch == p.1) = some x) →
      ∃ stats1, decrement_stats account m stats = .ok stats1 := by
  intro m
  induction m with
  | nil =>
    intro stats _
    exact ⟨stats, rfl⟩
  | cons p m ih =>
    obtain ⟨e, n⟩ := p
    intro stats hrows
    obtain ⟨x, hx⟩ := hrows (e, n) (List.mem_cons_self _ _)
    simp only [decrement_stats]
    rw [hx]
    simp only []
    apply ih
    intro p hp
    obtain ⟨y, hy⟩ := hrows p (List.mem_cons_of_mem _ hp)
    exact find?_modify_some _ _ _ stats (fun _ => rfl) y hy

/-- In a storage with the ledger invariant and fewer than `2^64` drops, an
account that owns at least the listed drops, epoch by epoch, has the account
row and the stat rows a decrement by the counting map `m` looks up, each
holding at least what is taken off, and the decrement of the stat rows goes
through. -/
theorem ledger_rows_suffice (s : State) (hi : ledger_inv s) (hcap : s.drops.length < 2 ^ 64)
    (A : name) (ids : List Nat) (hne : ids ≠ []) (m : List (Nat × Nat))
    (htot : ids.length ≤ tokens_of s.drops A)
    (hin : ∀ e, listed_in s.drops ids e ≤ tokens_in s.drops A e)
    (hm : ∀ p ∈ m, 0 < p.2 ∧ p.2 = listed_in s.drops ids p.1) :
    (∃ a, s.accounts.find? (fun r => r.account == A) = some a ∧ ids.length ≤ a.drops) ∧
    (∀ p ∈ m, ∃ x, s.stats.find? (fun r => r.account == A && r.epoch == p.1) = some x ∧
      p.2 ≤ x.drops) ∧
    ∃ stats1, decrement_stats A m s.stats = .ok stats1 := by
  have hlen : 0 < ids.length := List.length_pos.2 hne
  have hacc := account_total_eq s hi hcap A
  have hrows : ∀ p ∈ m, ∃ x,
      s.stats.find? (fun r => r.account == A && r.epoch == p.1) = some x ∧ p.2 ≤ x.drops := by
    intro p hp
    obtain ⟨hpos, hval⟩ := hm p hp
    have hst := stat_total_eq s hi hcap A p.1
    have hle := hin p.1
    unfold stat_total at hst
    cases hf : s.stats.find? (fun r => r.account == A && r.epoch == p.1) with
    | none =>
      rw [hf] at hst
      simp only [Option.map_none', Option.getD_none] at hst
      omega
    | some x =>
      rw [hf] at hst
      simp only [Option.map_some', Option.getD_some] at hst
      exact ⟨x, rfl, by omega⟩
  refine ⟨?_, hrows, ?_⟩
  · unfold account_total at hacc
    cases hf : s.accounts.find? (fun r => r.account == A) with
    | none =>
      rw [hf] at hacc
      simp only [Option.map_none', Option.getD_none] at hacc
      omega
    | some a =>
      rw [hf] at hacc
      simp only [Option.map_some', Option.getD_some] at hacc
      exact ⟨a, rfl, by omega⟩
  · apply decrement_stats_some
    intro p hp
    obtain ⟨x, hx, -⟩ := hrows p hp
    exact ⟨x, hx⟩

/-- C26: in every reachable storage with fewer than `2^64` drops, the stat
counts of an account for an epoch add up to the number of drops the account
owns that were created in the epoch, and the total of an account (zero
without an account row) is the number of drops it owns. So when the first
loop of `transfer` between two different accounts, or of `destroy`, has
passed its checks for a list of ids that is not empty, the account row and
the stat rows of the paying side that are decremented exist, each holds at
least the number taken off it, and the loop over the stat rows goes through:
no subtraction wraps below zero. -/
theorem ledger_counts_exact (h : Host) (s : State) (hr : Reachable h s)
    (hcap : s.drops.length < 2 ^ 64) :
    (∀ A e, (stat_counts s.stats A e).sum = tokens_in s.drops A e) ∧
    (∀ A, account_total s.accounts A = tokens_of s.drops A) ∧
    (∀ from_ to_ ids drops1 m, from_ ≠ to_ → ids ≠ [] →
      transfer_drops from_ to_ ids s.drops [] = .ok (drops1, m) →
      (∃ a, s.accounts.find? (fun r => r.account == from_) = some a ∧ ids.length ≤ a.drops) ∧
      (∀ p ∈ m, ∃ x, s.stats.find? (fun r => r.account == from_ && r.epoch == p.1) = some x ∧
        p.2 ≤ x.drops) ∧
      ∃ stats1, decrement_stats from_ m s.stats = .ok stats1) ∧
    (∀ owner ids drops1 m, ids ≠ [] →
      destroy_drops owner ids s.drops [] = .ok (drops1, m) →
      (∃ a, s.accounts.find? (fun r => r.account == owner) = some a ∧ ids.length ≤ a.drops) ∧
      (∀ p ∈ m, ∃ x, s.stats.find? (fun r => r.account == owner && r.epoch == p.1) = some x ∧
        p.2 ≤ x.drops) ∧
      ∃ stats1, decrement_stats owner m s.stats = .ok stats1) := by
  have hi := reachable_ledger_inv h s hr
  have hu := pairwise_ne_of_lt (fun r : drop_row => r.drops) s.drops
    (reachable_drops_sorted h s hr)
  refine ⟨?_, account_total_eq s hi hcap, ?_, ?_⟩
  · intro A e
    exact stat_shape_sum _ _ (lt_of_le_of_lt (List.countP_le_length _) hcap) (hi.stats A e)
  · intro from_ to_ ids drops1 m hne hids htd
    obtain ⟨-, hlisted, -⟩ := transfer_drops_rows from_ to_ hne ids s.drops [] drops1 m htd
    obtain ⟨htot, hin⟩ := transfer_drops_tokens from_ to_ ids s.drops [] drops1 m htd
    have hto : ¬ from_ = to_ := hne
    have htot1 : ids.length ≤ tokens_of s.drops from_ := by
      have := htot from_
      rw [if_pos rfl, if_neg hto] at this
      omega
    have hin1 : ∀ e, listed_in s.drops ids e ≤ tokens_in s.drops from_ e := by
      intro e
      have := hin from_ e
      rw [if_pos rfl, if_neg hto] at this
      omega
    have hlen : ids.length < 2 ^ 64 :=
      lt_of_le_of_lt (le_trans htot1 (List.countP_le_length _)) hcap
    obtain ⟨-, hm⟩ := listed_map_spec s.drops ids
      (fun id hid => by
        obtain ⟨d, hd, -⟩ := hlisted id hid
        exact ⟨d, hd⟩) hlen m
      (transfer_drops_map from_ to_ ids s.drops [] drops1 m htd)
    exact ledger_rows_suffice s hi hcap from_ ids hids m htot1 hin1 hm
  · intro owner ids drops1 m hids hdd
    obtain ⟨-, hlisted, -⟩ := destroy_drops_rows owner ids s.drops [] drops1 m hdd hu
    obtain ⟨htot, hin, -⟩ := destroy_drops_tokens owner ids s.drops [] drops1 m hdd hu
    have htot1 : ids.length ≤ tokens_of s.drops owner := by
      have := htot owner
      rw [if_pos rfl] at this
      omega
    have hin1 : ∀ e, listed_in s.drops ids e ≤ tokens_in s.drops owner e := by
      intro e
      have := hin owner e
      rw [if_pos rfl] at this
      omega
    have hlen : ids.length < 2 ^ 64 :=
      lt_of_le_of_lt (le_trans htot1 (List.countP_le_length _)) hcap
    obtain ⟨-, hm⟩ := listed_map_spec s.drops ids
      (fun id hid => by
        obtain ⟨d, hd, -⟩ := hlisted id hid
        exact ⟨d, hd⟩) hlen m
      (destroy_drops_map owner ids s.drops [] drops1 m hdd hu)
    exact ledger_rows_suffice s hi hcap owner ids hids m htot1 hin1 hm

set_option maxRecDepth 100000 in
theorem ledger_counts_exact_witness :
    (stat_counts traded.stats alice 1).sum = tokens_in traded.drops alice 1 ∧
    account_total traded.accounts alice = tokens_of traded.drops alice ∧
    ∃ a, traded.accounts.find? (fun r => r.account == alice) = some a ∧ 1 ≤ a.drops :=
  have hw := ledger_counts_exact example_host traded reachable_traded (by decide)
  ⟨hw.1 alice 1, hw.2.1 alice,
   (hw.2.2.2 alice [5822345759917624829]
      [{ drops := 0, owner := eosio, epoch := 1 },
       { drops := 10935939636855069143, owner := alice, epoch := 1 },
       { drops := 16049534613270587057, owner := bob, epoch := 1 }]
      [(1, 1)] (by decide) rfl).1⟩

/-! ## The function `split` -/

theorem find_from_eq (p q : Char → Bool) (hq : ∀ c, q c = !p c) :
    ∀ (l : List Char) (i : Nat),
      find_from p l i
        = if l.dropWhile q = [] then none else some (i + (l.takeWhile q).length) := by
  intro l
  induction l with
  | nil => intro i; rfl
  | cons c cs ih =>
    intro i
    simp only [find_from]
    by_cases hp : p c = true
    · have hqc : q c = false := by rw [hq, hp]; rfl
      rw [if_pos hp, List.dropWhile_cons_of_neg (by simp [hqc]),
        List.takeWhile_cons_of_neg (by simp [hqc]), if_neg (List.cons_ne_nil _ _)]
      rfl
    · have hqc : q c = true := by rw [hq]; simpa using hp
      rw [if_neg hp, ih, List.dropWhile_cons_of_pos hqc, List.takeWhile_cons_of_pos hqc,
        List.length_cons]
      split
      · rfl
      · congr 1
        omega

theorem drop_length_takeWhile (q : Char → Bool) (l : List Char) :
    l.drop (l.takeWhile q).length = l.dropWhile q := by
  have := List.drop_left (l.takeWhile q) (l.dropWhile q)
  rwa [List.takeWhile_append_dropWhile] at this

theorem take_length_takeWhile (q : Char → Bool) (l : List Char) :
    l.take (l.takeWhile q).length = l.takeWhile q := by
  have := List.take_left (l.takeWhile q) (l.dropWhile q)
  rwa [List.takeWhile_append_dropWhile] at this

theorem head_dropWhile (q : Char → Bool) (l : List Char) (c : Char) (cs : List Char)
    (hl : l.dropWhile q = c :: cs) : q c = false := by
  induction l with
  | nil => cases hl
  | cons x xs ih =>
    by_cases hx : q x = true
    · rw [List.dropWhile_cons_of_pos hx] at hl
      exact ih hl
    · rw [List.dropWhile_cons_of_neg hx] at hl
      injection hl with h1 h2
      rw [← h1]
      simpa using hx

/-- The runs of a text whose current run is `cur`: the current run extended
to the next delimiter, when that is not empty, and then the runs of the
rest. -/
theorem runs_from_eq (d : Char) :
    ∀ (l cur : List Char),
      runs_from d l cur
        = (if cur ++ l.takeWhile (fun c => c != d) = [] then []
            else [cur ++ l.takeWhile (fun c => c != d)])
          ++ runs_from d (l.dropWhile (fun c => c != d)) [] := by
  intro l
  induction l with
  | nil =>
    intro cur
    simp only [runs_from, List.takeWhile_nil, List.dropWhile_nil, List.append_nil]
    split <;> simp
  | cons c cs ih =>
    intro cur
    by_cases hc : c = d
    · subst hc
      simp only [runs_from, if_true, bne_self_eq_false, Bool.false_eq_true, not_false_eq_true,
        List.takeWhile_cons_of_neg, List.dropWhile_cons_of_neg, List.append_nil]
      split <;> simp
    · have hb : (c != d) = true := by simpa using hc
      simp only [runs_from, if_neg hc]
      rw [ih, List.takeWhile_cons_of_pos (p := fun c => c != d) hb,
        List.dropWhile_cons_of_pos (p := fun c => c != d) hb]
      simp only [List.append_assoc, List.singleton_append]

theorem runs_from_skip (d : Char) :
    ∀ l : List Char, runs_from d l [] = runs_from d (l.dropWhile (fun c => c == d)) [] := by
  intro l
  induction l with
  | nil => rfl
  | cons c cs ih =>
    by_cases hc : c = d
    · subst hc
      rw [List.dropWhile_cons_of_pos (by simp)]
      simp only [runs_from, if_true]
      exact ih
    · rw [List.dropWhile_cons_of_neg (by simpa using hc)]

/-- The loop of `split` from the position `pos` on, with fuel for the rest of
the text: it appends the maximal runs of the rest. -/
theorem split_loop_eq (l : List Char) (d : Char) :
    ∀ (fuel pos : Nat) (strings : List String), (l.drop pos).length < fuel →
      split_loop l d fuel (some pos) strings
        = strings ++ (maximal_runs d (l.drop pos)).map String.mk := by
  intro fuel
  induction fuel with
  | zero => intro pos strings hf; omega
  | succ f ih =>
    intro pos strings hf
    have hfirst := find_from_eq (fun c => c != d) (fun c => c == d) (fun c => by simp [bne])
      (l.drop pos) pos
    have hskip := runs_from_skip d (l.drop pos)
    simp only [split_loop, find_first_not_of]
    rw [hfirst]
    unfold maximal_runs
    rw [hskip]
    cases hdw : (l.drop pos).dropWhile (fun c => c == d) with
    | nil =>
      rw [if_pos rfl]
      simp [runs_from]
    | cons c cs =>
      rw [if_neg (List.cons_ne_nil _ _)]
      simp only []
      have hcd : (c == d) = false := head_dropWhile _ _ c cs hdw
      have hstart : l.drop (pos + ((l.drop pos).takeWhile (fun c => c == d)).length)
          = c :: cs := by
        rw [← List.drop_drop, drop_length_takeWhile, hdw]
      have hchar := find_from_eq (fun c => c == d) (fun c => c != d) (fun c => by simp [bne])
        (c :: cs) (pos + ((l.drop pos).takeWhile (fun c => c == d)).length)
      unfold find_char
      rw [hstart, hchar]
      have hrun := runs_from_eq d (c :: cs) []
      have htw : (c :: cs).takeWhile (fun c => c != d) ≠ [] := by
        rw [List.takeWhile_cons_of_pos (by simp [bne, hcd])]
        exact List.cons_ne_nil _ _
      rw [List.nil_append, if_neg htw] at hrun
      rw [hrun]
      have hsplit := List.takeWhile_append_dropWhile (fun c => c != d) (c :: cs)
      cases hafter : (c :: cs).dropWhile (fun c => c != d) with
      | nil =>
        rw [if_pos rfl]
        rw [hafter, List.append_nil] at hsplit
        have hsub : substr l (pos + ((l.drop pos).takeWhile (fun c => c == d)).length) none
            = String.mk ((c :: cs).takeWhile (fun c => c != d)) := by
          unfold substr
          rw [hstart, hsplit]
        rw [hsub]
        cases f with
        | zero => simp [split_loop, runs_from]
        | succ f1 => simp [split_loop, runs_from]
      | cons c1 cs1 =>
        rw [if_neg (List.cons_ne_nil _ _)]
        have hsub : substr l (pos + ((l.drop pos).takeWhile (fun c => c == d)).length)
            (some (pos + ((l.drop pos).takeWhile (fun c => c == d)).length
              + ((c :: cs).takeWhile (fun c => c != d)).length))
            = String.mk ((c :: cs).takeWhile (fun c => c != d)) := by
          unfold substr
          simp only [Nat.add_sub_cancel_left]
          rw [hstart, take_length_takeWhile]
        rw [hsub]
        have hnext : l.drop (pos + ((l.drop pos).takeWhile (fun c => c == d)).length
              + ((c :: cs).takeWhile (fun c => c != d)).length) = c1 :: cs1 := by
          rw [← List.drop_drop, hstart, drop_length_takeWhile, hafter]
        have hlen1 : (c :: cs).length ≤ (l.drop pos).length := by
          rw [← hdw]
          exact (List.dropWhile_sublist _).length_le
        have hlen2 : (c1 :: cs1).length < (c :: cs).length := by
          have h1 : ((c :: cs).takeWhile (fun c => c != d)).length
              + (c1 :: cs1).length = (c :: cs).length := by
            rw [← List.length_append, ← hafter, hsplit]
          have h2 : 0 < ((c :: cs).takeWhile (fun c => c != d)).length :=
            List.length_pos.2 htw
          omega
        rw [ih _ _ (by rw [hnext]; omega), hnext]
        unfold maximal_runs
        simp only [List.map_cons, List.map_append, List.append_assoc, List.singleton_append,
          List.cons_append, List.nil_append, List.map_nil]

/-- The function `split` returns the maximal runs of its text. -/
theorem split_eq_maximal_runs (s : String) (d : Char) :
    split s d = (maximal_runs d s.toList).map String.mk := by
  unfold split
  rw [split_loop_eq s.toList d _ 0 [] (by simp)]
  simp

theorem runs_from_ne_nil (d : Char) :
    ∀ (l cur : List Char), ∀ r ∈ runs_from d l cur, r ≠ [] := by
  intro l
  induction l with
  | nil =>
    intro cur r hr
    simp only [runs_from] at hr
    split at hr
    · cases hr
    · rw [List.mem_singleton] at hr
      rw [hr]; assumption
  | cons c cs ih =>
    intro cur r hr
    simp only [runs_from] at hr
    split at hr
    · split at hr
      · exact ih [] r hr
      · rcases List.mem_cons.1 hr with rfl | hr1
        · assumption
        · exact ih [] r hr1
    · exact ih _ r hr

theorem runs_from_not_mem (d : Char) :
    ∀ (l cur : List Char), d ∉ cur → ∀ r ∈ runs_from d l cur, d ∉ r := by
  intro l
  induction l with
  | nil =>
    intro cur hcur r hr
    simp only [runs_from] at hr
    split at hr
    · cases hr
    · rw [List.mem_singleton] at hr
      rw [hr]; exact hcur
  | cons c cs ih =>
    intro cur hcur r hr
    simp only [runs_from] at hr
    split at hr
    · split at hr
      · exact ih [] (List.not_mem_nil _) r hr
      · rcases List.mem_cons.1 hr with rfl | hr1
        · exact hcur
        · exact ih [] (List.not_mem_nil _) r hr1
    · rename_i hc
      refine ih _ ?_ r hr
      intro hmem
      rcases List.mem_append.1 hmem with h1 | h1
      · exact hcur h1
      · rw [List.mem_singleton] at h1
        exact hc h1.symm

theorem runs_from_flatten (d : Char) :
    ∀ (l cur : List Char),
      (runs_from d l cur).flatten = cur ++ l.filter (fun c => c != d) := by
  intro l
  induction l with
  | nil =>
    intro cur
    simp only [runs_from]
    split
    · rename_i hc
      rw [hc]; rfl
    · simp
  | cons c cs ih =>
    intro cur
    simp only [runs_from]
    by_cases hc : c = d
    · subst hc
      rw [if_pos rfl, List.filter_cons_of_neg (by simp)]
      split
      · rename_i hcur
        rw [ih, hcur]
      · rw [List.flatten_cons, ih, List.nil_append]
    · rw [if_neg hc, ih, List.filter_cons_of_pos (by simpa using hc), List.append_assoc]
      rfl

/-- C28: for every text and delimiter, `split` returns the maximal non-empty
runs of characters other than the delimiter, in order. So every piece is
non-empty and free of the delimiter, the pieces put together give the text
without its delimiters, `split("3,seed", ',')` is `["3", "seed"]`, and there
are exactly two pieces exactly when the text has exactly two such runs. -/
theorem split_spec (s : String) (d : Char) :
    split s d = (maximal_runs d s.toList).map String.mk ∧
    (∀ p ∈ split s d, p ≠ "" ∧ d ∉ p.toList) ∧
    ((split s d).map String.toList).flatten = s.toList.filter (fun c => c != d) ∧
    split "3,seed" ',' = ["3", "seed"] ∧
    ((split s d).length = 2 ↔ (maximal_runs d s.toList).length = 2) := by
  have heq := split_eq_maximal_runs s d
  refine ⟨heq, ?_, ?_, rfl, ?_⟩
  · intro p hp
    rw [heq] at hp
    obtain ⟨r, hr, rfl⟩ := List.mem_map.1 hp
    constructor
    · intro hc
      have h1 : r = [] := congrArg String.toList hc
      exact runs_from_ne_nil d s.toList [] r hr h1
    · exact runs_from_not_mem d s.toList [] (List.not_mem_nil _) r hr
  · rw [heq, List.map_map]
    have hid : (String.toList ∘ String.mk) = id := rfl
    rw [hid, List.map_id]
    exact runs_from_flatten d s.toList []
  · rw [heq, List.length_map]

end drops
